import Mathlib

/-! # clox: the single-pass expression compiler and the bytecode disassembler

A shallow embedding of `src/clox/src/compiler.c` and `src/clox/src/debug.c`.
The C globals (`parser`, `compilingChunk`, the scanner, standard error) are
one explicit `State` that every function takes and returns.  A call through a
`NULL` function pointer is the fault `Fault.nullCall`.
-/

namespace Clox

/-! ## Bytes, opcodes, values, chunks -/

/-- The C type `uint8_t`. -/
abbrev Byte := Fin 256

/-- Modelled from the spec: the `OpCode` enum of `chunk.h` is not among the
sources; the opcodes are numbered in the order of the `case` labels of
`disassembleInstruction` (debug.c:160-267). -/
inductive OpCode
  | OP_CONSTANT | OP_CONSTANT_LONG | OP_NIL | OP_TRUE | OP_FALSE | OP_POP | OP_POPN
  | OP_GET_LOCAL | OP_GET_LOCAL_LONG | OP_SET_LOCAL | OP_SET_LOCAL_LONG
  | OP_GET_GLOBAL | OP_GET_GLOBAL_LONG | OP_DEFINE_GLOBAL | OP_DEFINE_GLOBAL_LONG
  | OP_SET_GLOBAL | OP_SET_GLOBAL_LONG | OP_GET_UPVALUE | OP_GET_UPVALUE_LONG
  | OP_SET_UPVALUE | OP_SET_UPVALUE_LONG | OP_GET_PROPERTY | OP_GET_PROPERTY_LONG
  | OP_SET_PROPERTY | OP_SET_PROPERTY_LONG | OP_GET_SUPER | OP_GET_SUPER_LONG
  | OP_EQUAL | OP_GREATER | OP_LESS | OP_NEGATE | OP_ADD | OP_SUBTRACT | OP_MULTIPLY
  | OP_DIVIDE | OP_NOT | OP_PRINT | OP_JUMP | OP_JUMP_IF_FALSE | OP_LOOP | OP_CALL
  | OP_INVOKE | OP_INVOKE_LONG | OP_SUPER_INVOKE | OP_SUPER_INVOKE_LONG
  | OP_CLOSURE | OP_CLOSURE_LONG | OP_CLOSE_UPVALUE | OP_RETURN | OP_CLASS
  | OP_CLASS_LONG | OP_INHERIT | OP_METHOD | OP_METHOD_LONG
  deriving DecidableEq, Repr

/-- The byte an opcode is written as: its position in the enum. -/
def OpCode.toByte (op : OpCode) : Byte :=
  ⟨op.toCtorIdx % 256, Nat.mod_lt _ (by decide)⟩

/-- A C `double`.  Floating point is not interpreted: the number is kept as
the text `strtod` parsed it from. -/
structure Double where
  text : List Char
  deriving DecidableEq, Repr

/-- The heap string of `object.h` (`struct sObjString`): `length` and `chars`. -/
structure ObjString where
  length : Nat
  chars : List Char
  deriving DecidableEq, Repr

/-- Modelled from the spec: the function object of spec 3.2 (`ObjFunction`,
used by debug.c:106 and declared outside the sources), without its chunk:
the disassembler reads `upvalueCount` only. -/
structure ObjFunction where
  arity : Nat
  upvalueCount : Nat
  name : List Char
  deriving DecidableEq, Repr

/-- Modelled from the spec: `value.h` is not among the sources; of the
variants of spec 3.1 the compiler builds numbers (`NUMBER_VAL`) and string
objects (`OBJ_VAL`); `OBJ_FUNCTION_VAL` is the object value of a function,
which the disassembler reads through `AS_FUNCTION`. -/
inductive Value
  | NIL_VAL
  | BOOL_VAL (b : Bool)
  | NUMBER_VAL (d : Double)
  | OBJ_VAL (o : ObjString)
  | OBJ_FUNCTION_VAL (f : ObjFunction)
  deriving DecidableEq, Repr

/-- Modelled from the spec: `chunk.h` is not among the sources.  Spec 3.3: the
opcode bytes `code[]` (`aryB` in debug.c), the constant pool
(`aryValConstants`) and the run-length-encoded line map, a sequence of
`(line, run_length)` pairs. -/
structure Chunk where
  aryB : List Byte
  aryValConstants : List Value
  lines : List (Nat × Nat)
  deriving DecidableEq, Repr

/-- The chunk `initChunk` leaves: nothing written yet. -/
def Chunk.empty : Chunk := ⟨[], [], []⟩

/-- Constant `UINT8_COUNT` of common.h:83. -/
def UINT8_COUNT : Nat := 255 + 1

/-- Constant `UINT24_MAX` of common.h:85. -/
def UINT24_MAX : Nat := 16777215

/-- Constant `UINT24_COUNT` of common.h:86. -/
def UINT24_COUNT : Nat := UINT24_MAX + 1

/-- Modelled from the spec: the line map of spec 3.3 after one more byte of
source line `line`: the last run grows when it is a run of the same line,
otherwise a new run of length one starts. -/
def addLine : List (Nat × Nat) → Nat → List (Nat × Nat)
  | [], line => [(line, 1)]
  | [(l, n)], line => if l = line then [(l, n + 1)] else [(l, n), (line, 1)]
  | r :: r2 :: rest, line => r :: addLine (r2 :: rest) line

/-- Modelled from the spec: `writeChunk` of `chunk.c` (not among the sources)
appends one byte to `code[]` and records its source line. -/
def writeChunk (chunk : Chunk) (byte : Byte) (line : Nat) : Chunk :=
  { chunk with aryB := chunk.aryB ++ [byte], lines := addLine chunk.lines line }

/-- Modelled from the spec: `writeConstant` of `chunk.c` (not among the
sources).  Spec 3.3 and 9: the pool holds up to 2^24 values; the new constant
is loaded with the short form `OP_CONSTANT i` when its index fits one byte and
with `OP_CONSTANT_LONG` and a 3-byte big-endian index otherwise; when the pool
is full nothing is written and the result is `false`. -/
def writeConstant (chunk : Chunk) (value : Value) (line : Nat) : Bool × Chunk :=
  let constant := chunk.aryValConstants.length
  let added := { chunk with aryValConstants := chunk.aryValConstants ++ [value] }
  if constant < UINT8_COUNT then
    (true, writeChunk (writeChunk added OpCode.OP_CONSTANT.toByte line)
      ⟨constant % 256, Nat.mod_lt _ (by decide)⟩ line)
  else if constant < UINT24_COUNT then
    (true, writeChunk (writeChunk (writeChunk (writeChunk added
      OpCode.OP_CONSTANT_LONG.toByte line)
      ⟨constant / 65536 % 256, Nat.mod_lt _ (by decide)⟩ line)
      ⟨constant / 256 % 256, Nat.mod_lt _ (by decide)⟩ line)
      ⟨constant % 256, Nat.mod_lt _ (by decide)⟩ line)
  else
    (false, chunk)

/-! ## Tokens and the scanner -/

/-- Modelled from the spec: the `TokenType` enum of `scanner.h` is not among
the sources; the kinds are those of spec 6, in the order in which the `rules`
table (compiler.c:268-310) is indexed by them. -/
inductive TokenType
  | TOKEN_LEFT_PAREN | TOKEN_RIGHT_PAREN | TOKEN_LEFT_BRACE | TOKEN_RIGHT_BRACE
  | TOKEN_COMMA | TOKEN_DOT | TOKEN_MINUS | TOKEN_PLUS | TOKEN_SEMICOLON
  | TOKEN_SLASH | TOKEN_STAR | TOKEN_BANG | TOKEN_BANG_EQUAL | TOKEN_EQUAL
  | TOKEN_EQUAL_EQUAL | TOKEN_GREATER | TOKEN_GREATER_EQUAL | TOKEN_LESS
  | TOKEN_LESS_EQUAL | TOKEN_IDENTIFIER | TOKEN_STRING | TOKEN_NUMBER
  | TOKEN_AND | TOKEN_CLASS | TOKEN_ELSE | TOKEN_FALSE | TOKEN_FOR | TOKEN_FUN
  | TOKEN_IF | TOKEN_NIL | TOKEN_OR | TOKEN_PRINT | TOKEN_RETURN | TOKEN_SUPER
  | TOKEN_THIS | TOKEN_TRUE | TOKEN_VAR | TOKEN_WHILE | TOKEN_ERROR | TOKEN_EOF
  deriving DecidableEq, Repr

/-- Modelled from the spec: `Token {kind, start, length, line}` of spec 6.
`lexeme` is the text of `length` characters at `start`; for an error token it
is the message payload. -/
structure Token where
  type : TokenType
  lexeme : List Char
  line : Nat
  deriving DecidableEq, Repr

/-- Modelled from the spec: the scanner (`scanner.c`, an external collaborator
of spec 1 and 6) is a pure token stream: the tokens still to be handed out,
and the line of the end-of-file token it returns once they are used up. -/
structure Scanner where
  tokens : List Token
  eofLine : Nat
  deriving DecidableEq, Repr

/-- The end-of-file token of a source whose last line is `line`. -/
def eofToken (line : Nat) : Token := ⟨.TOKEN_EOF, [], line⟩

/-- Modelled from the spec: `scanToken` hands out the next token of the
stream, and the end-of-file token forever once the stream is used up. -/
def scanToken (sc : Scanner) : Token × Scanner :=
  match sc.tokens with
  | [] => (eofToken sc.eofLine, sc)
  | t :: rest => (t, { sc with tokens := rest })

/-! ## The compiler's state -/

/-- The `Parser` struct of compiler.c:18-25. -/
structure Parser where
  current : Token
  previous : Token
  hadError : Bool
  panicMode : Bool
  deriving DecidableEq, Repr

/-- Where `errorAt` says the error is: ` at end`, nothing (an error token),
or ` at '<lexeme>'` (compiler.c:120-131). -/
inductive ErrorLoc
  | atEnd
  | nowhere
  | atLexeme (text : List Char)
  deriving DecidableEq, Repr

/-- One line that `errorAt` prints on standard error:
`[line <line>] Error<loc>: <message>`. -/
structure Report where
  line : Nat
  loc : ErrorLoc
  message : List Char
  deriving DecidableEq, Repr

/-- The globals of compiler.c (`parser`, the chunk `compilingChunk` points
to, the scanner's state) and standard error.  `raised` is a ghost log: one
entry for every call of `errorAt`, printed or suppressed. -/
structure State where
  parser : Parser
  compilingChunk : Chunk
  scanner : Scanner
  stderr : List Report
  raised : List Report
  deriving DecidableEq, Repr

/-! The precedence levels of compiler.c:27-40 (`enum Precedence`) are their
enum values, natural numbers: `binary` adds one to a level. -/

def PREC_NONE : Nat := 0
def PREC_ASSIGNMENT : Nat := 1
def PREC_OR : Nat := 2
def PREC_AND : Nat := 3
def PREC_EQUALITY : Nat := 4
def PREC_COMPARISON : Nat := 5
def PREC_TERM : Nat := 6
def PREC_FACTOR : Nat := 7
def PREC_UNARY : Nat := 8
def PREC_CALL : Nat := 9
def PREC_PRIMARY : Nat := 10

/-- The functions a `ParseFn` pointer of the `rules` table can point to. -/
inductive ParseFn
  | grouping | unary | binary | number | string | literal
  deriving DecidableEq, Repr

/-- The `ParseRule` struct of compiler.c:44-49; `none` is the `NULL`
pointer. -/
structure ParseRule where
  prefixFn : Option ParseFn
  infixFn : Option ParseFn
  precedence : Nat
  deriving DecidableEq, Repr

/-- Why a run stops without returning. -/
inductive Fault
  /-- Call of `infixFn()` with `infixFn == NULL` (compiler.c:329-330). -/
  | nullCall
  /-- The model's recursion budget is used up (never happens, see
  `parsePrecedence_fuel`). -/
  | outOfFuel
  deriving DecidableEq, Repr

/-! ## compiler.c -/

/-! The message strings of compiler.c. -/

def msgExpectEnd : List Char := "Expect end of expression.".toList
def msgExpectExpression : List Char := "Expect expression.".toList
def msgExpectParen : List Char := "Expect ')' after expression.".toList
def msgTooManyConstants : List Char := "Too many constants in one chunk".toList

/-- The line `errorAt` prints for `token` and `message` (compiler.c:118-133). -/
def reportOf (token : Token) (message : List Char) : Report :=
  { line := token.line
    loc := if token.type = .TOKEN_EOF then .atEnd
           else if token.type = .TOKEN_ERROR then .nowhere
           else .atLexeme token.lexeme
    message := message }

/-- Function `errorAt` (compiler.c:111-136): nothing but the ghost log changes when
the parser is in panic mode; otherwise panic mode is set, the line is
printed and `hadError` is set. -/
def errorAt (token : Token) (message : List Char) (s : State) : State :=
  let s := { s with raised := s.raised ++ [reportOf token message] }
  if s.parser.panicMode then s
  else
    { s with
      parser := { s.parser with panicMode := true, hadError := true }
      stderr := s.stderr ++ [reportOf token message] }

/-- Function `errorAtCurrent` (compiler.c:101-104). -/
def errorAtCurrent (message : List Char) (s : State) : State :=
  errorAt s.parser.current message s

/-- Function `error` (compiler.c:106-109). -/
def error (message : List Char) (s : State) : State :=
  errorAt s.parser.previous message s

/-- The `for (;;)` loop of `advance` (compiler.c:90-98), by recursion on the
tokens the scanner still holds (the second argument, `s.scanner.tokens` at
the call): `parser.current = scanToken()`, leave the loop unless it is an
error token, otherwise `errorAtCurrent` with its message and go round
again. -/
def advanceLoop (s : State) : List Token → State
  | [] =>
    { s with
      parser := { s.parser with current := (scanToken ⟨[], s.scanner.eofLine⟩).1 }
      scanner := (scanToken ⟨[], s.scanner.eofLine⟩).2 }
  | t :: rest =>
    let s1 : State :=
      { s with
        parser := { s.parser with current := (scanToken ⟨t :: rest, s.scanner.eofLine⟩).1 }
        scanner := (scanToken ⟨t :: rest, s.scanner.eofLine⟩).2 }
    if t.type ≠ .TOKEN_ERROR then s1
    else advanceLoop (errorAtCurrent s1.parser.current.lexeme s1) rest

/-- Function `advance` (compiler.c:86-99). -/
def advance (s : State) : State :=
  advanceLoop { s with parser := { s.parser with previous := s.parser.current } }
    s.scanner.tokens

/-- Function `consume` (compiler.c:138-147). -/
def consume (type : TokenType) (message : List Char) (s : State) : State :=
  if s.parser.current.type = type then advance s
  else errorAtCurrent message s

/-- Function `emitByte` (compiler.c:154-157). -/
def emitByte (byte : Byte) (s : State) : State :=
  { s with compilingChunk := writeChunk s.compilingChunk byte s.parser.previous.line }

/-- Function `emitBytes` (compiler.c:159-163). -/
def emitBytes (byte1 byte2 : Byte) (s : State) : State :=
  emitByte byte2 (emitByte byte1 s)

/-- Function `emitReturn` (compiler.c:165-168). -/
def emitReturn (s : State) : State :=
  emitByte OpCode.OP_RETURN.toByte s

/-- Function `emitConstant` (compiler.c:170-176). -/
def emitConstant (value : Value) (s : State) : State :=
  let r := writeConstant s.compilingChunk value s.parser.previous.line
  let s1 := { s with compilingChunk := r.2 }
  if !r.1 then error msgTooManyConstants s1 else s1

/-- Function `endCompiler` (compiler.c:178-188); `DEBUG_PRINT_CODE` only prints. -/
def endCompiler (s : State) : State :=
  emitReturn s

/-- The `rules` table (compiler.c:268-310), indexed by token type. -/
def rules : TokenType → ParseRule
  | .TOKEN_LEFT_PAREN => ⟨some .grouping, none, PREC_CALL⟩
  | .TOKEN_RIGHT_PAREN => ⟨none, none, PREC_NONE⟩
  | .TOKEN_LEFT_BRACE => ⟨none, none, PREC_NONE⟩
  | .TOKEN_RIGHT_BRACE => ⟨none, none, PREC_NONE⟩
  | .TOKEN_COMMA => ⟨none, none, PREC_NONE⟩
  | .TOKEN_DOT => ⟨none, none, PREC_CALL⟩
  | .TOKEN_MINUS => ⟨some .unary, some .binary, PREC_TERM⟩
  | .TOKEN_PLUS => ⟨none, some .binary, PREC_TERM⟩
  | .TOKEN_SEMICOLON => ⟨none, none, PREC_NONE⟩
  | .TOKEN_SLASH => ⟨none, some .binary, PREC_FACTOR⟩
  | .TOKEN_STAR => ⟨none, some .binary, PREC_FACTOR⟩
  | .TOKEN_BANG => ⟨some .unary, none, PREC_NONE⟩
  | .TOKEN_BANG_EQUAL => ⟨none, some .binary, PREC_EQUALITY⟩
  | .TOKEN_EQUAL => ⟨none, none, PREC_NONE⟩
  | .TOKEN_EQUAL_EQUAL => ⟨none, some .binary, PREC_EQUALITY⟩
  | .TOKEN_GREATER => ⟨none, some .binary, PREC_COMPARISON⟩
  | .TOKEN_GREATER_EQUAL => ⟨none, some .binary, PREC_COMPARISON⟩
  | .TOKEN_LESS => ⟨none, some .binary, PREC_COMPARISON⟩
  | .TOKEN_LESS_EQUAL => ⟨none, some .binary, PREC_COMPARISON⟩
  | .TOKEN_IDENTIFIER => ⟨none, none, PREC_NONE⟩
  | .TOKEN_STRING => ⟨some .string, none, PREC_NONE⟩
  | .TOKEN_NUMBER => ⟨some .number, none, PREC_NONE⟩
  | .TOKEN_AND => ⟨none, none, PREC_AND⟩
  | .TOKEN_CLASS => ⟨none, none, PREC_NONE⟩
  | .TOKEN_ELSE => ⟨none, none, PREC_NONE⟩
  | .TOKEN_FALSE => ⟨some .literal, none, PREC_NONE⟩
  | .TOKEN_FOR => ⟨none, none, PREC_NONE⟩
  | .TOKEN_FUN => ⟨none, none, PREC_NONE⟩
  | .TOKEN_IF => ⟨none, none, PREC_NONE⟩
  | .TOKEN_NIL => ⟨some .literal, none, PREC_NONE⟩
  | .TOKEN_OR => ⟨none, none, PREC_OR⟩
  | .TOKEN_PRINT => ⟨none, none, PREC_NONE⟩
  | .TOKEN_RETURN => ⟨none, none, PREC_NONE⟩
  | .TOKEN_SUPER => ⟨none, none, PREC_NONE⟩
  | .TOKEN_THIS => ⟨none, none, PREC_NONE⟩
  | .TOKEN_TRUE => ⟨some .literal, none, PREC_NONE⟩
  | .TOKEN_VAR => ⟨none, none, PREC_NONE⟩
  | .TOKEN_WHILE => ⟨none, none, PREC_NONE⟩
  | .TOKEN_ERROR => ⟨none, none, PREC_NONE⟩
  | .TOKEN_EOF => ⟨none, none, PREC_NONE⟩

/-- Function `getRule` (compiler.c:334-337). -/
def getRule (type : TokenType) : ParseRule :=
  rules type

/-- Function `strtod` of the C library, uninterpreted (see `Double`). -/
def strtod (text : List Char) : Double :=
  ⟨text⟩

/-- Modelled from the spec: `copyString(chars, length)` (declared in
object.h:35, defined outside the sources) builds the string object of the
first `length` characters of `chars` (spec 4.3). -/
def copyString (chars : List Char) (length : Nat) : ObjString :=
  ⟨length, chars.take length⟩

/-- Function `literal` (compiler.c:220-230). -/
def literal (s : State) : State :=
  match s.parser.previous.type with
  | .TOKEN_FALSE => emitByte OpCode.OP_FALSE.toByte s
  | .TOKEN_NIL => emitByte OpCode.OP_NIL.toByte s
  | .TOKEN_TRUE => emitByte OpCode.OP_TRUE.toByte s
  | _ => s

/-- Function `number` (compiler.c:238-242). -/
def number (s : State) : State :=
  let value := strtod s.parser.previous.lexeme
  emitConstant (.NUMBER_VAL value) s

/-- Function `string` (compiler.c:244-247): the characters from `start + 1`,
`length - 2` of them (a string token has its two quotes, so its length is at
least 2). -/
def string (s : State) : State :=
  emitConstant
    (.OBJ_VAL (copyString (s.parser.previous.lexeme.drop 1) (s.parser.previous.lexeme.length - 2))) s

/-- Function `expression` (compiler.c:339-342), over the recursive `parsePrecedence`. -/
def expression (pp : Nat → State → Except Fault State) (s : State) :
    Except Fault State :=
  pp PREC_ASSIGNMENT s

/-- Function `grouping` (compiler.c:232-236). -/
def grouping (pp : Nat → State → Except Fault State) (s : State) :
    Except Fault State := do
  let s1 ← expression pp s
  pure (consume .TOKEN_RIGHT_PAREN msgExpectParen s1)

/-- Function `unary` (compiler.c:249-266). -/
def unary (pp : Nat → State → Except Fault State) (s : State) :
    Except Fault State := do
  let operatorType := s.parser.previous.type
  let s1 ← pp PREC_UNARY s
  match operatorType with
  | .TOKEN_BANG => pure (emitByte OpCode.OP_NOT.toByte s1)
  | .TOKEN_MINUS => pure (emitByte OpCode.OP_NEGATE.toByte s1)
  | _ => pure s1

/-- Function `binary` (compiler.c:190-218). -/
def binary (pp : Nat → State → Except Fault State) (s : State) :
    Except Fault State := do
  let operatorType := s.parser.previous.type
  let rule := getRule operatorType
  let s1 ← pp (rule.precedence + 1) s
  match operatorType with
  | .TOKEN_BANG_EQUAL => pure (emitBytes OpCode.OP_EQUAL.toByte OpCode.OP_NOT.toByte s1)
  | .TOKEN_EQUAL_EQUAL => pure (emitByte OpCode.OP_EQUAL.toByte s1)
  | .TOKEN_GREATER => pure (emitByte OpCode.OP_GREATER.toByte s1)
  | .TOKEN_GREATER_EQUAL => pure (emitBytes OpCode.OP_LESS.toByte OpCode.OP_NOT.toByte s1)
  | .TOKEN_LESS => pure (emitByte OpCode.OP_LESS.toByte s1)
  | .TOKEN_LESS_EQUAL => pure (emitBytes OpCode.OP_GREATER.toByte OpCode.OP_NOT.toByte s1)
  | .TOKEN_PLUS => pure (emitByte OpCode.OP_ADD.toByte s1)
  | .TOKEN_MINUS => pure (emitByte OpCode.OP_SUBTRACT.toByte s1)
  | .TOKEN_STAR => pure (emitByte OpCode.OP_MULTIPLY.toByte s1)
  | .TOKEN_SLASH => pure (emitByte OpCode.OP_DIVIDE.toByte s1)
  | _ => pure s1

/-- A call through a non-`NULL` `ParseFn` pointer. -/
def callParseFn (pp : Nat → State → Except Fault State) :
    ParseFn → State → Except Fault State
  | .grouping, s => grouping pp s
  | .unary, s => unary pp s
  | .binary, s => binary pp s
  | .number, s => pure (number s)
  | .string, s => pure (string s)
  | .literal, s => pure (literal s)

/-- The `while` loop of `parsePrecedence` (compiler.c:326-331); the first
argument bounds the number of iterations. -/
def infixLoop (pp : Nat → State → Except Fault State) :
    Nat → Nat → State → Except Fault State
  | 0, _, _ => .error .outOfFuel
  | fuel + 1, precedence, s =>
    if precedence ≤ (getRule s.parser.current.type).precedence then
      let s1 := advance s
      match (getRule s1.parser.previous.type).infixFn with
      | none => .error .nullCall
      | some infixFn =>
        match callParseFn pp infixFn s1 with
        | .error f => .error f
        | .ok s2 => infixLoop pp fuel precedence s2
    else
      .ok s

/-- Function `parsePrecedence` (compiler.c:312-332); the first argument bounds the
depth of the recursion. -/
def parsePrecedence : Nat → Nat → State → Except Fault State
  | 0, _, _ => .error .outOfFuel
  | fuel + 1, precedence, s =>
    let s1 := advance s
    match (getRule s1.parser.previous.type).prefixFn with
    | none => .ok (error msgExpectExpression s1)
    | some prefixFn =>
      match callParseFn (parsePrecedence fuel) prefixFn s1 with
      | .error f => .error f
      | .ok s2 => infixLoop (parsePrecedence fuel) fuel precedence s2

/-- The `Parser` that `memset(&parser, 0, sizeof(parser))` leaves
(compiler.c:75): `TOKEN_LEFT_PAREN` is the token type 0. -/
def zeroParser : Parser :=
  { current := ⟨.TOKEN_LEFT_PAREN, [], 0⟩
    previous := ⟨.TOKEN_LEFT_PAREN, [], 0⟩
    hadError := false
    panicMode := false }

/-- The first three statements of `compile` (compiler.c:71-75):
`initScanner(source)`, `compilingChunk = chunk` and the `memset` of
`parser`.  `g` is the state of the globals and of standard error at the
call. -/
def start (g : State) (source : Scanner) (chunk : Chunk) : State :=
  { g with scanner := source, compilingChunk := chunk, parser := zeroParser }

/-- Function `compile` (compiler.c:69-84).  `g` is the state of the globals and of
standard error at the call, `source` the token stream of the source text,
`chunk` the chunk to write to.  The recursion budget is one more than the
number of tokens, which is always enough (see `parsePrecedence_fuel`). -/
def compile (g : State) (source : Scanner) (chunk : Chunk) : Except Fault (Bool × State) :=
  let s1 := advance (start g source chunk)
  match expression (parsePrecedence (source.tokens.length + 1)) s1 with
  | .error f => .error f
  | .ok s2 =>
    let s3 := consume .TOKEN_EOF msgExpectEnd s2
    let s4 := endCompiler s3
    .ok (!s4.parser.hadError, s4)

/-! ## debug.c -/

/-- Function `readU24` (debug.c:28-36): three bytes of the code array from `offset`,
put together in a `uint32_t`.  A read outside the array has no defined
result: `none`. -/
def readU24 (chunk : Chunk) (offset : Nat) : Option Nat := do
  let b0 ← chunk.aryB[offset]?
  let constant := b0.val
  let constant := (constant <<< 8) % 2 ^ 32
  let b1 ← chunk.aryB[offset + 1]?
  let constant := constant ||| b1.val
  let constant := (constant <<< 8) % 2 ^ 32
  let b2 ← chunk.aryB[offset + 2]?
  let constant := constant ||| b2.val
  pure constant

/-- Function `getConstant` (debug.c:38-67): the constant index read at `*offsetOut`
and the new value of `*offsetOut`.  The two `ASSERT`s (the operand lies in
the code array, the index lies in the constant pool) expand to nothing unless
`DEBUG` is defined (common.h:35-54) and are left out; a read outside the
array gives `none`. -/
def getConstant (chunk : Chunk) (isLong : Bool) (offsetOut : Nat) : Option (Nat × Nat) :=
  let offset := offsetOut
  if isLong then do
    let constantBytes := 3
    let constant ← readU24 chunk offset
    pure (constant, offsetOut + constantBytes)
  else do
    let constantBytes := 1
    let constant ← chunk.aryB[offset]?
    pure (constant.val, offsetOut + constantBytes)

/-- The opcode a byte of the code array stands for, if any. -/
def OpCode.ofByte (b : Byte) : Option OpCode :=
  if b.val < 54 then some (OpCode.ofNat b.val) else none

/-- The name each `case` of `disassembleInstruction` passes to its handler
(debug.c:160-267). -/
def OpCode.name : OpCode → String
  | .OP_CONSTANT => "OP_CONSTANT"
  | .OP_CONSTANT_LONG => "OP_CONSTANT_LONG"
  | .OP_NIL => "OP_NIL"
  | .OP_TRUE => "OP_TRUE"
  | .OP_FALSE => "OP_FALSE"
  | .OP_POP => "OP_POP"
  | .OP_POPN => "OP_POPN"
  | .OP_GET_LOCAL => "OP_GET_LOCAL"
  | .OP_GET_LOCAL_LONG => "OP_GET_LOCAL_LONG"
  | .OP_SET_LOCAL => "OP_SET_LOCAL"
  | .OP_SET_LOCAL_LONG => "OP_SET_LOCAL_LONG"
  | .OP_GET_GLOBAL => "OP_GET_GLOBAL"
  | .OP_GET_GLOBAL_LONG => "OP_GET_GLOBAL_LONG"
  | .OP_DEFINE_GLOBAL => "OP_DEFINE_GLOBAL"
  | .OP_DEFINE_GLOBAL_LONG => "OP_DEFINE_GLOBAL_LONG"
  | .OP_SET_GLOBAL => "OP_SET_GLOBAL"
  | .OP_SET_GLOBAL_LONG => "OP_SET_GLOBAL_LONG"
  | .OP_GET_UPVALUE => "OP_GET_UPVALUE"
  | .OP_GET_UPVALUE_LONG => "OP_GET_UPVALUE_LONG"
  | .OP_SET_UPVALUE => "OP_SET_UPVALUE"
  | .OP_SET_UPVALUE_LONG => "OP_SET_UPVALUE_LONG"
  | .OP_GET_PROPERTY => "OP_GET_PROPERTY"
  | .OP_GET_PROPERTY_LONG => "OP_GET_PROPERTY_LONG"
  | .OP_SET_PROPERTY => "OP_SET_PROPERTY"
  | .OP_SET_PROPERTY_LONG => "OP_SET_PROPERTY_LONG"
  | .OP_GET_SUPER => "OP_GET_SUPER"
  | .OP_GET_SUPER_LONG => "OP_GET_SUPER_LONG"
  | .OP_EQUAL => "OP_EQUAL"
  | .OP_GREATER => "OP_GREATER"
  | .OP_LESS => "OP_LESS"
  | .OP_NEGATE => "OP_NEGATE"
  | .OP_ADD => "OP_ADD"
  | .OP_SUBTRACT => "OP_SUBTRACT"
  | .OP_MULTIPLY => "OP_MULTIPLY"
  | .OP_DIVIDE => "OP_DIVIDE"
  | .OP_NOT => "OP_NOT"
  | .OP_PRINT => "OP_PRINT"
  | .OP_JUMP => "OP_JUMP"
  | .OP_JUMP_IF_FALSE => "OP_JUMP_IF_FALSE"
  | .OP_LOOP => "OP_LOOP"
  | .OP_CALL => "OP_CALL"
  | .OP_INVOKE => "OP_INVOKE"
  | .OP_INVOKE_LONG => "OP_INVOKE_LONG"
  | .OP_SUPER_INVOKE => "OP_SUPER_INVOKE"
  | .OP_SUPER_INVOKE_LONG => "OP_SUPER_INVOKE_LONG"
  | .OP_CLOSURE => "OP_CLOSURE"
  | .OP_CLOSURE_LONG => "OP_CLOSURE_LONG"
  | .OP_CLOSE_UPVALUE => "OP_CLOSE_UPVALUE"
  | .OP_RETURN => "OP_RETURN"
  | .OP_CLASS => "OP_CLASS"
  | .OP_CLASS_LONG => "OP_CLASS_LONG"
  | .OP_INHERIT => "OP_INHERIT"
  | .OP_METHOD => "OP_METHOD"
  | .OP_METHOD_LONG => "OP_METHOD_LONG"

/-- The handler a `case` of `disassembleInstruction` calls, with the flag or
sign it passes. -/
inductive Form
  | constantInstruction (isLong : Bool)
  | simpleInstruction
  | immediateInstruction (isLong : Bool)
  | jumpInstruction (sign : Int)
  | invokeInstruction (isLong : Bool)
  | closureInstruction (isLong : Bool)
  deriving DecidableEq, Repr

/-- The `switch` of `disassembleInstruction` (debug.c:158-267): the handler of
each opcode. -/
def OpCode.form : OpCode → Form
  | .OP_CONSTANT => .constantInstruction false
  | .OP_CONSTANT_LONG => .constantInstruction true
  | .OP_NIL => .simpleInstruction
  | .OP_TRUE => .simpleInstruction
  | .OP_FALSE => .simpleInstruction
  | .OP_POP => .simpleInstruction
  | .OP_POPN => .immediateInstruction false
  | .OP_GET_LOCAL => .immediateInstruction false
  | .OP_GET_LOCAL_LONG => .immediateInstruction true
  | .OP_SET_LOCAL => .immediateInstruction false
  | .OP_SET_LOCAL_LONG => .immediateInstruction true
  | .OP_GET_GLOBAL => .constantInstruction false
  | .OP_GET_GLOBAL_LONG => .constantInstruction true
  | .OP_DEFINE_GLOBAL => .constantInstruction false
  | .OP_DEFINE_GLOBAL_LONG => .constantInstruction true
  | .OP_SET_GLOBAL => .constantInstruction false
  | .OP_SET_GLOBAL_LONG => .constantInstruction true
  | .OP_GET_UPVALUE => .immediateInstruction false
  | .OP_GET_UPVALUE_LONG => .immediateInstruction true
  | .OP_SET_UPVALUE => .immediateInstruction false
  | .OP_SET_UPVALUE_LONG => .immediateInstruction true
  | .OP_GET_PROPERTY => .constantInstruction false
  | .OP_GET_PROPERTY_LONG => .constantInstruction true
  | .OP_SET_PROPERTY => .constantInstruction false
  | .OP_SET_PROPERTY_LONG => .constantInstruction true
  | .OP_GET_SUPER => .constantInstruction false
  | .OP_GET_SUPER_LONG => .constantInstruction true
  | .OP_EQUAL => .simpleInstruction
  | .OP_GREATER => .simpleInstruction
  | .OP_LESS => .simpleInstruction
  | .OP_NEGATE => .simpleInstruction
  | .OP_ADD => .simpleInstruction
  | .OP_SUBTRACT => .simpleInstruction
  | .OP_MULTIPLY => .simpleInstruction
  | .OP_DIVIDE => .simpleInstruction
  | .OP_NOT => .simpleInstruction
  | .OP_PRINT => .simpleInstruction
  | .OP_JUMP => .jumpInstruction (1)
  | .OP_JUMP_IF_FALSE => .jumpInstruction (1)
  | .OP_LOOP => .jumpInstruction (-1)
  | .OP_CALL => .immediateInstruction false
  | .OP_INVOKE => .invokeInstruction false
  | .OP_INVOKE_LONG => .invokeInstruction true
  | .OP_SUPER_INVOKE => .invokeInstruction false
  | .OP_SUPER_INVOKE_LONG => .invokeInstruction true
  | .OP_CLOSURE => .closureInstruction false
  | .OP_CLOSURE_LONG => .closureInstruction true
  | .OP_CLOSE_UPVALUE => .simpleInstruction
  | .OP_RETURN => .simpleInstruction
  | .OP_CLASS => .constantInstruction false
  | .OP_CLASS_LONG => .constantInstruction true
  | .OP_INHERIT => .simpleInstruction
  | .OP_METHOD => .constantInstruction false
  | .OP_METHOD_LONG => .constantInstruction true

/-- What the disassembler prints, one entry for each `printf` group. -/
inductive Printed
  /-- The offset, and the source line or a bar (`none`) (debug.c:144-155). -/
  | offsetAndLine (offset : Nat) (line : Option Nat)
  /-- The line of `constantInstruction` and the first line of
  `closureInstruction`. -/
  | constant (name : String) (constant : Nat) (value : Value)
  /-- The line of `invokeInstruction`. -/
  | invoke (name : String) (constant : Nat) (value : Value) (argCount : Nat)
  /-- One upvalue line of `closureInstruction`: the offset of the pair,
  `local` or `upvalue`, the index. -/
  | upvalue (offset : Nat) (isLocal : Bool) (index : Nat)
  /-- The line of `simpleInstruction`. -/
  | simple (name : String)
  /-- The line of `immediateInstruction`. -/
  | immediate (name : String) (slot : Nat)
  /-- The line of `jumpInstruction`: the offset and the target. -/
  | jump (name : String) (offset : Int) (target : Int)
  /-- The line of the `default` case. -/
  | unknown (instruction : Nat)
  deriving DecidableEq, Repr

/-- Modelled from the spec: the line of the byte at `offset` in a
run-length-encoded line map (spec 3.3); 0 past its end. -/
def lineAt : List (Nat × Nat) → Nat → Nat
  | [], _ => 0
  | (line, run) :: rest, offset => if offset < run then line else lineAt rest (offset - run)

/-- Modelled from the spec: `getLine` of `chunk.c` (not among the sources),
the source line of the byte at `offset`. -/
def getLine (chunk : Chunk) (offset : Nat) : Nat :=
  lineAt chunk.lines offset

/-- The macro `AS_FUNCTION`: the function object of a value; applied to
another value it has no defined result. -/
def AS_FUNCTION : Value → Option ObjFunction
  | .OBJ_FUNCTION_VAL f => some f
  | _ => none

/-- Function `constantInstruction` (debug.c:69-80): the next offset and the
line printed. -/
def constantInstruction (name : String) (chunk : Chunk) (offset : Nat) (isLong : Bool) :
    Option (Nat × List Printed) := do
  let offset := offset + 1
  let (constant, offset) ← getConstant chunk isLong offset
  let value ← chunk.aryValConstants[constant]?
  pure (offset, [.constant name constant value])

/-- Function `invokeInstruction` (debug.c:82-94). -/
def invokeInstruction (name : String) (chunk : Chunk) (offset : Nat) (isLong : Bool) :
    Option (Nat × List Printed) := do
  let offset := offset + 1
  let (constant, offset) ← getConstant chunk isLong offset
  let argCount ← chunk.aryB[offset]?
  let offset := offset + 1
  let value ← chunk.aryValConstants[constant]?
  pure (offset, [.invoke name constant value argCount.val])

/-- The `for` loop of `closureInstruction` (debug.c:108-113), by recursion on
the number of upvalues still to read: each turn reads the two bytes
`isLocal` and `index` and prints them with the offset of the pair. -/
def closureLoop (chunk : Chunk) : Nat → Nat → Option (Nat × List Printed)
  | 0, offset => some (offset, [])
  | count + 1, offset => do
    let isLocal ← chunk.aryB[offset]?
    let offset := offset + 1
    let index ← chunk.aryB[offset]?
    let offset := offset + 1
    let (next, out) ← closureLoop chunk count offset
    pure (next, .upvalue (offset - 2) (isLocal.val ≠ 0) index.val :: out)

/-- Function `closureInstruction` (debug.c:96-116). -/
def closureInstruction (name : String) (chunk : Chunk) (offset : Nat) (isLong : Bool) :
    Option (Nat × List Printed) := do
  let offset := offset + 1
  let (constant, offset) ← getConstant chunk isLong offset
  let value ← chunk.aryValConstants[constant]?
  let function ← AS_FUNCTION value
  let (next, out) ← closureLoop chunk function.upvalueCount offset
  pure (next, .constant name constant value :: out)

/-- Function `simpleInstruction` (debug.c:118-122). -/
def simpleInstruction (name : String) (offset : Nat) : Nat × List Printed :=
  (offset + 1, [.simple name])

/-- Function `immediateInstruction` (debug.c:124-130). -/
def immediateInstruction (name : String) (chunk : Chunk) (offset : Nat) (isLong : Bool) :
    Option (Nat × List Printed) := do
  let offset := offset + 1
  let slot ← if isLong then readU24 chunk offset else (chunk.aryB[offset]?).map (·.val)
  pure (offset + (if isLong then 3 else 1), [.immediate name slot])

/-- Function `jumpInstruction` (debug.c:132-138): `jump` is a `uint16_t`, the
target is computed in `int`. -/
def jumpInstruction (name : String) (sign : Int) (chunk : Chunk) (offset : Nat) :
    Option (Nat × List Printed) := do
  let b1 ← chunk.aryB[offset + 1]?
  let jump := (b1.val <<< 8) % 2 ^ 16
  let b2 ← chunk.aryB[offset + 2]?
  let jump := jump ||| b2.val
  pure (offset + 3, [.jump name offset (offset + 3 + sign * jump)])

/-- The `switch` statement of `disassembleInstruction` (debug.c:158-271) on
the byte `instruction` read at `offset`. -/
def disassembleSwitch (chunk : Chunk) (offset : Nat) (instruction : Byte) :
    Option (Nat × List Printed) :=
  match OpCode.ofByte instruction with
  | none => some (offset + 1, [.unknown instruction.val])
  | some op =>
    match op.form with
    | .constantInstruction isLong => constantInstruction op.name chunk offset isLong
    | .simpleInstruction => some (simpleInstruction op.name offset)
    | .immediateInstruction isLong => immediateInstruction op.name chunk offset isLong
    | .jumpInstruction sign => jumpInstruction op.name sign chunk offset
    | .invokeInstruction isLong => invokeInstruction op.name chunk offset isLong
    | .closureInstruction isLong => closureInstruction op.name chunk offset isLong

/-- What `disassembleInstruction` prints first (debug.c:144-155): the offset,
and the source line unless it is the line of the byte before. -/
def leadOf (chunk : Chunk) (offset : Nat) : Printed :=
  let line := getLine chunk offset
  if 0 < offset ∧ line = getLine chunk (offset - 1) then .offsetAndLine offset none
  else .offsetAndLine offset (some line)

/-- Function `disassembleInstruction` (debug.c:140-272): the next offset and
what is printed.  The `ASSERT` expands to nothing unless `DEBUG` is defined;
a read outside an array gives `none`. -/
def disassembleInstruction (chunk : Chunk) (offset : Nat) : Option (Nat × List Printed) := do
  let lead := leadOf chunk offset
  let instruction ← chunk.aryB[offset]?
  let (next, out) ← disassembleSwitch chunk offset instruction
  pure (next, lead :: out)

/-! ## Reading aids for the statements -/

/-- The literal operands: number, string, `true`, `false`, `nil`. -/
def isLiteral : TokenType → Bool
  | .TOKEN_NUMBER | .TOKEN_STRING | .TOKEN_TRUE | .TOKEN_FALSE | .TOKEN_NIL => true
  | _ => false

/-- The binary operators `== != < > <= >= + - * /`. -/
def isBinaryOp : TokenType → Bool
  | .TOKEN_EQUAL_EQUAL | .TOKEN_BANG_EQUAL | .TOKEN_LESS | .TOKEN_GREATER
  | .TOKEN_LESS_EQUAL | .TOKEN_GREATER_EQUAL | .TOKEN_PLUS | .TOKEN_MINUS
  | .TOKEN_STAR | .TOKEN_SLASH => true
  | _ => false

/-- The rung of a binary operator on the ladder
EQUALITY (0) < COMPARISON (1) < TERM (2) < FACTOR (3). -/
def ladder : TokenType → Nat
  | .TOKEN_EQUAL_EQUAL | .TOKEN_BANG_EQUAL => 0
  | .TOKEN_LESS | .TOKEN_GREATER | .TOKEN_LESS_EQUAL | .TOKEN_GREATER_EQUAL => 1
  | .TOKEN_PLUS | .TOKEN_MINUS => 2
  | .TOKEN_STAR | .TOKEN_SLASH => 3
  | _ => 0

/-- The chunk after `load(t)`: the constant load of a number or string
token, or the one opcode of `false`, `nil`, `true`, written at the token's
line. -/
def load (t : Token) (chunk : Chunk) : Chunk :=
  match t.type with
  | .TOKEN_NUMBER => (writeConstant chunk (.NUMBER_VAL (strtod t.lexeme)) t.line).2
  | .TOKEN_STRING =>
    (writeConstant chunk (.OBJ_VAL (copyString (t.lexeme.drop 1) (t.lexeme.length - 2))) t.line).2
  | .TOKEN_FALSE => writeChunk chunk OpCode.OP_FALSE.toByte t.line
  | .TOKEN_NIL => writeChunk chunk OpCode.OP_NIL.toByte t.line
  | .TOKEN_TRUE => writeChunk chunk OpCode.OP_TRUE.toByte t.line
  | _ => chunk

/-- The opcodes `code(op)` of a binary operator. -/
def binaryCode : TokenType → List OpCode
  | .TOKEN_BANG_EQUAL => [.OP_EQUAL, .OP_NOT]
  | .TOKEN_EQUAL_EQUAL => [.OP_EQUAL]
  | .TOKEN_GREATER => [.OP_GREATER]
  | .TOKEN_GREATER_EQUAL => [.OP_LESS, .OP_NOT]
  | .TOKEN_LESS => [.OP_LESS]
  | .TOKEN_LESS_EQUAL => [.OP_GREATER, .OP_NOT]
  | .TOKEN_PLUS => [.OP_ADD]
  | .TOKEN_MINUS => [.OP_SUBTRACT]
  | .TOKEN_STAR => [.OP_MULTIPLY]
  | .TOKEN_SLASH => [.OP_DIVIDE]
  | _ => []

/-- The opcode `code(u)` of a unary operator. -/
def unaryCode : TokenType → List OpCode
  | .TOKEN_BANG => [.OP_NOT]
  | .TOKEN_MINUS => [.OP_NEGATE]
  | _ => []

/-- The chunk after writing the opcodes `ops`, all at source line `line`. -/
def writeOps (chunk : Chunk) (ops : List OpCode) (line : Nat) : Chunk :=
  ops.foldl (fun c op => writeChunk c op.toByte line) chunk

/-- A state in normal form: `base` with the two tokens of the parser, the
tokens the scanner still holds, and the chunk replaced. -/
def st (base : State) (prev cur : Token) (rest : List Token) (chunk : Chunk) : State :=
  { base with
    parser := { base.parser with previous := prev, current := cur }
    scanner := { base.scanner with tokens := rest }
    compilingChunk := chunk }

/-- The effect of `emitByte` for each opcode of `ops` in turn. -/
def emitOps (ops : List OpCode) (s : State) : State :=
  ops.foldl (fun s op => emitByte op.toByte s) s

/-- What `compile` returns when the expression ends at the end of the source
with no error: `true`, and the chunk closed by `OP_RETURN`. -/
def finished (g : State) (eofLine : Nat) (x : Chunk) : Except Fault (Bool × State) :=
  .ok (true,
    { g with
      parser := ⟨eofToken eofLine, eofToken eofLine, false, false⟩
      scanner := ⟨[], eofLine⟩
      compilingChunk := writeOps x [.OP_RETURN] eofLine })

/-- The unary operators `-` and `!`. -/
def isUnaryOp : TokenType → Bool
  | .TOKEN_MINUS | .TOKEN_BANG => true
  | _ => false

/-- A property of the state that the primitive steps of the compiler keep:
raising an error, `advance`, writing a byte, writing a constant. -/
structure Stable (P : State → Prop) : Prop where
  errorAt : ∀ s tok msg, P s → P (errorAt tok msg s)
  advance : ∀ s, P s → P (advance s)
  chunk : ∀ (s : State) b l, P s → P { s with compilingChunk := writeChunk s.compilingChunk b l }
  constant : ∀ (s : State) v l, P s →
    P { s with compilingChunk := (writeConstant s.compilingChunk v l).2 }

/-- A result keeps `P`: a state that is returned satisfies it. -/
def Keeps (P : State → Prop) : Except Fault State → Prop
  | .ok s => P s
  | .error _ => True

/-- The error bookkeeping of a run that started with the logs of `g`: panic
mode is on exactly when an error was recorded; while none was, nothing was
raised or printed; once one was, exactly the first error raised is printed. -/
def ErrInv (g s : State) : Prop :=
  s.parser.panicMode = s.parser.hadError ∧
  (s.parser.hadError = false → s.raised = g.raised ∧ s.stderr = g.stderr) ∧
  (s.parser.hadError = true →
    ∃ r rest, s.raised = g.raised ++ r :: rest ∧ s.stderr = g.stderr ++ [r])

/-- What is left to read: the tokens the scanner still holds, and the current
token unless it is the end of the source. -/
def remaining (s : State) : Nat :=
  s.scanner.tokens.length + (if s.parser.current.type = .TOKEN_EOF then 0 else 1)

/-- A result within the bound `k`: a returned state has at most `k` left to
read, and a run that does not return stopped at the `NULL` call, not for want
of fuel. -/
def Bounded (k : Nat) : Except Fault State → Prop
  | .ok s => remaining s ≤ k
  | .error f => f = .nullCall

/-- The globals before the first call of `compile`: everything zero, nothing
printed. -/
def idle : State :=
  ⟨zeroParser, Chunk.empty, ⟨[], 0⟩, [], []⟩

/-- A token of source line 1 with the given text. -/
def tok (type : TokenType) (text : String) : Token :=
  ⟨type, text.toList, 1⟩

/-- The source `1 + 2 * 3`. -/
def srcOnePlusTwoTimesThree : Scanner :=
  ⟨[tok .TOKEN_NUMBER "1", tok .TOKEN_PLUS "+", tok .TOKEN_NUMBER "2", tok .TOKEN_STAR "*",
    tok .TOKEN_NUMBER "3"], 1⟩

/-- The source `-1 < 2`. -/
def srcMinusOneLessTwo : Scanner :=
  ⟨[tok .TOKEN_MINUS "-", tok .TOKEN_NUMBER "1", tok .TOKEN_LESS "<", tok .TOKEN_NUMBER "2"], 1⟩

/-- The source `1 = 2`. -/
def srcOneEqualTwo : Scanner :=
  ⟨[tok .TOKEN_NUMBER "1", tok .TOKEN_EQUAL "=", tok .TOKEN_NUMBER "2"], 1⟩

/-- The source `1 ( 2`. -/
def srcOneParenTwo : Scanner :=
  ⟨[tok .TOKEN_NUMBER "1", tok .TOKEN_LEFT_PAREN "(", tok .TOKEN_NUMBER "2"], 1⟩

/-- The source `) ; )`: two syntax errors with a `;` between them. -/
def srcTwoErrors : Scanner :=
  ⟨[tok .TOKEN_RIGHT_PAREN ")", tok .TOKEN_SEMICOLON ";", tok .TOKEN_RIGHT_PAREN ")"], 1⟩

/-- The source `)@`: a `)` and the scanner's error token for `@`. -/
def srcParenThenError : Scanner :=
  ⟨[tok .TOKEN_RIGHT_PAREN ")", tok .TOKEN_ERROR "Unexpected character."], 1⟩

/-- The source `@#2`: two error tokens, then a number. -/
def srcTwoErrorTokens : Scanner :=
  ⟨[tok .TOKEN_ERROR "Unexpected character.", tok .TOKEN_ERROR "Unexpected character.",
    tok .TOKEN_NUMBER "2"], 1⟩

/-- A parser in panic mode in front of `) ; )`: the state after `advance` and
one error at the first `)`. -/
def panicked : State :=
  errorAtCurrent msgExpectEnd (advance (start idle srcTwoErrors Chunk.empty))

/-- The source `(1 = 2)`. -/
def srcParenOneEqualTwo : Scanner :=
  ⟨[tok .TOKEN_LEFT_PAREN "(", tok .TOKEN_NUMBER "1", tok .TOKEN_EQUAL "=",
    tok .TOKEN_NUMBER "2", tok .TOKEN_RIGHT_PAREN ")"], 1⟩

/-- How far a run has read the stream `toks`: the scanner has handed out
`consumed` and still holds the rest; panic mode is on exactly when an error
was recorded; while none was, no error token has been handed out; and when
the current token is an end-of-file token, the stream is used up or an
end-of-file token of the stream has been handed out. -/
def ReadUpTo (toks : List Token) (s : State) : Prop :=
  ∃ consumed, toks = consumed ++ s.scanner.tokens
    ∧ s.parser.panicMode = s.parser.hadError
    ∧ (s.parser.hadError = false → ∀ t ∈ consumed, t.type ≠ .TOKEN_ERROR)
    ∧ (s.parser.current.type = .TOKEN_EOF →
        s.scanner.tokens = [] ∨ ∃ t ∈ consumed, t.type = .TOKEN_EOF)

/-- The line `errorAt` prints for an error token: its message payload, with
no location. -/
def scannerReport (e : Token) : Report :=
  ⟨e.line, .nowhere, e.lexeme⟩

/-- The state `s` of a run, put after the lines `e` already on standard error
and the errors `r` already raised. -/
def relog (e r : List Report) (s : State) : State :=
  { s with stderr := e ++ s.stderr, raised := r ++ s.raised }

/-- What a run leaves behind apart from the two logs and the scanner: the
flag, the chunk and the parser. -/
def outcome (x : Bool × State) : Bool × Chunk × Parser :=
  (x.1, x.2.compilingChunk, x.2.parser)

/-- The encoded length of an instruction as C12 tabulates it by opcode;
`upvalueCount` is the upvalue count of the function a closure instruction
names. -/
def tabulatedLength (op : OpCode) (upvalueCount : Nat) : Nat :=
  match op with
  | .OP_NIL | .OP_TRUE | .OP_FALSE | .OP_POP | .OP_EQUAL | .OP_GREATER | .OP_LESS
  | .OP_NEGATE | .OP_ADD | .OP_SUBTRACT | .OP_MULTIPLY | .OP_DIVIDE | .OP_NOT | .OP_PRINT
  | .OP_CLOSE_UPVALUE | .OP_RETURN | .OP_INHERIT => 1
  | .OP_CONSTANT | .OP_GET_GLOBAL | .OP_DEFINE_GLOBAL | .OP_SET_GLOBAL | .OP_GET_PROPERTY
  | .OP_SET_PROPERTY | .OP_GET_SUPER | .OP_CLASS | .OP_METHOD
  | .OP_GET_LOCAL | .OP_SET_LOCAL | .OP_GET_UPVALUE | .OP_SET_UPVALUE
  | .OP_POPN | .OP_CALL => 2
  | .OP_CONSTANT_LONG | .OP_GET_GLOBAL_LONG | .OP_DEFINE_GLOBAL_LONG | .OP_SET_GLOBAL_LONG
  | .OP_GET_PROPERTY_LONG | .OP_SET_PROPERTY_LONG | .OP_GET_SUPER_LONG | .OP_CLASS_LONG
  | .OP_METHOD_LONG | .OP_GET_LOCAL_LONG | .OP_SET_LOCAL_LONG | .OP_GET_UPVALUE_LONG
  | .OP_SET_UPVALUE_LONG => 4
  | .OP_INVOKE | .OP_SUPER_INVOKE => 3
  | .OP_INVOKE_LONG | .OP_SUPER_INVOKE_LONG => 5
  | .OP_JUMP | .OP_JUMP_IF_FALSE | .OP_LOOP => 3
  | .OP_CLOSURE => 1 + 1 + 2 * upvalueCount
  | .OP_CLOSURE_LONG => 1 + 3 + 2 * upvalueCount

/-- The upvalue count of the function constant that the closure instruction
at `offset` names (0 when there is none to read). -/
def upvalueCountAt (chunk : Chunk) (offset : Nat) (isLong : Bool) : Nat :=
  match getConstant chunk isLong (offset + 1) with
  | none => 0
  | some (constant, _) =>
    match chunk.aryValConstants[constant]? with
    | some (.OBJ_FUNCTION_VAL f) => f.upvalueCount
    | _ => 0

/-- The short opcodes whose operand is an index (into the constant pool, the
locals or the upvalues); the operands of `OP_POPN` and `OP_CALL` are counts. -/
def carriesShortIndex : OpCode → Bool
  | .OP_CONSTANT | .OP_GET_LOCAL | .OP_SET_LOCAL | .OP_GET_GLOBAL | .OP_DEFINE_GLOBAL
  | .OP_SET_GLOBAL | .OP_GET_UPVALUE | .OP_SET_UPVALUE | .OP_GET_PROPERTY | .OP_SET_PROPERTY
  | .OP_GET_SUPER | .OP_INVOKE | .OP_SUPER_INVOKE | .OP_CLOSURE | .OP_CLASS | .OP_METHOD => true
  | _ => false

/-- The long form of a handler call: the same handler with `isLong` set. -/
def Form.long : Form → Form
  | .constantInstruction _ => .constantInstruction true
  | .immediateInstruction _ => .immediateInstruction true
  | .invokeInstruction _ => .invokeInstruction true
  | .closureInstruction _ => .closureInstruction true
  | f => f

/-- The upvalue pairs of a closure instruction as the specification words
them (spec 4.1: `index` is 1 byte in the short form and 3 bytes in the long):
`count` pairs from `offset`, each a 1-byte `is_local` followed by an index of
1 byte, or of 3 bytes (big-endian) in the long form. -/
def closurePairsAsSpecified (chunk : Chunk) (isLong : Bool) :
    Nat → Nat → Option (Nat × List Printed)
  | 0, offset => some (offset, [])
  | count + 1, offset => do
    let isLocal ← chunk.aryB[offset]?
    let index ← if isLong then readU24 chunk (offset + 1)
      else (chunk.aryB[offset + 1]?).map (·.val)
    let (next, out) ←
      closurePairsAsSpecified chunk isLong count (offset + 1 + (if isLong then 3 else 1))
    pure (next, .upvalue offset (isLocal.val ≠ 0) index :: out)

/-- A chunk holding one `OP_CLOSURE_LONG`: the function constant 0 (three
bytes), then one upvalue pair written with a 3-byte index: `is_local` 1 and
index 5 (bytes 0, 0, 5). -/
def chunkClosureLong : Chunk :=
  ⟨[OpCode.OP_CLOSURE_LONG.toByte, 0, 0, 0, 1, 0, 0, 5], [.OBJ_FUNCTION_VAL ⟨0, 1, []⟩], [(1, 8)]⟩

/-- A string token of source line 1: the text between two double quotes. -/
def stringToken (text : String) : Token :=
  ⟨.TOKEN_STRING, '"' :: (text.toList ++ ['"']), 1⟩

/-- The state in which `string` is called for the only token `t` of a
source: `t` is the previous token, the end of file the current one. -/
def afterToken (t : Token) : State :=
  st idle t (eofToken 1) [] Chunk.empty

/-- The bytes `writeConstant` writes to load the constant of index
`constant`: the short form, the long form, or nothing when the pool is full. -/
def loadCode (constant : Nat) : List Byte :=
  if constant < UINT8_COUNT then
    [OpCode.OP_CONSTANT.toByte, ⟨constant % 256, Nat.mod_lt _ (by decide)⟩]
  else if constant < UINT24_COUNT then
    [OpCode.OP_CONSTANT_LONG.toByte, ⟨constant / 65536 % 256, Nat.mod_lt _ (by decide)⟩,
      ⟨constant / 256 % 256, Nat.mod_lt _ (by decide)⟩, ⟨constant % 256, Nat.mod_lt _ (by decide)⟩]
  else []

/-- The stack accounting of one byte of code: the state is the number of
operand bytes still to skip and the number of values on the stack.  A
constant load (`OP_CONSTANT` with 1 operand byte, `OP_CONSTANT_LONG` with 3)
and `OP_NIL`, `OP_TRUE`, `OP_FALSE` count +1; `OP_NOT` and `OP_NEGATE` count 0
and need 1 operand; the binary opcodes count -1 and need 2 operands; `none`
when an operand is missing or the opcode is none of these. -/
def stackStep (state : Nat × Nat) (b : Byte) : Option (Nat × Nat) :=
  if 0 < state.1 then some (state.1 - 1, state.2)
  else
    match OpCode.ofByte b with
    | some .OP_CONSTANT => some (1, state.2 + 1)
    | some .OP_CONSTANT_LONG => some (3, state.2 + 1)
    | some .OP_NIL | some .OP_TRUE | some .OP_FALSE => some (0, state.2 + 1)
    | some .OP_NOT | some .OP_NEGATE => if 1 ≤ state.2 then some (0, state.2) else none
    | some .OP_EQUAL | some .OP_GREATER | some .OP_LESS | some .OP_ADD | some .OP_SUBTRACT
    | some .OP_MULTIPLY | some .OP_DIVIDE =>
      if 2 ≤ state.2 then some (0, state.2 - 1) else none
    | _ => none

/-- The stack accounting of a sequence of code from a given state: `none` as
soon as one instruction needs more operands than are on the stack. -/
def stackRun (state : Nat × Nat) (code : List Byte) : Option (Nat × Nat) :=
  code.foldlM stackStep state

/-- Two runs side by side, the run `a` on a token stream and the run `b` on
the same stream inside parentheses: the same chunk so far and no error in
either. -/
def Common (a b : State) : Prop :=
  a.compilingChunk = b.compilingChunk
    ∧ a.parser.hadError = false ∧ a.parser.panicMode = false
    ∧ b.parser.hadError = false ∧ b.parser.panicMode = false

/-- The two runs before an `advance`: the scanner of `b` still holds what the
scanner of `a` holds (no end-of-file token among it), followed by the closing
token if there is one. -/
def Pre (closing : Option Token) (a b : State) : Prop :=
  Common a b ∧ (∀ t ∈ a.scanner.tokens, t.type ≠ .TOKEN_EOF)
    ∧ b.scanner.tokens = a.scanner.tokens ++ closing.toList

/-- The two runs in step: either both are at the same token inside the
stream, or `a` is at the end of file and `b` at the closing token (at the end
of file too when there is none). -/
def InStep (closing : Option Token) (a b : State) : Prop :=
  Common a b ∧
    ((Pre closing a b ∧ a.parser.current = b.parser.current
        ∧ a.parser.current.type ≠ .TOKEN_EOF)
      ∨ (a.scanner.tokens = [] ∧ b.scanner.tokens = []
        ∧ a.parser.current = eofToken a.scanner.eofLine
        ∧ b.parser.current = closing.getD (eofToken b.scanner.eofLine)))

/-- In step, with the same previous token. -/
def Sim (closing : Option Token) (a b : State) : Prop :=
  InStep closing a b ∧ a.parser.previous = b.parser.previous

/-- The tokens of `1 + 2 * 3`. -/
def onePlusTwoTimesThree : List Token :=
  [tok .TOKEN_NUMBER "1", tok .TOKEN_PLUS "+", tok .TOKEN_NUMBER "2", tok .TOKEN_STAR "*",
    tok .TOKEN_NUMBER "3"]

/-- The number of bytes of an index operand: 3 in the long form, 1 in the
short one. -/
def indexWidth (isLong : Bool) : Nat :=
  if isLong then 3 else 1

/-- The constant index that the instruction at `offset` carries (0 when its
bytes do not all lie in the code array). -/
def constantAt (chunk : Chunk) (offset : Nat) (isLong : Bool) : Nat :=
  match getConstant chunk isLong (offset + 1) with
  | some (constant, _) => constant
  | none => 0

/-- The constant that the instruction at `offset` names is a function
object. -/
def namesFunction (chunk : Chunk) (offset : Nat) (isLong : Bool) : Bool :=
  match chunk.aryValConstants[constantAt chunk offset isLong]? with
  | some (.OBJ_FUNCTION_VAL _) => true
  | _ => false

/-- The chunk is well formed at `offset`: there is an opcode byte at `offset`,
all the operand bytes of its instruction lie in the code array (for a closure
instruction also the two bytes of each upvalue pair of the function it
names), the constant index it carries, if any, lies in the constant pool, and
the constant of a closure instruction is a function object. -/
def wellFormedAt (chunk : Chunk) (offset : Nat) : Bool :=
  match chunk.aryB[offset]? with
  | none => false
  | some instruction =>
    match OpCode.ofByte instruction with
    | none => true
    | some op =>
      match op.form with
      | .simpleInstruction => true
      | .immediateInstruction isLong =>
        decide (offset + 1 + indexWidth isLong ≤ chunk.aryB.length)
      | .jumpInstruction _ => decide (offset + 3 ≤ chunk.aryB.length)
      | .constantInstruction isLong =>
        decide (offset + 1 + indexWidth isLong ≤ chunk.aryB.length)
          && decide (constantAt chunk offset isLong < chunk.aryValConstants.length)
      | .invokeInstruction isLong =>
        decide (offset + 1 + indexWidth isLong + 1 ≤ chunk.aryB.length)
          && decide (constantAt chunk offset isLong < chunk.aryValConstants.length)
      | .closureInstruction isLong =>
        decide (offset + 1 + indexWidth isLong + 2 * upvalueCountAt chunk offset isLong
            ≤ chunk.aryB.length)
          && namesFunction chunk offset isLong

/-- The constant a printed line shows, with its index, if it shows one. -/
def printedConstant : Printed → Option (Nat × Value)
  | .constant _ constant value => some (constant, value)
  | .invoke _ constant value _ => some (constant, value)
  | _ => none

/-- A chunk whose only byte is `OP_CONSTANT`: the operand byte is missing. -/
def chunkOperandMissing : Chunk :=
  ⟨[OpCode.OP_CONSTANT.toByte], [.NIL_VAL], [(1, 1)]⟩

/-- A chunk holding `OP_CONSTANT 5` and a pool of one constant. -/
def chunkConstantMissing : Chunk :=
  ⟨[OpCode.OP_CONSTANT.toByte, 5], [.NIL_VAL], [(1, 2)]⟩

/-- A chunk holding `OP_JUMP` and one of its two operand bytes. -/
def chunkJumpCut : Chunk :=
  ⟨[OpCode.OP_JUMP.toByte, 0], [], [(1, 2)]⟩

/-- A chunk holding `OP_CLOSURE 0` for a function with two upvalues, and one
upvalue pair only. -/
def chunkClosureCut : Chunk :=
  ⟨[OpCode.OP_CLOSURE.toByte, 0, 1, 0], [.OBJ_FUNCTION_VAL ⟨0, 2, []⟩], [(1, 4)]⟩

/-- The result `r` of a handler called at `offset` is in bounds exactly when
`cond` holds: if it does, the handler returns, the instruction it has read
ends inside the code array, and every constant it prints is the constant of
the pool at the index shown; if it does not, a read falls outside an array
(or a value that is no function is read as one). -/
def ReadsInside (chunk : Chunk) (offset : Nat) (cond : Bool)
    (r : Option (Nat × List Printed)) : Prop :=
  (cond = true →
      ∃ next out, r = some (next, out) ∧ offset < next ∧ next ≤ chunk.aryB.length
        ∧ ∀ p ∈ out, ∀ c v, printedConstant p = some (c, v) →
            chunk.aryValConstants[c]? = some v)
    ∧ (cond = false → r = none)

/-- The source `@ 1 ( 2`: the scanner's error token for `@`, then `1 ( 2`. -/
def srcErrorOneParenTwo : Scanner :=
  ⟨[tok .TOKEN_ERROR "Unexpected character.", tok .TOKEN_NUMBER "1", tok .TOKEN_LEFT_PAREN "(",
    tok .TOKEN_NUMBER "2"], 1⟩

/-- The state of the run of `compile` on `source` at the first turn of the
infix loop of the outermost `parsePrecedence`, when the expression starts with
a number: after the `advance` of `compile`, the `advance` of
`parsePrecedence`, the prefix handler `number` and the `advance` of the loop
(compiler.c:77, 314, 324, 328), just before `infixFn()` is called. -/
def atFirstInfixCall (source : Scanner) : State :=
  advance (number (advance (advance (start idle source Chunk.empty))))

/-! ## Symbolic execution on states in normal form -/

theorem advance_st_cons (base : State) (p c t : Token) (rest : List Token) (ch : Chunk)
    (ht : t.type ≠ .TOKEN_ERROR) :
    advance (st base p c (t :: rest) ch) = st base c t rest ch := by
  simp [advance, advanceLoop, st, scanToken, ht]

theorem advance_st_nil (base : State) (p c : Token) (ch : Chunk) :
    advance (st base p c [] ch) = st base c (eofToken base.scanner.eofLine) [] ch := by
  simp [advance, advanceLoop, st, scanToken]

theorem emitByte_st (base : State) (p c : Token) (rest : List Token) (ch : Chunk) (b : Byte) :
    emitByte b (st base p c rest ch) = st base p c rest (writeChunk ch b p.line) := by
  simp [emitByte, st]

theorem isLiteral_prefixFn {t : TokenType} (h : isLiteral t = true) :
    (getRule t).prefixFn =
      some (if t = .TOKEN_NUMBER then .number else if t = .TOKEN_STRING then .string
        else .literal) := by
  cases t <;> simp_all [isLiteral, getRule, rules]

theorem writeConstant_constants_length (ch : Chunk) (v : Value) (line : Nat) :
    (writeConstant ch v line).2.aryValConstants.length ≤ ch.aryValConstants.length + 1 := by
  unfold writeConstant
  dsimp only
  split_ifs <;> simp [writeChunk]

theorem load_constants_length (t : Token) (ch : Chunk) :
    (load t ch).aryValConstants.length ≤ ch.aryValConstants.length + 1 := by
  unfold load
  split <;> first | exact writeConstant_constants_length _ _ _ | simp [writeChunk]

theorem callParseFn_literal (pp : Nat → State → Except Fault State) (base : State)
    (p c : Token) (rest : List Token) (ch : Chunk) (h : isLiteral p.type = true)
    (hroom : ch.aryValConstants.length < UINT24_COUNT) :
    callParseFn pp (if p.type = .TOKEN_NUMBER then .number else if p.type = .TOKEN_STRING
        then .string else .literal) (st base p c rest ch)
      = .ok (st base p c rest (load p ch)) := by
  have h8 : UINT8_COUNT ≤ UINT24_COUNT := by decide
  rcases p with ⟨ty, lx, ln⟩
  cases ty <;> simp [isLiteral] at h <;>
    simp [callParseFn, number, string, literal, emitConstant, emitByte, st, load, writeConstant,
      pure, Except.pure] <;>
    split_ifs <;> first | rfl | omega | simp_all

theorem emitOps_st (base : State) (p c : Token) (rest : List Token) (ch : Chunk)
    (ops : List OpCode) :
    emitOps ops (st base p c rest ch) = st base p c rest (writeOps ch ops p.line) := by
  induction ops generalizing ch with
  | nil => rfl
  | cons op ops ih => simp only [emitOps, writeOps, List.foldl_cons, emitByte_st] at ih ⊢; exact ih _

theorem getRule_binaryOp {t : TokenType} (h : isBinaryOp t = true) :
    (getRule t).infixFn = some .binary ∧ (getRule t).precedence = PREC_EQUALITY + ladder t := by
  cases t <;> simp_all [isBinaryOp, getRule, rules, ladder, PREC_EQUALITY, PREC_COMPARISON,
    PREC_TERM, PREC_FACTOR]

theorem binary_eq (pp : Nat → State → Except Fault State) (s : State)
    (h : isBinaryOp s.parser.previous.type = true) :
    binary pp s =
      match pp (PREC_EQUALITY + ladder s.parser.previous.type + 1) s with
      | .error f => .error f
      | .ok s1 => .ok (emitOps (binaryCode s.parser.previous.type) s1) := by
  unfold binary
  generalize hty : s.parser.previous.type = ty at h ⊢
  cases ty <;> simp [isBinaryOp] at h <;>
    simp [getRule, rules, ladder, binaryCode, emitOps, emitBytes, bind, Except.bind, pure,
      Except.pure, PREC_EQUALITY, PREC_COMPARISON, PREC_TERM, PREC_FACTOR] <;>
    split <;> simp_all

/-- One step of `parsePrecedence` at a literal operand. -/
theorem parsePrecedence_literal {n : Nat} {prec : Nat} {s base : State} {c t : Token}
    {rest : List Token} {ch : Chunk} (hadv : advance s = st base c t rest ch)
    (hc : isLiteral c.type = true) (hroom : ch.aryValConstants.length < UINT24_COUNT) :
    parsePrecedence (n + 1) prec s
      = infixLoop (parsePrecedence n) n prec (st base c t rest (load c ch)) := by
  have hp : (st base c t rest ch).parser.previous = c := rfl
  simp only [parsePrecedence, hadv, hp, isLiteral_prefixFn hc, callParseFn_literal _ _ _ _ _ _ hc hroom]

theorem infixLoop_stop (pp : Nat → State → Except Fault State) (n : Nat)
    (prec : Nat) (s : State) (h : (getRule s.parser.current.type).precedence < prec) :
    infixLoop pp (n + 1) prec s = .ok s := by
  simp [infixLoop, Nat.not_le.mpr h]

/-- One turn of the infix loop at a binary operator. -/
theorem infixLoop_binary (pp : Nat → State → Except Fault State) (n : Nat)
    (prec : Nat) (s : State) {base : State} {c t : Token} {rest : List Token} {ch : Chunk}
    (hadv : advance s = st base c t rest ch) (hcur : s.parser.current = c)
    (hop : isBinaryOp c.type = true) (h : prec ≤ PREC_EQUALITY + ladder c.type) :
    infixLoop pp (n + 1) prec s =
      match pp (PREC_EQUALITY + ladder c.type + 1) (st base c t rest ch) with
      | .error f => .error f
      | .ok s1 => infixLoop pp n prec (emitOps (binaryCode c.type) s1) := by
  have hp : (st base c t rest ch).parser.previous = c := rfl
  have hb := binary_eq pp (st base c t rest ch) (by rw [hp]; exact hop)
  rw [hp] at hb
  simp only [infixLoop, hcur, (getRule_binaryOp hop).2, h, if_true, hadv, hp,
    (getRule_binaryOp hop).1, callParseFn, hb]
  cases pp (PREC_EQUALITY + ladder c.type + 1) (st base c t rest ch) <;> rfl

theorem isLiteral_ne_error {t : TokenType} (h : isLiteral t = true) : t ≠ .TOKEN_ERROR := by
  rintro rfl; simp [isLiteral] at h

theorem isBinaryOp_ne_error {t : TokenType} (h : isBinaryOp t = true) : t ≠ .TOKEN_ERROR := by
  rintro rfl; simp [isBinaryOp] at h

theorem ladder_le_three (t : TokenType) : ladder t ≤ 3 := by
  cases t <;> simp [ladder]

theorem writeOps_constants (ch : Chunk) (ops : List OpCode) (line : Nat) :
    (writeOps ch ops line).aryValConstants = ch.aryValConstants := by
  induction ops generalizing ch with
  | nil => rfl
  | cons op ops ih => simp only [writeOps, List.foldl_cons] at ih ⊢; rw [ih]; rfl

theorem start_eq_st (g : State) (toks : List Token) (eofLine : Nat) (ch : Chunk) :
    start g ⟨toks, eofLine⟩ ch
      = st (start g ⟨[], eofLine⟩ ch) zeroParser.previous zeroParser.current toks ch := rfl

theorem compile_eq (g : State) (source : Scanner) (ch : Chunk) :
    compile g source ch =
      match parsePrecedence (source.tokens.length + 1) PREC_ASSIGNMENT
          (advance (start g source ch)) with
      | .error f => .error f
      | .ok s2 =>
        .ok (!(endCompiler (consume .TOKEN_EOF msgExpectEnd s2)).parser.hadError,
          endCompiler (consume .TOKEN_EOF msgExpectEnd s2)) := rfl

/-- The end of `compile` after an expression that ended, without error, at the
end of the source. -/
theorem compile_finished (g : State) (toks : List Token) (eofLine : Nat) (ch x : Chunk)
    (p : Token)
    (h : parsePrecedence (toks.length + 1) PREC_ASSIGNMENT
          (advance (st (start g ⟨[], eofLine⟩ ch) zeroParser.previous zeroParser.current toks ch))
        = .ok (st (start g ⟨[], eofLine⟩ ch) p (eofToken eofLine) [] x)) :
    compile g ⟨toks, eofLine⟩ ch = finished g eofLine x := by
  rw [compile_eq, start_eq_st]
  simp only []
  rw [h]
  simp [finished, consume, st, start, eofToken, advance, advanceLoop, scanToken, endCompiler,
    emitReturn, emitByte, writeOps, zeroParser]

theorem infixLoop_eof (pp : Nat → State → Except Fault State) (n prec : Nat) (base : State)
    (p : Token) (x : Chunk) (l : Nat) (h : 0 < prec) :
    infixLoop pp (n + 1) prec (st base p (eofToken l) [] x) = .ok (st base p (eofToken l) [] x) :=
  infixLoop_stop pp n prec _ h

theorem isUnaryOp_ne_error {t : TokenType} (h : isUnaryOp t = true) : t ≠ .TOKEN_ERROR := by
  rintro rfl; simp [isUnaryOp] at h

theorem unary_eq (pp : Nat → State → Except Fault State) (s : State)
    (h : isUnaryOp s.parser.previous.type = true) :
    unary pp s =
      match pp PREC_UNARY s with
      | .error f => .error f
      | .ok s1 => .ok (emitOps (unaryCode s.parser.previous.type) s1) := by
  unfold unary
  generalize hty : s.parser.previous.type = ty at h ⊢
  cases ty <;> simp [isUnaryOp] at h <;>
    simp [unaryCode, emitOps, bind, Except.bind, pure, Except.pure] <;>
    split <;> simp_all

/-- One step of `parsePrecedence` at a unary operator. -/
theorem parsePrecedence_unary {n : Nat} {prec : Nat} {s base : State} {u t : Token}
    {rest : List Token} {ch : Chunk} (hadv : advance s = st base u t rest ch)
    (hu : isUnaryOp u.type = true) :
    parsePrecedence (n + 1) prec s =
      match parsePrecedence n PREC_UNARY (st base u t rest ch) with
      | .error f => .error f
      | .ok s1 => infixLoop (parsePrecedence n) n prec (emitOps (unaryCode u.type) s1) := by
  have hp : (st base u t rest ch).parser.previous = u := rfl
  have hb := unary_eq (parsePrecedence n) (st base u t rest ch) (by rw [hp]; exact hu)
  rw [hp] at hb
  have hpre : (getRule u.type).prefixFn = some .unary := by
    generalize u.type = ty at hu
    cases ty <;> simp [isUnaryOp] at hu <;> rfl
  simp only [parsePrecedence, hadv, hp, hpre, callParseFn, hb]
  cases parsePrecedence n PREC_UNARY (st base u t rest ch) <;> rfl

/-! ## Properties kept by every step of a run -/

theorem errorAt_parser_tokens (tok : Token) (msg : List Char) (s : State) :
    (errorAt tok msg s).parser.current = s.parser.current
      ∧ (errorAt tok msg s).parser.previous = s.parser.previous
      ∧ (errorAt tok msg s).scanner = s.scanner
      ∧ (errorAt tok msg s).compilingChunk = s.compilingChunk := by
  unfold errorAt
  dsimp only
  split_ifs <;> simp

theorem stable_ofTokens {P : State → Prop}
    (herr : ∀ s tok msg, P s → P (Clox.errorAt tok msg s))
    (htok : ∀ (s : State) p c sc, P s →
      P { s with parser := { s.parser with previous := p, current := c }, scanner := sc })
    (hchunk : ∀ (s : State) ch, P s → P { s with compilingChunk := ch }) : Stable P := by
  have loop : ∀ toks s, P s → P (advanceLoop s toks) := by
    intro toks
    induction toks with
    | nil =>
      intro s hs
      exact htok s s.parser.previous _ _ hs
    | cons t rest ih =>
      intro s hs
      unfold advanceLoop
      dsimp only
      split_ifs with h
      · exact htok s s.parser.previous _ _ hs
      · exact ih _ (herr _ _ _ (htok s s.parser.previous _ _ hs))
  exact
    { errorAt := herr
      advance := fun s hs => loop _ _ (htok s s.parser.current s.parser.current s.scanner hs)
      chunk := fun s b l hs => hchunk s _ hs
      constant := fun s v l hs => hchunk s _ hs }

theorem stable_and {P Q : State → Prop} (hP : Stable P) (hQ : Stable Q) :
    Stable (fun s => P s ∧ Q s) :=
  { errorAt := fun s tok msg h => ⟨hP.errorAt s tok msg h.1, hQ.errorAt s tok msg h.2⟩
    advance := fun s h => ⟨hP.advance s h.1, hQ.advance s h.2⟩
    chunk := fun s b l h => ⟨hP.chunk s b l h.1, hQ.chunk s b l h.2⟩
    constant := fun s v l h => ⟨hP.constant s v l h.1, hQ.constant s v l h.2⟩ }

theorem stable_consume {P : State → Prop} (hP : Stable P) (ty : TokenType) (msg : List Char)
    (s : State) (hs : P s) : P (consume ty msg s) := by
  unfold Clox.consume
  split_ifs
  · exact hP.advance s hs
  · exact hP.errorAt _ _ _ hs

theorem stable_emitByte {P : State → Prop} (hP : Stable P) (b : Byte) (s : State) (hs : P s) :
    P (emitByte b s) :=
  hP.chunk s b _ hs

theorem stable_emitConstant {P : State → Prop} (hP : Stable P) (v : Value) (s : State)
    (hs : P s) : P (emitConstant v s) := by
  unfold Clox.emitConstant
  dsimp only
  split_ifs
  · exact hP.errorAt _ _ _ (hP.constant s v _ hs)
  · exact hP.constant s v _ hs

theorem stable_literal {P : State → Prop} (hP : Stable P) (s : State) (hs : P s) :
    P (literal s) := by
  unfold Clox.literal
  split <;> first | exact stable_emitByte hP _ _ hs | exact hs

theorem stable_callParseFn {P : State → Prop} (hP : Stable P)
    (pp : Nat → State → Except Fault State) (hpp : ∀ prec s, P s → Keeps P (pp prec s))
    (fn : ParseFn) (s : State) (hs : P s) : Keeps P (callParseFn pp fn s) := by
  cases fn with
  | grouping =>
    have h := hpp PREC_ASSIGNMENT s hs
    simp only [Clox.callParseFn, grouping, expression, bind, Except.bind]
    cases hr : pp PREC_ASSIGNMENT s with
    | error f => trivial
    | ok s1 => rw [hr] at h; exact stable_consume hP _ _ _ h
  | unary =>
    have h := hpp PREC_UNARY s hs
    simp only [Clox.callParseFn, unary, bind, Except.bind]
    cases hr : pp PREC_UNARY s with
    | error f => trivial
    | ok s1 =>
      rw [hr] at h
      dsimp only
      split <;> first | exact stable_emitByte hP _ _ h | exact h
  | binary =>
    have h := hpp ((getRule s.parser.previous.type).precedence + 1) s hs
    simp only [Clox.callParseFn, binary, bind, Except.bind]
    cases hr : pp ((getRule s.parser.previous.type).precedence + 1) s with
    | error f => trivial
    | ok s1 =>
      rw [hr] at h
      dsimp only
      split <;> first
        | exact stable_emitByte hP _ _ h
        | exact stable_emitByte hP _ _ (stable_emitByte hP _ _ h)
        | exact h
  | number => exact stable_emitConstant hP _ _ hs
  | string => exact stable_emitConstant hP _ _ hs
  | literal => exact stable_literal hP _ hs

theorem stable_infixLoop {P : State → Prop} (hP : Stable P)
    (pp : Nat → State → Except Fault State) (hpp : ∀ prec s, P s → Keeps P (pp prec s))
    (n prec : Nat) : ∀ s, P s → Keeps P (infixLoop pp n prec s) := by
  induction n with
  | zero => intro s _; trivial
  | succ n ih =>
    intro s hs
    unfold Clox.infixLoop
    split_ifs with hc
    · dsimp only
      split
      · trivial
      · rename_i fn _
        have h := stable_callParseFn hP pp hpp fn _ (hP.advance s hs)
        split
        · trivial
        · rename_i s2 hr
          rw [hr] at h
          exact ih s2 h
    · exact hs

/-- A stable property holds after `parsePrecedence` when it held before. -/
theorem stable_parsePrecedence {P : State → Prop} (hP : Stable P) (n : Nat) :
    ∀ prec s, P s → Keeps P (parsePrecedence n prec s) := by
  induction n with
  | zero => intro prec s _; trivial
  | succ n ih =>
    intro prec s hs
    unfold Clox.parsePrecedence
    dsimp only
    split
    · exact hP.errorAt _ _ _ (hP.advance s hs)
    · rename_i fn _
      have h := stable_callParseFn hP (Clox.parsePrecedence n) ih fn _ (hP.advance s hs)
      split
      · trivial
      · rename_i s2 hr
        rw [hr] at h
        exact stable_infixLoop hP _ ih n prec s2 h

/-- A stable property that holds at the start of `compile` holds in the state
it returns. -/
theorem stable_compile {P : State → Prop} (hP : Stable P) (g : State) (source : Scanner)
    (chunk : Chunk) (b : Bool) (s : State) (h0 : P (start g source chunk))
    (h : compile g source chunk = .ok (b, s)) : P s := by
  rw [compile_eq] at h
  have hk := stable_parsePrecedence hP (source.tokens.length + 1) PREC_ASSIGNMENT _ (hP.advance _ h0)
  split at h
  · cases h
  · rename_i s2 hr
    rw [hr] at hk
    cases h
    exact stable_emitByte hP _ _ (stable_consume hP _ _ _ hk)

theorem compile_flag (g : State) (source : Scanner) (chunk : Chunk) (b : Bool) (s : State)
    (h : compile g source chunk = .ok (b, s)) : b = !s.parser.hadError := by
  rw [compile_eq] at h
  split at h
  · cases h
  · cases h; rfl

/-! ## The error bookkeeping -/

/-- The error bookkeeping is kept by every step. -/
theorem errInv_stable (g : State) : Stable (ErrInv g) := by
  apply stable_ofTokens
  · intro s tok msg h
    obtain ⟨h1, h2, h3⟩ := h
    unfold errorAt
    dsimp only
    split_ifs with hp
    · have hh : s.parser.hadError = true := by rw [← h1]; exact hp
      obtain ⟨r, rest, e1, e2⟩ := h3 hh
      refine ⟨h1, fun hf => ?_, fun _ => ⟨r, rest ++ [reportOf tok msg], ?_, e2⟩⟩
      · rw [hh] at hf; cases hf
      · simp [e1]
    · have hh : s.parser.hadError = false := by
        rw [← h1]; simpa using hp
      obtain ⟨e1, e2⟩ := h2 hh
      refine ⟨rfl, fun hf => ?_, fun _ => ⟨reportOf tok msg, [], ?_, ?_⟩⟩
      · cases hf
      · simp [e1]
      · simp [e2]
  · intro s p c sc h; exact h
  · intro s ch h; exact h

theorem errInv_start (g : State) (source : Scanner) (chunk : Chunk) :
    ErrInv g (start g source chunk) :=
  ⟨rfl, fun _ => ⟨rfl, rfl⟩, fun h => by cases h⟩

theorem errInv_compile (g : State) (source : Scanner) (chunk : Chunk) (b : Bool) (s : State)
    (h : compile g source chunk = .ok (b, s)) : ErrInv g s :=
  stable_compile (errInv_stable g) g source chunk b s (errInv_start g source chunk) h

theorem errInv_raised_ne_iff {g s : State} (h : ErrInv g s) :
    s.raised ≠ g.raised ↔ s.parser.hadError = true := by
  constructor
  · intro hne
    by_contra hh
    exact hne (h.2.1 (by simpa using hh)).1
  · intro hh heq
    obtain ⟨r, rest, e1, _⟩ := h.2.2 hh
    rw [heq] at e1
    have := congrArg List.length e1
    simp at this

theorem errorAt_hadError_of_inv (g : State) (s : State) (h : ErrInv g s) (tok : Token)
    (msg : List Char) : (errorAt tok msg s).parser.hadError = true := by
  unfold errorAt
  dsimp only
  split_ifs with hp
  · rw [← h.1]; exact hp
  · rfl

theorem errorAt_raised (tok : Token) (msg : List Char) (s : State) :
    (errorAt tok msg s).raised = s.raised ++ [reportOf tok msg] := by
  unfold errorAt
  dsimp only
  split_ifs <;> rfl

/-! ## The recursion budget is enough -/

theorem advanceLoop_previous (toks : List Token) :
    ∀ s, (advanceLoop s toks).parser.previous = s.parser.previous := by
  induction toks with
  | nil => intro s; rfl
  | cons t rest ih =>
    intro s
    unfold advanceLoop
    dsimp only
    split_ifs
    · rfl
    · rw [ih, errorAtCurrent, (errorAt_parser_tokens _ _ _).2.1]

theorem advance_previous (s : State) : (advance s).parser.previous = s.parser.current := by
  unfold advance
  rw [advanceLoop_previous]

theorem advanceLoop_chunk (toks : List Token) :
    ∀ s, (advanceLoop s toks).compilingChunk = s.compilingChunk := by
  induction toks with
  | nil => intro s; rfl
  | cons t rest ih =>
    intro s
    unfold advanceLoop
    dsimp only
    split_ifs
    · rfl
    · rw [ih, errorAtCurrent, (errorAt_parser_tokens _ _ _).2.2.2]

theorem advance_chunk (s : State) : (advance s).compilingChunk = s.compilingChunk := by
  unfold advance
  rw [advanceLoop_chunk]

theorem consume_chunk (ty : TokenType) (msg : List Char) (s : State) :
    (consume ty msg s).compilingChunk = s.compilingChunk := by
  unfold consume
  split_ifs
  · exact advance_chunk s
  · exact (errorAt_parser_tokens _ _ _).2.2.2

theorem advanceLoop_current_ne_error (toks : List Token) :
    ∀ s, (advanceLoop s toks).parser.current.type ≠ .TOKEN_ERROR := by
  induction toks with
  | nil => intro s; simp [advanceLoop, scanToken, eofToken]
  | cons t rest ih =>
    intro s
    unfold advanceLoop
    dsimp only
    split_ifs with h
    · simpa [scanToken] using h
    · exact ih _

theorem remaining_errorAt (tok : Token) (msg : List Char) (s : State) :
    remaining (errorAt tok msg s) = remaining s := by
  unfold remaining
  rw [(errorAt_parser_tokens _ _ _).1, (errorAt_parser_tokens _ _ _).2.2.1]

theorem remaining_advanceLoop (toks : List Token) :
    ∀ s, remaining (advanceLoop s toks) ≤ toks.length := by
  induction toks with
  | nil => intro s; simp [advanceLoop, remaining, scanToken, eofToken]
  | cons t rest ih =>
    intro s
    unfold advanceLoop
    dsimp only
    split_ifs with h
    · simp only [remaining, scanToken, List.length_cons]
      split_ifs <;> omega
    · exact le_trans (ih _) (by simp)

theorem remaining_advance (s : State) : remaining (advance s) ≤ s.scanner.tokens.length :=
  remaining_advanceLoop _ _

theorem tokens_le_remaining (s : State) : s.scanner.tokens.length ≤ remaining s := by
  unfold remaining; omega

theorem remaining_of_ne_eof {s : State} (h : s.parser.current.type ≠ .TOKEN_EOF) :
    remaining s = s.scanner.tokens.length + 1 := by
  unfold remaining; rw [if_neg h]

theorem remaining_consume (ty : TokenType) (msg : List Char) (s : State) :
    remaining (consume ty msg s) ≤ remaining s := by
  unfold consume
  split_ifs
  · exact le_trans (remaining_advance s) (tokens_le_remaining s)
  · rw [errorAtCurrent, remaining_errorAt]

theorem remaining_emitByte (b : Byte) (s : State) : remaining (emitByte b s) = remaining s := rfl

theorem remaining_emitConstant (v : Value) (s : State) :
    remaining (emitConstant v s) = remaining s := by
  unfold emitConstant
  dsimp only
  split_ifs
  · rw [error, remaining_errorAt]; rfl
  · rfl

theorem remaining_literal (s : State) : remaining (literal s) = remaining s := by
  unfold literal
  split <;> rfl

theorem bounded_mono {k k2 : Nat} (h : k ≤ k2) {r : Except Fault State} (hr : Bounded k r) :
    Bounded k2 r := by
  cases r with
  | error f => exact hr
  | ok s => exact le_trans hr h

theorem callParseFn_bounded (pp : Nat → State → Except Fault State) (n : Nat)
    (hpp : ∀ prec s, remaining s < n → Bounded (remaining s) (pp prec s))
    (fn : ParseFn) (s : State) (hs : remaining s < n) :
    Bounded (remaining s) (callParseFn pp fn s) := by
  cases fn with
  | grouping =>
    have h := hpp PREC_ASSIGNMENT s hs
    simp only [callParseFn, grouping, expression, bind, Except.bind]
    cases hr : pp PREC_ASSIGNMENT s with
    | error f => rw [hr] at h; exact h
    | ok s1 =>
      rw [hr] at h
      exact le_trans (remaining_consume _ _ _) h
  | unary =>
    have h := hpp PREC_UNARY s hs
    simp only [callParseFn, unary, bind, Except.bind]
    cases hr : pp PREC_UNARY s with
    | error f => rw [hr] at h; exact h
    | ok s1 =>
      rw [hr] at h
      dsimp only
      split <;> exact h
  | binary =>
    have h := hpp ((getRule s.parser.previous.type).precedence + 1) s hs
    simp only [callParseFn, binary, bind, Except.bind]
    cases hr : pp ((getRule s.parser.previous.type).precedence + 1) s with
    | error f => rw [hr] at h; exact h
    | ok s1 =>
      rw [hr] at h
      dsimp only
      split <;> exact h
  | number => exact le_of_eq (remaining_emitConstant _ _)
  | string => exact le_of_eq (remaining_emitConstant _ _)
  | literal => exact le_of_eq (remaining_literal _)

theorem infixFn_ne_eof {t : TokenType} {fn : ParseFn} (h : (getRule t).infixFn = some fn) :
    t ≠ .TOKEN_EOF := by
  rintro rfl; cases h

theorem prefixFn_ne_eof {t : TokenType} {fn : ParseFn} (h : (getRule t).prefixFn = some fn) :
    t ≠ .TOKEN_EOF := by
  rintro rfl; cases h

theorem infixLoop_bounded (pp : Nat → State → Except Fault State) (n : Nat)
    (hpp : ∀ prec s, remaining s < n → Bounded (remaining s) (pp prec s)) (prec : Nat) :
    ∀ m, m ≤ n → ∀ s, remaining s < m → Bounded (remaining s) (infixLoop pp m prec s) := by
  intro m
  induction m with
  | zero => intro _ s hs; omega
  | succ m ih =>
    intro hm s hs
    unfold infixLoop
    split_ifs with hc
    · dsimp only
      split
      · rfl
      · rename_i fn hfn
        rw [advance_previous] at hfn
        have hlt : remaining (advance s) < m := by
          have := remaining_advance s
          rw [remaining_of_ne_eof (infixFn_ne_eof hfn)] at hs
          omega
        have h := callParseFn_bounded pp n hpp fn (advance s) (by omega)
        split
        · rename_i f hr
          rw [hr] at h; exact h
        · rename_i s2 hr
          rw [hr] at h
          have h2 : remaining s2 ≤ remaining (advance s) := h
          refine bounded_mono ?_ (ih (by omega) s2 (by omega))
          have := remaining_advance s
          have := tokens_le_remaining s
          omega
    · exact le_refl _

/-- With more fuel than there is left to read, `parsePrecedence` does not run
out of fuel: it returns, with no more left to read than before, or stops at
the `NULL` call. -/
theorem parsePrecedence_fuel (n : Nat) :
    ∀ prec s, remaining s < n → Bounded (remaining s) (parsePrecedence n prec s) := by
  induction n with
  | zero => intro prec s hs; omega
  | succ n ih =>
    intro prec s hs
    unfold parsePrecedence
    dsimp only
    have h1 := remaining_advance s
    have h2 := tokens_le_remaining s
    split
    · show remaining (error _ _) ≤ _
      rw [error, remaining_errorAt]; omega
    · rename_i fn hfn
      rw [advance_previous] at hfn
      have hlt : remaining (advance s) < n := by
        rw [remaining_of_ne_eof (prefixFn_ne_eof hfn)] at hs
        omega
      have h := callParseFn_bounded (parsePrecedence n) n ih fn (advance s) hlt
      split
      · rename_i f hr
        rw [hr] at h; exact h
      · rename_i s2 hr
        rw [hr] at h
        have h3 : remaining s2 ≤ remaining (advance s) := h
        refine bounded_mono ?_
          (infixLoop_bounded (parsePrecedence n) n ih prec n (le_refl _) s2 (by omega))
        omega

/-- The budget `compile` gives `parsePrecedence` is enough for every source. -/
theorem compile_ne_outOfFuel (g : State) (source : Scanner) (chunk : Chunk) :
    compile g source chunk ≠ .error .outOfFuel := by
  rw [compile_eq]
  have h := parsePrecedence_fuel (source.tokens.length + 1) PREC_ASSIGNMENT
    (advance (start g source chunk)) (by
      have := remaining_advance (start g source chunk)
      have e : (start g source chunk).scanner.tokens = source.tokens := rfl
      rw [e] at this
      omega)
  split
  · rename_i f hr
    rw [hr] at h
    have hf : f = .nullCall := h
    rw [hf]
    simp
  · simp

/-! ## Reading the stream -/

theorem errorAt_flags (tok : Token) (msg : List Char) (s : State)
    (h : s.parser.panicMode = s.parser.hadError) :
    (errorAt tok msg s).parser.panicMode = true ∧ (errorAt tok msg s).parser.hadError = true := by
  unfold errorAt
  dsimp only
  split_ifs with hp
  · exact ⟨hp, by rw [← h]; exact hp⟩
  · exact ⟨rfl, rfl⟩

theorem advanceLoop_reads (toks : List Token) (rem : List Token) :
    ∀ (s : State) (consumed : List Token), toks = consumed ++ rem →
      s.parser.panicMode = s.parser.hadError →
      (s.parser.hadError = false → ∀ t ∈ consumed, t.type ≠ .TOKEN_ERROR) →
      ∃ extra, toks = (consumed ++ extra) ++ (advanceLoop s rem).scanner.tokens
        ∧ (advanceLoop s rem).parser.panicMode = (advanceLoop s rem).parser.hadError
        ∧ ((advanceLoop s rem).parser.hadError = false →
            ∀ t ∈ consumed ++ extra, t.type ≠ .TOKEN_ERROR)
        ∧ ((advanceLoop s rem).parser.current.type = .TOKEN_EOF →
            (advanceLoop s rem).scanner.tokens = []
              ∨ ∃ t ∈ consumed ++ extra, t.type = .TOKEN_EOF)
        ∧ (rem = [] → (advanceLoop s rem).scanner.tokens = []) := by
  induction rem with
  | nil =>
    intro s consumed htoks hpm hne
    exact ⟨[], by simpa [advanceLoop, scanToken] using htoks, hpm, by simpa using hne,
      fun _ => Or.inl rfl, fun _ => rfl⟩
  | cons t rest ih =>
    intro s consumed htoks hpm hne
    unfold advanceLoop
    dsimp only
    split_ifs with hty
    · refine ⟨[t], by simpa [scanToken] using htoks, hpm, ?_, ?_, fun h => by cases h⟩
      · intro hh x hx
        rcases List.mem_append.mp hx with hx | hx
        · exact hne hh x hx
        · rw [List.mem_singleton.mp hx]; exact hty
      · intro hcur
        exact Or.inr ⟨t, by simp, by simpa [scanToken] using hcur⟩
    · have hflags := errorAt_flags
        ({ s with
          parser := { s.parser with current := (scanToken ⟨t :: rest, s.scanner.eofLine⟩).1 }
          scanner := (scanToken ⟨t :: rest, s.scanner.eofLine⟩).2 } : State).parser.current
        (scanToken ⟨t :: rest, s.scanner.eofLine⟩).1.lexeme
        { s with
          parser := { s.parser with current := (scanToken ⟨t :: rest, s.scanner.eofLine⟩).1 }
          scanner := (scanToken ⟨t :: rest, s.scanner.eofLine⟩).2 } hpm
      obtain ⟨extra, e1, e2, e3, e4, _⟩ := ih
        (errorAtCurrent (scanToken ⟨t :: rest, s.scanner.eofLine⟩).1.lexeme
          { s with
            parser := { s.parser with current := (scanToken ⟨t :: rest, s.scanner.eofLine⟩).1 }
            scanner := (scanToken ⟨t :: rest, s.scanner.eofLine⟩).2 })
        (consumed ++ [t]) (by simpa using htoks)
        (by rw [errorAtCurrent, hflags.1, hflags.2])
        (by
          intro hh
          rw [errorAtCurrent, hflags.2] at hh
          cases hh)
      refine ⟨t :: extra, by simpa using e1, e2, ?_, ?_, fun h => by cases h⟩
      · intro hh x hx
        exact e3 hh x (by simpa using hx)
      · intro hcur
        rcases e4 hcur with h | ⟨x, hx, hxe⟩
        · exact Or.inl h
        · exact Or.inr ⟨x, by simpa using hx, hxe⟩

/-- The reading invariant is kept by every step. -/
theorem readUpTo_stable (toks : List Token) : Stable (ReadUpTo toks) where
  errorAt := by
    rintro s tok msg ⟨consumed, h1, h2, h3, h4⟩
    have hf := errorAt_flags tok msg s h2
    have ht := errorAt_parser_tokens tok msg s
    refine ⟨consumed, by rw [ht.2.2.1]; exact h1, by rw [hf.1, hf.2], ?_, ?_⟩
    · intro hh; rw [hf.2] at hh; cases hh
    · rw [ht.1, ht.2.2.1]; exact h4
  advance := by
    rintro s ⟨consumed, h1, h2, h3, h4⟩
    obtain ⟨extra, e1, e2, e3, e4, _⟩ := advanceLoop_reads toks s.scanner.tokens
      { s with parser := { s.parser with previous := s.parser.current } } consumed h1 h2 h3
    exact ⟨consumed ++ extra, e1, e2, e3, e4⟩
  chunk := fun s b l h => h
  constant := fun s v l h => h

theorem readUpTo_start (g : State) (toks : List Token) (eofLine : Nat) (chunk : Chunk) :
    ReadUpTo toks (start g ⟨toks, eofLine⟩ chunk) := by
  refine ⟨[], rfl, rfl, ?_, ?_⟩
  · intro _ t ht; cases ht
  · intro h; cases h

/-- When `compile` returns `true`, the last token consumed is the end of file
and the scanner has handed out, with no error token, the stream up to an
end-of-file token or all of it. -/
theorem compile_true_reads (g : State) (toks : List Token) (eofLine : Nat) (chunk : Chunk)
    (s : State) (h : compile g ⟨toks, eofLine⟩ chunk = .ok (true, s)) :
    s.parser.previous.type = .TOKEN_EOF ∧
    ∃ consumed, toks = consumed ++ s.scanner.tokens
      ∧ (∀ t ∈ consumed, t.type ≠ .TOKEN_ERROR)
      ∧ (s.scanner.tokens = [] ∨ ∃ t ∈ consumed, t.type = .TOKEN_EOF) := by
  have hflag := compile_flag g _ chunk true s h
  have hs : s.parser.hadError = false := by
    cases hh : s.parser.hadError <;> simp [hh] at hflag ⊢
  rw [compile_eq] at h
  split at h
  · cases h
  · rename_i s2 hr
    have hk := stable_parsePrecedence (readUpTo_stable toks) (toks.length + 1) PREC_ASSIGNMENT _
      ((readUpTo_stable toks).advance _ (readUpTo_start g toks eofLine chunk))
    simp only [] at hr
    rw [hr] at hk
    obtain ⟨consumed, h1, h2, h3, h4⟩ := hk
    have hseq : s = endCompiler (consume .TOKEN_EOF msgExpectEnd s2) := by
      injection h with h
      exact (Prod.mk.inj h).2.symm
    have hcur : s2.parser.current.type = .TOKEN_EOF := by
      by_contra hne
      have hce : consume .TOKEN_EOF msgExpectEnd s2 = errorAtCurrent msgExpectEnd s2 := by
        simp [consume, hne]
      have := (errorAt_flags s2.parser.current msgExpectEnd s2 h2).2
      rw [hseq, hce] at hs
      rw [errorAtCurrent] at hs
      have hs' : (errorAt s2.parser.current msgExpectEnd s2).parser.hadError = false := hs
      rw [this] at hs'
      cases hs'
    have hce : consume .TOKEN_EOF msgExpectEnd s2 = advance s2 := by
      simp [consume, hcur]
    obtain ⟨extra, e1, e2, e3, e4, e5⟩ := advanceLoop_reads toks s2.scanner.tokens
      { s2 with parser := { s2.parser with previous := s2.parser.current } } consumed h1 h2 h3
    have hadv : s = endCompiler (advance s2) := by rw [hseq, hce]
    have hfields : s.parser = (advance s2).parser ∧ s.scanner = (advance s2).scanner := by
      rw [hadv]; exact ⟨rfl, rfl⟩
    refine ⟨by rw [hfields.1, advance_previous]; exact hcur, consumed ++ extra, ?_, ?_, ?_⟩
    · rw [hfields.2]; exact e1
    · apply e3
      rw [← hs, hfields.1]; rfl
    · rw [hfields.2]
      rcases h4 hcur with hnil | ⟨t, ht, hte⟩
      · exact Or.inl (e5 hnil)
      · exact Or.inr ⟨t, List.mem_append_left _ ht, hte⟩

theorem advanceLoop_cons_error (s : State) (e : Token) (l : List Token)
    (he : e.type = .TOKEN_ERROR) :
    advanceLoop s (e :: l)
      = advanceLoop (errorAtCurrent e.lexeme
          { s with
            parser := { s.parser with current := e }
            scanner := { s.scanner with tokens := l } }) l := by
  simp [advanceLoop, scanToken, he]

/-- The loop of `advance` in front of error tokens `errs` and a token `t`: all
of `errs` are raised, at most the first is printed, `t` becomes current. -/
theorem advanceLoop_skips (errs : List Token) (t : Token) (rest : List Token)
    (herrs : ∀ e ∈ errs, e.type = .TOKEN_ERROR) (ht : t.type ≠ .TOKEN_ERROR) :
    ∀ s : State,
      (advanceLoop s (errs ++ t :: rest)).parser.current = t
      ∧ (advanceLoop s (errs ++ t :: rest)).scanner.tokens = rest
      ∧ (advanceLoop s (errs ++ t :: rest)).raised = s.raised ++ errs.map scannerReport
      ∧ (advanceLoop s (errs ++ t :: rest)).stderr
        = s.stderr ++ (if s.parser.panicMode then [] else (errs.take 1).map scannerReport) := by
  induction errs with
  | nil =>
    intro s
    simp [advanceLoop, scanToken, ht]
  | cons e errs ih =>
    intro s
    have he : e.type = .TOKEN_ERROR := herrs e (by simp)
    have ih' := ih (fun x hx => herrs x (by simp [hx]))
    rw [List.cons_append, advanceLoop_cons_error s e _ he]
    obtain ⟨i1, i2, i3, i4⟩ := ih' (errorAtCurrent e.lexeme
      { s with
        parser := { s.parser with current := e }
        scanner := { s.scanner with tokens := errs ++ t :: rest } })
    refine ⟨i1, i2, ?_, ?_⟩
    · rw [i3, errorAtCurrent, errorAt_raised]
      simp [reportOf, he, scannerReport]
    · rw [i4]
      cases hp : s.parser.panicMode <;>
        simp [errorAtCurrent, errorAt, hp, reportOf, he, scannerReport]

/-! ## The logs do not steer the run -/

theorem errorAt_relog (e r : List Report) (tok : Token) (msg : List Char) (s : State) :
    errorAt tok msg (relog e r s) = relog e r (errorAt tok msg s) := by
  unfold errorAt relog
  dsimp only
  split_ifs <;> simp

theorem advanceLoop_relog (e r : List Report) (toks : List Token) :
    ∀ s, advanceLoop (relog e r s) toks = relog e r (advanceLoop s toks) := by
  induction toks with
  | nil => intro s; rfl
  | cons t rest ih =>
    intro s
    unfold advanceLoop
    dsimp only
    split_ifs
    · rfl
    · rw [← ih]
      unfold errorAtCurrent
      rw [← errorAt_relog]
      rfl

theorem advance_relog (e r : List Report) (s : State) :
    advance (relog e r s) = relog e r (advance s) := by
  unfold advance
  exact advanceLoop_relog e r s.scanner.tokens
    { s with parser := { s.parser with previous := s.parser.current } }

theorem consume_relog (e r : List Report) (ty : TokenType) (msg : List Char) (s : State) :
    consume ty msg (relog e r s) = relog e r (consume ty msg s) := by
  unfold consume
  have hc : (relog e r s).parser.current = s.parser.current := rfl
  rw [hc]
  split_ifs
  · exact advance_relog e r s
  · exact errorAt_relog e r _ _ s

theorem emitByte_relog (e r : List Report) (b : Byte) (s : State) :
    emitByte b (relog e r s) = relog e r (emitByte b s) := rfl

theorem emitConstant_relog (e r : List Report) (v : Value) (s : State) :
    emitConstant v (relog e r s) = relog e r (emitConstant v s) := by
  unfold emitConstant
  dsimp only
  have hc : (relog e r s).compilingChunk = s.compilingChunk := rfl
  have hp : (relog e r s).parser = s.parser := rfl
  rw [hc, hp]
  split_ifs
  · unfold error
    rw [← errorAt_relog]
    rfl
  · rfl

theorem literal_relog (e r : List Report) (s : State) :
    literal (relog e r s) = relog e r (literal s) := by
  unfold literal
  have hp : (relog e r s).parser = s.parser := rfl
  rw [hp]
  split <;> rfl

theorem callParseFn_relog (e r : List Report) (pp : Nat → State → Except Fault State)
    (hpp : ∀ prec s, pp prec (relog e r s) = (pp prec s).map (relog e r))
    (fn : ParseFn) (s : State) :
    callParseFn pp fn (relog e r s) = (callParseFn pp fn s).map (relog e r) := by
  have hp : (relog e r s).parser = s.parser := rfl
  cases fn with
  | grouping =>
    simp only [callParseFn, grouping, expression, bind, Except.bind, hpp]
    cases pp PREC_ASSIGNMENT s with
    | error f => rfl
    | ok s1 => simp [Except.map, pure, Except.pure, consume_relog]
  | unary =>
    simp only [callParseFn, unary, bind, Except.bind, hpp, hp]
    cases pp PREC_UNARY s with
    | error f => rfl
    | ok s1 =>
      simp only [Except.map]
      split <;> rfl
  | binary =>
    simp only [callParseFn, binary, bind, Except.bind, hpp, hp]
    cases pp ((getRule s.parser.previous.type).precedence + 1) s with
    | error f => rfl
    | ok s1 =>
      simp only [Except.map]
      split <;> rfl
  | number =>
    simp only [callParseFn, number, pure, Except.pure, Except.map, hp, emitConstant_relog]
  | string =>
    simp only [callParseFn, string, pure, Except.pure, Except.map, hp, emitConstant_relog]
  | literal => simp only [callParseFn, pure, Except.pure, Except.map, literal_relog]

theorem infixLoop_relog (e r : List Report) (pp : Nat → State → Except Fault State)
    (hpp : ∀ prec s, pp prec (relog e r s) = (pp prec s).map (relog e r)) (prec : Nat) :
    ∀ n s, infixLoop pp n prec (relog e r s) = (infixLoop pp n prec s).map (relog e r) := by
  intro n
  induction n with
  | zero => intro s; rfl
  | succ n ih =>
    intro s
    unfold infixLoop
    have hp : (relog e r s).parser = s.parser := rfl
    rw [hp, advance_relog]
    split_ifs with hc
    · dsimp only
      have hp2 : (relog e r (advance s)).parser = (advance s).parser := rfl
      rw [hp2]
      cases (getRule (advance s).parser.previous.type).infixFn with
      | none => rfl
      | some fn =>
        dsimp only
        rw [callParseFn_relog e r pp hpp]
        cases callParseFn pp fn (advance s) with
        | error f => rfl
        | ok s2 => exact ih s2
    · rfl

theorem parsePrecedence_relog (e r : List Report) :
    ∀ n prec s,
      parsePrecedence n prec (relog e r s) = (parsePrecedence n prec s).map (relog e r) := by
  intro n
  induction n with
  | zero => intro prec s; rfl
  | succ n ih =>
    intro prec s
    unfold parsePrecedence
    dsimp only
    rw [advance_relog]
    have hp2 : (relog e r (advance s)).parser = (advance s).parser := rfl
    rw [hp2]
    cases (getRule (advance s).parser.previous.type).prefixFn with
    | none =>
      dsimp only
      unfold error
      rw [hp2, errorAt_relog]
      rfl
    | some fn =>
      dsimp only
      rw [callParseFn_relog e r _ (ih)]
      cases callParseFn (parsePrecedence n) fn (advance s) with
      | error f => rfl
      | ok s2 => exact infixLoop_relog e r _ ih prec n s2

/-- Every run is the run from idle globals, with the old logs put in front. -/
theorem compile_relog (g : State) (source : Scanner) (chunk : Chunk) :
    compile g source chunk
      = (compile idle source chunk).map (fun x => (x.1, relog g.stderr g.raised x.2)) := by
  have hstart : start g source chunk = relog g.stderr g.raised (start idle source chunk) := by
    simp [start, relog, idle]
  rw [compile_eq, compile_eq, hstart, advance_relog, parsePrecedence_relog]
  cases parsePrecedence (source.tokens.length + 1) PREC_ASSIGNMENT
      (advance (start idle source chunk)) with
  | error f => rfl
  | ok s2 =>
    simp only [Except.map, consume_relog]
    rfl

/-! ## Further facts about the error flags and about bytes -/

theorem hadError_stable : Stable (fun s => s.parser.hadError = true) := by
  apply stable_ofTokens
  · intro s tok msg h
    unfold errorAt
    dsimp only
    split_ifs
    · exact h
    · rfl
  · intro s p c sc h; exact h
  · intro s ch h; exact h

theorem panicMode_stable (e : List Report) :
    Stable (fun s => s.parser.panicMode = true ∧ s.stderr = e) := by
  apply stable_ofTokens
  · intro s tok msg h
    unfold errorAt
    dsimp only
    rw [if_pos h.1]
    exact h
  · intro s p c sc h; exact h
  · intro s ch h; exact h

theorem compile_stderr_cases (g : State) (source : Scanner) (chunk : Chunk) (b : Bool)
    (s : State) (h : compile g source chunk = .ok (b, s)) :
    s.stderr = g.stderr ∨ ∃ r, s.stderr = g.stderr ++ [r] := by
  have hinv := errInv_compile g source chunk b s h
  cases hh : s.parser.hadError with
  | false => exact Or.inl (hinv.2.1 hh).2
  | true =>
    obtain ⟨r, _, _, e⟩ := hinv.2.2 hh
    exact Or.inr ⟨r, e⟩

theorem shift_or_byte (a b : Nat) (hb : b < 256) : (a <<< 8) ||| b = a * 256 + b := by
  rw [Nat.shiftLeft_eq, Nat.mul_comm a (2 ^ 8)]
  exact (Nat.mul_add_lt_is_or (i := 8) (by simpa using hb) a).symm

theorem writeConstant_room (ch : Chunk) (v : Value) (line : Nat)
    (h : ch.aryValConstants.length < UINT24_COUNT) :
    (writeConstant ch v line).1 = true
      ∧ (writeConstant ch v line).2.aryValConstants = ch.aryValConstants ++ [v] := by
  unfold writeConstant
  dsimp only
  split_ifs <;> simp [writeChunk]

theorem emitConstant_room (v : Value) (s : State)
    (h : s.compilingChunk.aryValConstants.length < UINT24_COUNT) :
    emitConstant v s
      = { s with compilingChunk := (writeConstant s.compilingChunk v s.parser.previous.line).2 } := by
  unfold emitConstant
  simp [(writeConstant_room s.compilingChunk v s.parser.previous.line h).1]

/-! ## The disassembler -/

theorem ofByte_toByte (op : OpCode) : OpCode.ofByte op.toByte = some op := by
  cases op <;> rfl

theorem shift_or_jump (b1 b2 : Byte) :
    ((b1.val <<< 8) % 2 ^ 16 ||| b2.val) = b1.val * 256 + b2.val := by
  have l1 := b1.isLt
  have e1 : (b1.val <<< 8) % 2 ^ 16 = b1.val <<< 8 := by
    rw [Nat.shiftLeft_eq]
    exact Nat.mod_eq_of_lt (by omega)
  rw [e1]
  exact shift_or_byte b1.val b2.val b2.isLt

theorem jumpInstruction_eq (name : String) (sign : Int) (chunk : Chunk) (offset : Nat)
    (b1 b2 : Byte) (h1 : chunk.aryB[offset + 1]? = some b1)
    (h2 : chunk.aryB[offset + 2]? = some b2) :
    jumpInstruction name sign chunk offset
      = some (offset + 3,
          [.jump name offset (offset + 3 + sign * ((b1.val * 256 + b2.val : Nat) : Int))]) := by
  simp only [jumpInstruction, h1, h2, Option.bind_eq_bind, Option.some_bind, shift_or_jump,
    Option.pure_def]

theorem disassembleInstruction_eq (chunk : Chunk) (offset : Nat) (b : Byte)
    (h : chunk.aryB[offset]? = some b) :
    disassembleInstruction chunk offset
      = (disassembleSwitch chunk offset b).map (fun r => (r.1, leadOf chunk offset :: r.2)) := by
  simp only [disassembleInstruction, h, Option.bind_eq_bind, Option.some_bind, Option.pure_def]
  cases disassembleSwitch chunk offset b <;> rfl

theorem getConstant_next (chunk : Chunk) (isLong : Bool) (offset constant next : Nat)
    (h : getConstant chunk isLong offset = some (constant, next)) :
    next = offset + (if isLong then 3 else 1) := by
  unfold getConstant at h
  cases isLong with
  | true =>
    simp only [if_true, Option.bind_eq_bind, Option.pure_def] at h
    cases hr : readU24 chunk offset with
    | none => rw [hr] at h; cases h
    | some v =>
      rw [hr] at h
      simp at h
      simp [h.2]
  | false =>
    simp only [Bool.false_eq_true, if_false, Option.bind_eq_bind, Option.pure_def] at h
    cases hr : chunk.aryB[offset]? with
    | none => rw [hr] at h; cases h
    | some v =>
      rw [hr] at h
      simp at h
      simp [h.2]

theorem constantInstruction_next (name : String) (chunk : Chunk) (offset : Nat) (isLong : Bool)
    (next : Nat) (out : List Printed)
    (h : constantInstruction name chunk offset isLong = some (next, out)) :
    next = offset + 1 + (if isLong then 3 else 1) := by
  unfold constantInstruction at h
  simp only [Option.bind_eq_bind, Option.pure_def] at h
  cases hg : getConstant chunk isLong (offset + 1) with
  | none => rw [hg] at h; cases h
  | some r =>
    obtain ⟨c, n⟩ := r
    rw [hg] at h
    simp only [Option.some_bind] at h
    cases hv : chunk.aryValConstants[c]? with
    | none => rw [hv] at h; cases h
    | some v =>
      rw [hv] at h
      simp at h
      rw [← h.1]
      exact getConstant_next chunk isLong _ c n hg

theorem invokeInstruction_next (name : String) (chunk : Chunk) (offset : Nat) (isLong : Bool)
    (next : Nat) (out : List Printed)
    (h : invokeInstruction name chunk offset isLong = some (next, out)) :
    next = offset + 1 + (if isLong then 3 else 1) + 1 := by
  unfold invokeInstruction at h
  simp only [Option.bind_eq_bind, Option.pure_def] at h
  cases hg : getConstant chunk isLong (offset + 1) with
  | none => rw [hg] at h; cases h
  | some r =>
    obtain ⟨c, n⟩ := r
    rw [hg] at h
    simp only [Option.some_bind] at h
    cases ha : chunk.aryB[n]? with
    | none => rw [ha] at h; cases h
    | some a =>
      rw [ha] at h
      simp only [Option.some_bind] at h
      cases hv : chunk.aryValConstants[c]? with
      | none => rw [hv] at h; cases h
      | some v =>
        rw [hv] at h
        simp at h
        rw [← h.1, getConstant_next chunk isLong _ c n hg]

theorem immediateInstruction_next (name : String) (chunk : Chunk) (offset : Nat)
    (isLong : Bool) (next : Nat) (out : List Printed)
    (h : immediateInstruction name chunk offset isLong = some (next, out)) :
    next = offset + 1 + (if isLong then 3 else 1) := by
  unfold immediateInstruction at h
  cases isLong with
  | true =>
    simp only [if_true, Option.bind_eq_bind, Option.pure_def] at h
    cases hs : readU24 chunk (offset + 1) with
    | none => rw [hs] at h; cases h
    | some v =>
      rw [hs] at h
      simp at h
      simp [← h.1]
  | false =>
    simp only [Bool.false_eq_true, if_false, Option.bind_eq_bind, Option.pure_def] at h
    cases hs : chunk.aryB[offset + 1]? with
    | none => rw [hs] at h; cases h
    | some v =>
      rw [hs] at h
      simp at h
      simp [← h.1]

theorem closureLoop_next (chunk : Chunk) (count : Nat) :
    ∀ (offset next : Nat) (out : List Printed),
      closureLoop chunk count offset = some (next, out) →
      next = offset + 2 * count ∧ out.length = count := by
  induction count with
  | zero =>
    intro offset next out h
    simp [closureLoop] at h
    simp [← h.1, ← h.2]
  | succ count ih =>
    intro offset next out h
    simp only [closureLoop, Option.bind_eq_bind, Option.pure_def] at h
    cases h0 : chunk.aryB[offset]? with
    | none => rw [h0] at h; cases h
    | some b0 =>
      rw [h0] at h
      simp only [Option.some_bind] at h
      cases h1 : chunk.aryB[offset + 1]? with
      | none => rw [h1] at h; cases h
      | some b1 =>
        rw [h1] at h
        simp only [Option.some_bind] at h
        cases hr : closureLoop chunk count (offset + 1 + 1) with
        | none => rw [hr] at h; cases h
        | some r =>
          obtain ⟨n, o⟩ := r
          rw [hr] at h
          simp at h
          obtain ⟨e1, e2⟩ := ih _ _ _ hr
          refine ⟨by omega, ?_⟩
          rw [← h.2]
          simp [e2]

theorem closureInstruction_next (name : String) (chunk : Chunk) (offset : Nat) (isLong : Bool)
    (next : Nat) (out : List Printed)
    (h : closureInstruction name chunk offset isLong = some (next, out)) :
    next = offset + 1 + (if isLong then 3 else 1) + 2 * upvalueCountAt chunk offset isLong
      ∧ out.length = 1 + upvalueCountAt chunk offset isLong := by
  unfold closureInstruction at h
  unfold upvalueCountAt
  simp only [Option.bind_eq_bind, Option.pure_def] at h
  cases hg : getConstant chunk isLong (offset + 1) with
  | none => rw [hg] at h; cases h
  | some r =>
    obtain ⟨c, n⟩ := r
    rw [hg] at h
    simp only [Option.some_bind] at h
    cases hv : chunk.aryValConstants[c]? with
    | none => rw [hv] at h; cases h
    | some v =>
      rw [hv] at h
      simp only [Option.some_bind] at h
      cases v with
      | OBJ_FUNCTION_VAL f =>
        simp only [AS_FUNCTION, Option.some_bind] at h
        cases hl : closureLoop chunk f.upvalueCount n with
        | none => rw [hl] at h; cases h
        | some r2 =>
          obtain ⟨n2, o2⟩ := r2
          rw [hl] at h
          simp at h
          obtain ⟨e1, e2⟩ := closureLoop_next chunk _ _ _ _ hl
          have e3 := getConstant_next chunk isLong _ c n hg
          simp only [hv]
          refine ⟨by omega, ?_⟩
          rw [← h.2]
          simp [e2]
          omega
      | NIL_VAL => simp [AS_FUNCTION] at h
      | BOOL_VAL b => simp [AS_FUNCTION] at h
      | NUMBER_VAL d => simp [AS_FUNCTION] at h
      | OBJ_VAL o => simp [AS_FUNCTION] at h

/-! ## The chunk only grows -/

theorem writeConstant_aryB (ch : Chunk) (v : Value) (line : Nat) :
    (writeConstant ch v line).2.aryB = ch.aryB ++ loadCode ch.aryValConstants.length := by
  unfold writeConstant loadCode
  dsimp only
  split_ifs <;> simp [writeChunk]

theorem aryB_prefix_stable (base : List Byte) :
    Stable (fun s => base <+: s.compilingChunk.aryB) where
  errorAt := by
    intro s tok msg h
    rw [(errorAt_parser_tokens tok msg s).2.2.2]
    exact h
  advance := by
    intro s h
    rw [advance_chunk]
    exact h
  chunk := by
    intro s b l h
    exact h.trans (List.prefix_append _ _)
  constant := by
    intro s v l h
    show base <+: (writeConstant s.compilingChunk v l).2.aryB
    rw [writeConstant_aryB]
    exact h.trans (List.prefix_append _ _)

theorem emitOps_aryB (ops : List OpCode) :
    ∀ s : State, (emitOps ops s).compilingChunk.aryB
      = s.compilingChunk.aryB ++ ops.map OpCode.toByte := by
  induction ops with
  | nil => intro s; simp [emitOps]
  | cons op ops ih =>
    intro s
    have e : emitOps (op :: ops) s = emitOps ops (emitByte op.toByte s) := rfl
    rw [e, ih]
    simp [emitByte, writeChunk]

theorem emitOps_constants (ops : List OpCode) :
    ∀ s : State, (emitOps ops s).compilingChunk.aryValConstants
      = s.compilingChunk.aryValConstants := by
  induction ops with
  | nil => intro s; rfl
  | cons op ops ih =>
    intro s
    have e : emitOps (op :: ops) s = emitOps ops (emitByte op.toByte s) := rfl
    rw [e, ih]
    rfl

theorem advance_previous_irrelevant (s : State) (t : Token) :
    advance { s with parser := { s.parser with previous := t } } = advance s := rfl

theorem parsePrecedence_previous_irrelevant (n prec : Nat) (s : State) (t : Token) :
    parsePrecedence n prec { s with parser := { s.parser with previous := t } }
      = parsePrecedence n prec s := by
  cases n with
  | zero => rfl
  | succ n => simp only [parsePrecedence, advance_previous_irrelevant]

theorem writeConstant_constants (ch : Chunk) (v : Value) (line : Nat) :
    (writeConstant ch v line).2.aryValConstants
      = ch.aryValConstants ++ (if ch.aryValConstants.length < UINT24_COUNT then [v] else []) := by
  have h8 : UINT8_COUNT ≤ UINT24_COUNT := by decide
  unfold writeConstant
  dsimp only
  split_ifs <;> first | omega | simp [writeChunk]

theorem constants_prefix_stable (base : List Value) :
    Stable (fun s => base <+: s.compilingChunk.aryValConstants) where
  errorAt := by
    intro s tok msg h
    rw [(errorAt_parser_tokens tok msg s).2.2.2]
    exact h
  advance := by
    intro s h
    rw [advance_chunk]
    exact h
  chunk := by
    intro s b l h
    exact h
  constant := by
    intro s v l h
    show base <+: (writeConstant s.compilingChunk v l).2.aryValConstants
    rw [writeConstant_constants]
    exact h.trans (List.prefix_append _ _)

theorem compile_ok_or_nullCall (g : State) (source : Scanner) (chunk : Chunk) :
    compile g source chunk = .error .nullCall
      ∨ ∃ s2, parsePrecedence (source.tokens.length + 1) PREC_ASSIGNMENT
            (advance (start g source chunk)) = .ok s2
          ∧ compile g source chunk
            = .ok (!(endCompiler (consume .TOKEN_EOF msgExpectEnd s2)).parser.hadError,
                endCompiler (consume .TOKEN_EOF msgExpectEnd s2)) := by
  have hne := compile_ne_outOfFuel g source chunk
  rw [compile_eq] at hne ⊢
  cases hr : parsePrecedence (source.tokens.length + 1) PREC_ASSIGNMENT
      (advance (start g source chunk)) with
  | error f =>
    rw [hr] at hne
    cases f with
    | nullCall => exact Or.inl rfl
    | outOfFuel => exact absurd rfl hne
  | ok s2 => exact Or.inr ⟨s2, rfl, rfl⟩

/-! ## More fuel changes nothing -/

theorem callParseFn_more_fuel (pp pp2 : Nat → State → Except Fault State)
    (hpp : ∀ prec s, pp prec s ≠ .error .outOfFuel → pp2 prec s = pp prec s)
    (fn : ParseFn) (s : State) (h : callParseFn pp fn s ≠ .error .outOfFuel) :
    callParseFn pp2 fn s = callParseFn pp fn s := by
  cases fn with
  | grouping =>
    simp only [callParseFn, grouping, expression, bind, Except.bind] at h ⊢
    cases hr : pp PREC_ASSIGNMENT s with
    | error f =>
      rw [hr] at h
      rw [hpp _ _ (by rw [hr]; exact h), hr]
    | ok s1 => rw [hpp _ _ (by rw [hr]; simp), hr]
  | unary =>
    simp only [callParseFn, unary, bind, Except.bind] at h ⊢
    cases hr : pp PREC_UNARY s with
    | error f =>
      rw [hr] at h
      rw [hpp _ _ (by rw [hr]; exact h), hr]
    | ok s1 => rw [hpp _ _ (by rw [hr]; simp), hr]
  | binary =>
    simp only [callParseFn, binary, bind, Except.bind] at h ⊢
    cases hr : pp ((getRule s.parser.previous.type).precedence + 1) s with
    | error f =>
      rw [hr] at h
      rw [hpp _ _ (by rw [hr]; exact h), hr]
    | ok s1 => rw [hpp _ _ (by rw [hr]; simp), hr]
  | number => rfl
  | string => rfl
  | literal => rfl

theorem infixLoop_more_fuel (pp pp2 : Nat → State → Except Fault State)
    (hpp : ∀ prec s, pp prec s ≠ .error .outOfFuel → pp2 prec s = pp prec s) (prec : Nat) :
    ∀ (n m : Nat), n ≤ m → ∀ s, infixLoop pp n prec s ≠ .error .outOfFuel →
      infixLoop pp2 m prec s = infixLoop pp n prec s := by
  intro n
  induction n with
  | zero => intro m _ s h; exact absurd rfl h
  | succ n ih =>
    intro m hm s h
    obtain ⟨m, rfl⟩ : ∃ k, m = k + 1 := ⟨m - 1, by omega⟩
    unfold infixLoop at h ⊢
    dsimp only at h ⊢
    split_ifs at h ⊢ with hc
    · cases hi : (getRule (advance s).parser.previous.type).infixFn with
      | none => rfl
      | some fn =>
        rw [hi] at h
        dsimp only at h ⊢
        cases hr : callParseFn pp fn (advance s) with
        | error f =>
          rw [hr] at h
          dsimp only at h
          rw [callParseFn_more_fuel pp pp2 hpp fn _ (by rw [hr]; exact h), hr]
        | ok s2 =>
          rw [hr] at h
          dsimp only at h
          rw [callParseFn_more_fuel pp pp2 hpp fn _ (by rw [hr]; simp), hr]
          exact ih m (by omega) s2 h
    · rfl

theorem parsePrecedence_succ_fuel (n : Nat) :
    ∀ prec s, parsePrecedence n prec s ≠ .error .outOfFuel →
      parsePrecedence (n + 1) prec s = parsePrecedence n prec s := by
  induction n with
  | zero => intro prec s h; exact absurd rfl h
  | succ n ih =>
    intro prec s h
    rw [parsePrecedence] at h
    rw [parsePrecedence, parsePrecedence]
    cases hp : (getRule (advance s).parser.previous.type).prefixFn with
    | none => rfl
    | some fn =>
      rw [hp] at h
      dsimp only at h ⊢
      cases hr : callParseFn (parsePrecedence n) fn (advance s) with
      | error f =>
        rw [hr] at h
        dsimp only at h
        rw [callParseFn_more_fuel _ _ ih fn _ (by rw [hr]; exact h), hr]
      | ok s2 =>
        rw [hr] at h
        dsimp only at h
        rw [callParseFn_more_fuel _ _ ih fn _ (by rw [hr]; simp), hr]
        exact infixLoop_more_fuel _ _ ih prec n (n + 1) (by omega) s2 h

theorem parsePrecedence_more_fuel (n m : Nat) (hnm : n ≤ m) (prec : Nat) (s : State)
    (h : parsePrecedence n prec s ≠ .error .outOfFuel) :
    parsePrecedence m prec s = parsePrecedence n prec s := by
  induction m with
  | zero =>
    have : n = 0 := by omega
    subst this; rfl
  | succ m ih =>
    rcases Nat.eq_or_lt_of_le hnm with e | hlt
    · rw [e]
    · have hm := ih (by omega)
      rw [← hm] at h ⊢
      exact parsePrecedence_succ_fuel m prec s h

theorem parsePrecedence_ne_outOfFuel (n prec : Nat) (s : State) (h : remaining s < n) :
    parsePrecedence n prec s ≠ .error .outOfFuel := by
  have hb := parsePrecedence_fuel n prec s h
  intro e
  rw [e] at hb
  cases hb

theorem parsePrecedence_remaining (n prec : Nat) (s s2 : State)
    (h : parsePrecedence n prec s = .ok s2) : remaining s2 ≤ remaining s := by
  have hm := parsePrecedence_more_fuel n (max n (remaining s + 1)) (le_max_left _ _) prec s
    (by rw [h]; simp)
  have hb := parsePrecedence_fuel (max n (remaining s + 1)) prec s
    (lt_of_lt_of_le (Nat.lt_succ_self _) (le_max_right _ _))
  rw [hm, h] at hb
  exact hb

theorem remaining_advance_lt (s : State) (h : s.parser.current.type ≠ .TOKEN_EOF) :
    remaining (advance s) < remaining s := by
  have := remaining_advance s
  rw [remaining_of_ne_eof h]
  omega

theorem advanceLoop_only_errors (errs : List Token)
    (herrs : ∀ e ∈ errs, e.type = .TOKEN_ERROR) :
    ∀ s : State, (advanceLoop s errs).parser.current = eofToken s.scanner.eofLine
      ∧ (advanceLoop s errs).scanner.tokens = [] := by
  induction errs with
  | nil => intro s; simp [advanceLoop, scanToken]
  | cons e errs ih =>
    intro s
    have he : e.type = .TOKEN_ERROR := herrs e (by simp)
    rw [advanceLoop_cons_error s e _ he]
    have h := ih (fun x hx => herrs x (by simp [hx])) (errorAtCurrent e.lexeme
      { s with
        parser := { s.parser with current := e }
        scanner := { s.scanner with tokens := errs } })
    rw [errorAtCurrent, (errorAt_parser_tokens _ _ _).2.2.1] at h
    exact h

/-! ## The stack accounting of the emitted code -/

theorem flags_stable : Stable (fun s => s.parser.panicMode = s.parser.hadError) := by
  apply stable_ofTokens
  · intro s tok msg h
    obtain ⟨a, b⟩ := errorAt_flags tok msg s h
    rw [a, b]
  · intro s p c sc h; exact h
  · intro s ch h; exact h

theorem stackRun_append (state : Nat × Nat) (c1 c2 : List Byte) :
    stackRun state (c1 ++ c2) = (stackRun state c1).bind (fun st2 => stackRun st2 c2) := by
  unfold stackRun
  rw [List.foldlM_append]
  rfl

theorem stackRun_prefix (state : Nat × Nat) (p code : List Byte) (hp : p <+: code)
    (h : (stackRun state code).isSome) : (stackRun state p).isSome := by
  obtain ⟨q, rfl⟩ := hp
  rw [stackRun_append] at h
  cases hs : stackRun state p with
  | none => rw [hs] at h; simp at h
  | some x => rfl

theorem stackRun_loadCode (n d : Nat) (h : n < UINT24_COUNT) :
    stackRun (0, d) (loadCode n) = some (0, d + 1) := by
  unfold loadCode
  split_ifs
  · simp [stackRun, stackStep, ofByte_toByte, List.foldlM]
  · simp [stackRun, stackStep, ofByte_toByte, List.foldlM]

theorem stackRun_unaryCode (t : TokenType) (d : Nat) (h : isUnaryOp t = true) :
    stackRun (0, d + 1) ((unaryCode t).map OpCode.toByte) = some (0, d + 1) := by
  cases t <;> simp [isUnaryOp] at h <;>
    simp [unaryCode, stackRun, stackStep, ofByte_toByte, List.foldlM]

theorem stackRun_binaryCode (t : TokenType) (d : Nat) (h : isBinaryOp t = true) (hd : 1 ≤ d) :
    stackRun (0, d + 1) ((binaryCode t).map OpCode.toByte) = some (0, d) := by
  cases t <;> simp [isBinaryOp] at h <;>
    simp [binaryCode, stackRun, stackStep, ofByte_toByte, List.foldlM, hd]

theorem emitOps_keeps_flags (ops : List OpCode) :
    ∀ s : State, (emitOps ops s).parser = s.parser := by
  induction ops with
  | nil => intro s; rfl
  | cons op ops ih =>
    intro s
    have e : emitOps (op :: ops) s = emitOps ops (emitByte op.toByte s) := rfl
    rw [e, ih]
    rfl

theorem writeConstant_full (ch : Chunk) (v : Value) (line : Nat)
    (h : ¬ ch.aryValConstants.length < UINT24_COUNT) : (writeConstant ch v line).1 = false := by
  have h8 : UINT8_COUNT ≤ UINT24_COUNT := by decide
  unfold writeConstant
  dsimp only
  split_ifs <;> first | omega | rfl

theorem emitConstant_no_error (v : Value) (s : State)
    (hflags : s.parser.panicMode = s.parser.hadError)
    (h : (emitConstant v s).parser.hadError = false) :
    s.compilingChunk.aryValConstants.length < UINT24_COUNT := by
  by_contra hroom
  have hf := writeConstant_full s.compilingChunk v s.parser.previous.line hroom
  have e : emitConstant v s = error msgTooManyConstants
      { s with compilingChunk := (writeConstant s.compilingChunk v s.parser.previous.line).2 } := by
    unfold emitConstant
    simp [hf]
  rw [e, error] at h
  have hf2 := (errorAt_flags
    ({ s with compilingChunk := (writeConstant s.compilingChunk v s.parser.previous.line).2 }
      : State).parser.previous msgTooManyConstants
    { s with compilingChunk := (writeConstant s.compilingChunk v s.parser.previous.line).2 }
    hflags).2
  rw [hf2] at h
  cases h

theorem emitConstant_pushes (v : Value) (s : State)
    (hflags : s.parser.panicMode = s.parser.hadError)
    (h : (emitConstant v s).parser.hadError = false) :
    ∃ code, (emitConstant v s).compilingChunk.aryB = s.compilingChunk.aryB ++ code
      ∧ ∀ d, stackRun (0, d) code = some (0, d + 1) := by
  have hroom := emitConstant_no_error v s hflags h
  refine ⟨loadCode s.compilingChunk.aryValConstants.length, ?_,
    fun d => stackRun_loadCode _ d hroom⟩
  rw [emitConstant_room v s hroom]
  exact writeConstant_aryB _ _ _

theorem prefixFn_cases {t : TokenType} {fn : ParseFn} (h : (getRule t).prefixFn = some fn) :
    (fn = .grouping ∧ t = .TOKEN_LEFT_PAREN) ∨ (fn = .unary ∧ isUnaryOp t = true)
      ∨ (fn = .number ∧ t = .TOKEN_NUMBER) ∨ (fn = .string ∧ t = .TOKEN_STRING)
      ∨ (fn = .literal ∧ (t = .TOKEN_FALSE ∨ t = .TOKEN_NIL ∨ t = .TOKEN_TRUE)) := by
  cases t <;> simp [getRule, rules] at h <;> subst h <;> simp [isUnaryOp]

theorem infixFn_cases {t : TokenType} {fn : ParseFn} (h : (getRule t).infixFn = some fn) :
    fn = .binary ∧ isBinaryOp t = true := by
  cases t <;> simp [getRule, rules] at h <;> subst h <;> simp [isBinaryOp]

theorem hadError_of_keeps {r : Except Fault State} {s2 : State}
    (hk : Keeps (fun s => s.parser.hadError = true) r) (h : r = .ok s2) :
    s2.parser.hadError = true := by
  subst h
  exact hk

theorem prefix_pushes (n : Nat)
    (ih : ∀ prec s s2, s.parser.panicMode = s.parser.hadError →
      parsePrecedence n prec s = .ok s2 → s2.parser.hadError = false →
      ∃ code, s2.compilingChunk.aryB = s.compilingChunk.aryB ++ code
        ∧ ∀ d, stackRun (0, d) code = some (0, d + 1))
    (fn : ParseFn) (s s2 : State) (hfn : (getRule s.parser.previous.type).prefixFn = some fn)
    (hflags : s.parser.panicMode = s.parser.hadError)
    (h : callParseFn (parsePrecedence n) fn s = .ok s2) (herr : s2.parser.hadError = false) :
    ∃ code, s2.compilingChunk.aryB = s.compilingChunk.aryB ++ code
      ∧ ∀ d, stackRun (0, d) code = some (0, d + 1) := by
  rcases prefixFn_cases hfn with ⟨rfl, _⟩ | ⟨rfl, hu⟩ | ⟨rfl, _⟩ | ⟨rfl, _⟩ | ⟨rfl, ht⟩
  · simp only [callParseFn, grouping, expression, bind, Except.bind] at h
    cases hr : parsePrecedence n PREC_ASSIGNMENT s with
    | error f => rw [hr] at h; cases h
    | ok s1 =>
      rw [hr] at h
      simp only [pure, Except.pure, Except.ok.injEq] at h
      subst h
      have h1 : s1.parser.hadError = false := by
        by_contra hc
        have := stable_consume hadError_stable .TOKEN_RIGHT_PAREN msgExpectParen s1
          (by simpa using hc)
        rw [herr] at this
        cases this
      obtain ⟨code, e, hc⟩ := ih _ _ _ hflags hr h1
      exact ⟨code, by rw [consume_chunk, e], hc⟩
  · rw [callParseFn, unary_eq _ _ hu] at h
    cases hr : parsePrecedence n PREC_UNARY s with
    | error f => rw [hr] at h; cases h
    | ok s1 =>
      rw [hr] at h
      simp only [Except.ok.injEq] at h
      subst h
      rw [emitOps_keeps_flags] at herr
      obtain ⟨code, e, hc⟩ := ih _ _ _ hflags hr herr
      refine ⟨code ++ (unaryCode s.parser.previous.type).map OpCode.toByte, ?_, ?_⟩
      · rw [emitOps_aryB, e, List.append_assoc]
      · intro d
        rw [stackRun_append, hc d]
        exact stackRun_unaryCode _ d hu
  · simp only [callParseFn, pure, Except.pure, Except.ok.injEq] at h
    subst h
    exact emitConstant_pushes _ s hflags herr
  · simp only [callParseFn, pure, Except.pure, Except.ok.injEq] at h
    subst h
    exact emitConstant_pushes _ s hflags herr
  · simp only [callParseFn, pure, Except.pure, Except.ok.injEq] at h
    subst h
    rcases ht with ht | ht | ht
    · exact ⟨[OpCode.OP_FALSE.toByte], by simp [literal, ht, emitByte, writeChunk],
        fun d => by simp [stackRun, stackStep, ofByte_toByte, List.foldlM]⟩
    · exact ⟨[OpCode.OP_NIL.toByte], by simp [literal, ht, emitByte, writeChunk],
        fun d => by simp [stackRun, stackStep, ofByte_toByte, List.foldlM]⟩
    · exact ⟨[OpCode.OP_TRUE.toByte], by simp [literal, ht, emitByte, writeChunk],
        fun d => by simp [stackRun, stackStep, ofByte_toByte, List.foldlM]⟩

theorem infixLoop_neutral (n : Nat)
    (ih : ∀ prec s s2, s.parser.panicMode = s.parser.hadError →
      parsePrecedence n prec s = .ok s2 → s2.parser.hadError = false →
      ∃ code, s2.compilingChunk.aryB = s.compilingChunk.aryB ++ code
        ∧ ∀ d, stackRun (0, d) code = some (0, d + 1))
    (prec : Nat) :
    ∀ (m : Nat) (s s2 : State), s.parser.panicMode = s.parser.hadError →
      infixLoop (parsePrecedence n) m prec s = .ok s2 → s2.parser.hadError = false →
      ∃ code, s2.compilingChunk.aryB = s.compilingChunk.aryB ++ code
        ∧ ∀ d, 1 ≤ d → stackRun (0, d) code = some (0, d) := by
  intro m
  induction m with
  | zero => intro s s2 _ h _; cases h
  | succ m ihm =>
    intro s s2 hflags h herr
    unfold infixLoop at h
    dsimp only at h
    split_ifs at h with hc
    · cases hi : (getRule (advance s).parser.previous.type).infixFn with
      | none => rw [hi] at h; cases h
      | some fn =>
        rw [hi] at h
        dsimp only at h
        obtain ⟨rfl, hop⟩ := infixFn_cases hi
        have hfa : (advance s).parser.panicMode = (advance s).parser.hadError :=
          flags_stable.advance s hflags
        cases hr : callParseFn (parsePrecedence n) .binary (advance s) with
        | error f => rw [hr] at h; cases h
        | ok s1 =>
          rw [hr] at h
          dsimp only at h
          have hf1 : s1.parser.panicMode = s1.parser.hadError := by
            have hk := stable_callParseFn flags_stable (parsePrecedence n)
              (fun prec s hs => stable_parsePrecedence flags_stable n prec s hs) .binary
              (advance s) hfa
            rw [hr] at hk
            exact hk
          have he1 : s1.parser.hadError = false := by
            by_contra hcon
            have hk := stable_infixLoop hadError_stable (parsePrecedence n)
              (fun prec s hs => stable_parsePrecedence hadError_stable n prec s hs) m prec s1
              (by simpa using hcon)
            rw [hadError_of_keeps hk h] at herr
            cases herr
          obtain ⟨code2, e2, hc2⟩ := ihm s1 s2 hf1 h herr
          rw [callParseFn, binary_eq _ _ hop] at hr
          cases hx : parsePrecedence n
              (PREC_EQUALITY + ladder (advance s).parser.previous.type + 1) (advance s) with
          | error f => rw [hx] at hr; cases hr
          | ok sx =>
            rw [hx] at hr
            simp only [Except.ok.injEq] at hr
            subst hr
            rw [emitOps_keeps_flags] at he1
            obtain ⟨codeR, eR, hcR⟩ := ih _ _ _ hfa hx he1
            refine ⟨codeR ++ (binaryCode (advance s).parser.previous.type).map OpCode.toByte
              ++ code2, ?_, ?_⟩
            · rw [e2, emitOps_aryB, eR, advance_chunk]
              simp only [List.append_assoc]
            · intro d hd
              rw [stackRun_append, stackRun_append, hcR d]
              simp only [Option.some_bind]
              rw [stackRun_binaryCode _ d hop hd]
              exact hc2 d hd
    · simp only [Except.ok.injEq] at h
      subst h
      exact ⟨[], by simp, fun d _ => rfl⟩

theorem parsePrecedence_pushes (n : Nat) :
    ∀ prec s s2, s.parser.panicMode = s.parser.hadError →
      parsePrecedence n prec s = .ok s2 → s2.parser.hadError = false →
      ∃ code, s2.compilingChunk.aryB = s.compilingChunk.aryB ++ code
        ∧ ∀ d, stackRun (0, d) code = some (0, d + 1) := by
  induction n with
  | zero => intro prec s s2 _ h _; cases h
  | succ n ih =>
    intro prec s s2 hflags h herr
    rw [parsePrecedence] at h
    have hfa : (advance s).parser.panicMode = (advance s).parser.hadError :=
      flags_stable.advance s hflags
    cases hp : (getRule (advance s).parser.previous.type).prefixFn with
    | none =>
      rw [hp] at h
      simp only [Except.ok.injEq] at h
      subst h
      rw [error, (errorAt_flags _ _ _ hfa).2] at herr
      cases herr
    | some fn =>
      rw [hp] at h
      dsimp only at h
      cases hr : callParseFn (parsePrecedence n) fn (advance s) with
      | error f => rw [hr] at h; cases h
      | ok s1 =>
        rw [hr] at h
        dsimp only at h
        have hf1 : s1.parser.panicMode = s1.parser.hadError := by
          have hk := stable_callParseFn flags_stable (parsePrecedence n)
            (fun prec s hs => stable_parsePrecedence flags_stable n prec s hs) fn
            (advance s) hfa
          rw [hr] at hk
          exact hk
        have he1 : s1.parser.hadError = false := by
          by_contra hcon
          have hk := stable_infixLoop hadError_stable (parsePrecedence n)
            (fun prec s hs => stable_parsePrecedence hadError_stable n prec s hs) n prec s1
            (by simpa using hcon)
          rw [hadError_of_keeps hk h] at herr
          cases herr
        obtain ⟨code1, e1, hc1⟩ := prefix_pushes n ih fn (advance s) s1 hp hfa hr he1
        obtain ⟨code2, e2, hc2⟩ := infixLoop_neutral n ih prec n s1 s2 hf1 h herr
        refine ⟨code1 ++ code2, ?_, ?_⟩
        · rw [e2, e1, advance_chunk, List.append_assoc]
        · intro d
          rw [stackRun_append, hc1 d]
          exact hc2 (d + 1) (by omega)

/-! ## Two runs side by side -/

theorem advance_of_nil (s : State) (h : s.scanner.tokens = []) :
    advance s
      = { s with
          parser := { s.parser with previous := s.parser.current
                                    current := eofToken s.scanner.eofLine }
          scanner := ⟨[], s.scanner.eofLine⟩ } := by
  unfold advance
  rw [h]
  rfl

theorem advance_of_cons (s : State) (t : Token) (ts : List Token)
    (h : s.scanner.tokens = t :: ts) (ht : t.type ≠ .TOKEN_ERROR) :
    advance s
      = { s with
          parser := { s.parser with previous := s.parser.current, current := t }
          scanner := ⟨ts, s.scanner.eofLine⟩ } := by
  unfold advance
  rw [h]
  simp [advanceLoop, scanToken, ht]

theorem advanceLoop_hadError (toks : List Token) :
    ∀ s : State, s.parser.hadError = true → (advanceLoop s toks).parser.hadError = true := by
  induction toks with
  | nil => intro s h; exact h
  | cons t rest ih =>
    intro s h
    unfold advanceLoop
    dsimp only
    split_ifs
    · exact h
    · apply ih
      exact hadError_stable.errorAt _ _ _ h

theorem advance_of_error (s : State) (t : Token) (ts : List Token)
    (h : s.scanner.tokens = t :: ts) (ht : t.type = .TOKEN_ERROR)
    (hflags : s.parser.panicMode = s.parser.hadError) :
    (advance s).parser.hadError = true := by
  unfold advance
  rw [h, advanceLoop_cons_error _ _ _ ht]
  apply advanceLoop_hadError
  rw [errorAtCurrent]
  refine (errorAt_flags _ _ _ ?_).2
  exact hflags

theorem closing_rule (closing : Option Token) (l : Nat)
    (hcl : ∀ rp, closing = some rp → rp.type = .TOKEN_RIGHT_PAREN) :
    (getRule (closing.getD (eofToken l)).type).precedence = PREC_NONE
      ∧ (closing.getD (eofToken l)).type ≠ .TOKEN_ERROR := by
  cases closing with
  | none => exact ⟨rfl, by simp [eofToken]⟩
  | some rp =>
    have := hcl rp rfl
    simp only [Option.getD_some, this]
    exact ⟨rfl, by simp⟩

theorem advance_pre (closing : Option Token)
    (hcl : ∀ rp, closing = some rp → rp.type = .TOKEN_RIGHT_PAREN) (a b : State)
    (h : Pre closing a b) (herr : (advance a).parser.hadError = false) :
    InStep closing (advance a) (advance b) := by
  obtain ⟨⟨hc, ha1, ha2, hb1, hb2⟩, hne, htok⟩ := h
  cases hta : a.scanner.tokens with
  | nil =>
    rw [hta] at htok
    rw [advance_of_nil a hta]
    cases closing with
    | none =>
      rw [advance_of_nil b (by simpa using htok)]
      exact ⟨⟨hc, ha1, ha2, hb1, hb2⟩, Or.inr ⟨rfl, rfl, rfl, rfl⟩⟩
    | some rp =>
      have hrp : rp.type ≠ .TOKEN_ERROR := by rw [hcl rp rfl]; decide
      rw [advance_of_cons b rp [] (by simpa using htok) hrp]
      exact ⟨⟨hc, ha1, ha2, hb1, hb2⟩, Or.inr ⟨rfl, rfl, rfl, rfl⟩⟩
  | cons t ts =>
    rw [hta] at htok hne
    by_cases ht : t.type = .TOKEN_ERROR
    · rw [advance_of_error a t ts hta ht (by rw [ha1, ha2])] at herr
      cases herr
    · rw [advance_of_cons a t ts hta ht,
        advance_of_cons b t (ts ++ closing.toList) (by simpa using htok) ht]
      refine ⟨⟨hc, ha1, ha2, hb1, hb2⟩, Or.inl ⟨⟨⟨hc, ha1, ha2, hb1, hb2⟩, ?_, rfl⟩,
        rfl, hne t (by simp)⟩⟩
      intro x hx
      exact hne x (List.mem_cons_of_mem _ hx)

theorem sim_emitByte (closing : Option Token) (a b : State) (byte : Byte)
    (h : Sim closing a b) : Sim closing (emitByte byte a) (emitByte byte b) := by
  obtain ⟨⟨⟨hc, ha1, ha2, hb1, hb2⟩, hm⟩, hp⟩ := h
  have hch : (emitByte byte a).compilingChunk = (emitByte byte b).compilingChunk := by
    simp only [emitByte, hc, hp]
  refine ⟨⟨⟨hch, ha1, ha2, hb1, hb2⟩, ?_⟩, hp⟩
  rcases hm with ⟨⟨_, hne, htok⟩, hcur, hty⟩ | hend
  · exact Or.inl ⟨⟨⟨hch, ha1, ha2, hb1, hb2⟩, hne, htok⟩, hcur, hty⟩
  · exact Or.inr hend

theorem sim_emitOps (closing : Option Token) (ops : List OpCode) :
    ∀ a b : State, Sim closing a b → Sim closing (emitOps ops a) (emitOps ops b) := by
  induction ops with
  | nil => intro a b h; exact h
  | cons op ops ih =>
    intro a b h
    exact ih _ _ (sim_emitByte closing a b op.toByte h)

theorem sim_emitConstant (closing : Option Token) (a b : State) (v : Value)
    (h : Sim closing a b) (herr : (emitConstant v a).parser.hadError = false) :
    Sim closing (emitConstant v a) (emitConstant v b) := by
  obtain ⟨⟨⟨hc, ha1, ha2, hb1, hb2⟩, hm⟩, hp⟩ := h
  have hroom := emitConstant_no_error v a (by rw [ha1, ha2]) herr
  rw [emitConstant_room v a hroom, emitConstant_room v b (by rw [← hc]; exact hroom)]
  have hch : (writeConstant a.compilingChunk v a.parser.previous.line).2
      = (writeConstant b.compilingChunk v b.parser.previous.line).2 := by rw [hc, hp]
  refine ⟨⟨⟨hch, ha1, ha2, hb1, hb2⟩, ?_⟩, hp⟩
  rcases hm with ⟨⟨_, hne, htok⟩, hcur, hty⟩ | hend
  · exact Or.inl ⟨⟨⟨hch, ha1, ha2, hb1, hb2⟩, hne, htok⟩, hcur, hty⟩
  · exact Or.inr hend

theorem sim_advance (closing : Option Token)
    (hcl : ∀ rp, closing = some rp → rp.type = .TOKEN_RIGHT_PAREN) (a b : State)
    (hpre : Pre closing a b) (hcur : a.parser.current = b.parser.current)
    (herr : (advance a).parser.hadError = false) :
    Sim closing (advance a) (advance b) :=
  ⟨advance_pre closing hcl a b hpre herr, by rw [advance_previous, advance_previous, hcur]⟩

theorem sim_consume_paren (closing : Option Token)
    (hcl : ∀ rp, closing = some rp → rp.type = .TOKEN_RIGHT_PAREN) (a b : State)
    (h : Sim closing a b)
    (herr : (consume .TOKEN_RIGHT_PAREN msgExpectParen a).parser.hadError = false) :
    Sim closing (consume .TOKEN_RIGHT_PAREN msgExpectParen a)
      (consume .TOKEN_RIGHT_PAREN msgExpectParen b) := by
  obtain ⟨⟨hcom, hm⟩, hp⟩ := h
  unfold consume at herr ⊢
  by_cases hty : a.parser.current.type = .TOKEN_RIGHT_PAREN
  · rw [if_pos hty] at herr ⊢
    rcases hm with ⟨hpre, hcur, _⟩ | ⟨_, _, hca, _⟩
    · rw [if_pos (by rw [← hcur]; exact hty)]
      exact sim_advance closing hcl a b hpre hcur herr
    · rw [hca] at hty
      cases hty
  · rw [if_neg hty] at herr
    obtain ⟨_, ha1, ha2, _, _⟩ := hcom
    rw [errorAtCurrent, (errorAt_flags _ _ _ (by rw [ha1, ha2])).2] at herr
    cases herr

theorem unary_any (pp : Nat → State → Except Fault State) (s : State) :
    unary pp s =
      match pp PREC_UNARY s with
      | .error f => .error f
      | .ok s1 => .ok (emitOps (unaryCode s.parser.previous.type) s1) := by
  unfold unary
  simp only [bind, Except.bind, pure, Except.pure]
  cases pp PREC_UNARY s with
  | error f => rfl
  | ok s1 =>
    dsimp only
    generalize s.parser.previous.type = ty
    cases ty <;> rfl

theorem binary_any (pp : Nat → State → Except Fault State) (s : State) :
    binary pp s =
      match pp ((getRule s.parser.previous.type).precedence + 1) s with
      | .error f => .error f
      | .ok s1 => .ok (emitOps (binaryCode s.parser.previous.type) s1) := by
  unfold binary
  simp only [bind, Except.bind, pure, Except.pure]
  cases pp ((getRule s.parser.previous.type).precedence + 1) s with
  | error f => rfl
  | ok s1 =>
    dsimp only
    generalize s.parser.previous.type = ty
    cases ty <;> rfl

theorem sim_callParseFn (closing : Option Token)
    (hcl : ∀ rp, closing = some rp → rp.type = .TOKEN_RIGHT_PAREN) (n : Nat)
    (ih : ∀ prec a b a2, 0 < prec → Sim closing a b → parsePrecedence n prec a = .ok a2 →
      a2.parser.hadError = false → ∃ b2, parsePrecedence n prec b = .ok b2 ∧ Sim closing a2 b2)
    (fn : ParseFn) (a b a2 : State) (h : Sim closing a b)
    (hr : callParseFn (parsePrecedence n) fn a = .ok a2) (herr : a2.parser.hadError = false) :
    ∃ b2, callParseFn (parsePrecedence n) fn b = .ok b2 ∧ Sim closing a2 b2 := by
  have hp : a.parser.previous = b.parser.previous := h.2
  cases fn with
  | grouping =>
    simp only [callParseFn, grouping, expression, bind, Except.bind] at hr ⊢
    cases hx : parsePrecedence n PREC_ASSIGNMENT a with
    | error f => rw [hx] at hr; cases hr
    | ok ax =>
      rw [hx] at hr
      simp only [pure, Except.pure, Except.ok.injEq] at hr
      subst hr
      have hax : ax.parser.hadError = false := by
        by_contra hcon
        have := stable_consume hadError_stable .TOKEN_RIGHT_PAREN msgExpectParen ax
          (by simpa using hcon)
        rw [herr] at this
        cases this
      obtain ⟨bx, hb, hs⟩ := ih PREC_ASSIGNMENT a b ax (by decide) h hx hax
      rw [hb]
      exact ⟨_, rfl, sim_consume_paren closing hcl ax bx hs herr⟩
  | unary =>
    rw [callParseFn, unary_any] at hr ⊢
    cases hx : parsePrecedence n PREC_UNARY a with
    | error f => rw [hx] at hr; cases hr
    | ok ax =>
      rw [hx] at hr
      simp only [Except.ok.injEq] at hr
      subst hr
      rw [emitOps_keeps_flags] at herr
      obtain ⟨bx, hb, hs⟩ := ih PREC_UNARY a b ax (by decide) h hx herr
      rw [hb, ← hp]
      exact ⟨_, rfl, sim_emitOps closing _ ax bx hs⟩
  | binary =>
    rw [callParseFn, binary_any] at hr ⊢
    cases hx : parsePrecedence n ((getRule a.parser.previous.type).precedence + 1) a with
    | error f => rw [hx] at hr; cases hr
    | ok ax =>
      rw [hx] at hr
      simp only [Except.ok.injEq] at hr
      subst hr
      rw [emitOps_keeps_flags] at herr
      obtain ⟨bx, hb, hs⟩ := ih _ a b ax (Nat.succ_pos _) h hx herr
      rw [← hp, hb]
      exact ⟨_, rfl, sim_emitOps closing _ ax bx hs⟩
  | number =>
    simp only [callParseFn, pure, Except.pure, Except.ok.injEq] at hr ⊢
    subst hr
    refine ⟨_, rfl, ?_⟩
    unfold number at herr ⊢
    rw [← hp]
    exact sim_emitConstant closing a b _ h herr
  | string =>
    simp only [callParseFn, pure, Except.pure, Except.ok.injEq] at hr ⊢
    subst hr
    refine ⟨_, rfl, ?_⟩
    unfold string at herr ⊢
    rw [← hp]
    exact sim_emitConstant closing a b _ h herr
  | literal =>
    simp only [callParseFn, pure, Except.pure, Except.ok.injEq] at hr ⊢
    subst hr
    refine ⟨_, rfl, ?_⟩
    unfold literal
    rw [← hp]
    split
    · exact sim_emitByte closing a b _ h
    · exact sim_emitByte closing a b _ h
    · exact sim_emitByte closing a b _ h
    · exact h

theorem sim_infixLoop (closing : Option Token)
    (hcl : ∀ rp, closing = some rp → rp.type = .TOKEN_RIGHT_PAREN) (n : Nat)
    (ih : ∀ prec a b a2, 0 < prec → Sim closing a b → parsePrecedence n prec a = .ok a2 →
      a2.parser.hadError = false → ∃ b2, parsePrecedence n prec b = .ok b2 ∧ Sim closing a2 b2)
    (prec : Nat) (hprec : 0 < prec) :
    ∀ (m : Nat) (a b a2 : State), Sim closing a b →
      infixLoop (parsePrecedence n) m prec a = .ok a2 → a2.parser.hadError = false →
      ∃ b2, infixLoop (parsePrecedence n) m prec b = .ok b2 ∧ Sim closing a2 b2 := by
  intro m
  induction m with
  | zero => intro a b a2 _ h _; cases h
  | succ m ihm =>
    intro a b a2 hs h herr
    obtain ⟨⟨hcom, hm⟩, hp⟩ := hs
    unfold infixLoop at h ⊢
    dsimp only at h ⊢
    rcases hm with ⟨hpre, hcur, hty⟩ | ⟨hta, htb, hca, hcb⟩
    · rw [← hcur]
      split_ifs at h ⊢ with hc
      · have hprev : (advance b).parser.previous = (advance a).parser.previous := by
          rw [advance_previous, advance_previous, hcur]
        rw [hprev]
        cases hi : (getRule (advance a).parser.previous.type).infixFn with
        | none => rw [hi] at h; cases h
        | some fn =>
          rw [hi] at h
          dsimp only at h ⊢
          cases hr : callParseFn (parsePrecedence n) fn (advance a) with
          | error f => rw [hr] at h; cases h
          | ok a1 =>
            rw [hr] at h
            dsimp only at h
            have he1 : a1.parser.hadError = false := by
              by_contra hcon
              have hk := stable_infixLoop hadError_stable (parsePrecedence n)
                (fun prec s hs => stable_parsePrecedence hadError_stable n prec s hs) m prec a1
                (by simpa using hcon)
              rw [hadError_of_keeps hk h] at herr
              cases herr
            have he0 : (advance a).parser.hadError = false := by
              by_contra hcon
              have hk := stable_callParseFn hadError_stable (parsePrecedence n)
                (fun prec s hs => stable_parsePrecedence hadError_stable n prec s hs) fn
                (advance a) (by simpa using hcon)
              rw [hadError_of_keeps hk hr] at he1
              cases he1
            have hs0 := sim_advance closing hcl a b hpre hcur he0
            obtain ⟨b1, hb1, hs1⟩ := sim_callParseFn closing hcl n ih fn _ _ a1 hs0 hr he1
            rw [hb1]
            exact ihm a1 b1 a2 hs1 h herr
      · simp only [Except.ok.injEq] at h
        subst h
        exact ⟨b, rfl, ⟨hcom, Or.inl ⟨hpre, hcur, hty⟩⟩, hp⟩
    · have hna : ¬ prec ≤ (getRule a.parser.current.type).precedence := by
        rw [hca]
        exact Nat.not_le.mpr hprec
      have hnb : ¬ prec ≤ (getRule b.parser.current.type).precedence := by
        rw [hcb, (closing_rule closing b.scanner.eofLine hcl).1]
        exact Nat.not_le.mpr hprec
      rw [if_neg hna] at h
      rw [if_neg hnb]
      simp only [Except.ok.injEq] at h
      subst h
      exact ⟨b, rfl, ⟨hcom, Or.inr ⟨hta, htb, hca, hcb⟩⟩, hp⟩

theorem sim_parsePrecedence (closing : Option Token)
    (hcl : ∀ rp, closing = some rp → rp.type = .TOKEN_RIGHT_PAREN) (n : Nat) :
    ∀ prec a b a2, 0 < prec → Sim closing a b → parsePrecedence n prec a = .ok a2 →
      a2.parser.hadError = false → ∃ b2, parsePrecedence n prec b = .ok b2 ∧ Sim closing a2 b2 := by
  induction n with
  | zero => intro prec a b a2 _ _ h _; cases h
  | succ n ih =>
    intro prec a b a2 hprec hs h herr
    obtain ⟨⟨hcom, hm⟩, hp⟩ := hs
    rw [parsePrecedence] at h ⊢
    have hfa : (advance a).parser.panicMode = (advance a).parser.hadError :=
      flags_stable.advance a (by rw [hcom.2.1, hcom.2.2.1])
    rcases hm with ⟨hpre, hcur, hty⟩ | ⟨hta, htb, hca, hcb⟩
    · have hprev : (advance b).parser.previous = (advance a).parser.previous := by
        rw [advance_previous, advance_previous, hcur]
      rw [hprev]
      cases hi : (getRule (advance a).parser.previous.type).prefixFn with
      | none =>
        rw [hi] at h
        simp only [Except.ok.injEq] at h
        subst h
        rw [error, (errorAt_flags _ _ _ hfa).2] at herr
        cases herr
      | some fn =>
        rw [hi] at h
        dsimp only at h ⊢
        cases hr : callParseFn (parsePrecedence n) fn (advance a) with
        | error f => rw [hr] at h; cases h
        | ok a1 =>
          rw [hr] at h
          dsimp only at h
          have he1 : a1.parser.hadError = false := by
            by_contra hcon
            have hk := stable_infixLoop hadError_stable (parsePrecedence n)
              (fun prec s hs => stable_parsePrecedence hadError_stable n prec s hs) n prec a1
              (by simpa using hcon)
            rw [hadError_of_keeps hk h] at herr
            cases herr
          have he0 : (advance a).parser.hadError = false := by
            by_contra hcon
            have hk := stable_callParseFn hadError_stable (parsePrecedence n)
              (fun prec s hs => stable_parsePrecedence hadError_stable n prec s hs) fn
              (advance a) (by simpa using hcon)
            rw [hadError_of_keeps hk hr] at he1
            cases he1
          have hs0 := sim_advance closing hcl a b hpre hcur he0
          obtain ⟨b1, hb1, hs1⟩ := sim_callParseFn closing hcl n ih fn _ _ a1 hs0 hr he1
          rw [hb1]
          exact sim_infixLoop closing hcl n ih prec hprec n a1 b1 a2 hs1 h herr
    · have hi : (getRule (advance a).parser.previous.type).prefixFn = none := by
        rw [advance_previous, hca]
        rfl
      rw [hi] at h
      simp only [Except.ok.injEq] at h
      subst h
      rw [error, (errorAt_flags _ _ _ hfa).2] at herr
      cases herr

theorem advanceLoop_eofLine (toks : List Token) :
    ∀ s : State, (advanceLoop s toks).scanner.eofLine = s.scanner.eofLine := by
  induction toks with
  | nil => intro s; rfl
  | cons t rest ih =>
    intro s
    unfold advanceLoop
    dsimp only
    split_ifs
    · rfl
    · rw [ih, errorAtCurrent, (errorAt_parser_tokens _ _ _).2.2.1]
      rfl

theorem eofLine_stable (l : Nat) : Stable (fun s => s.scanner.eofLine = l) where
  errorAt := by
    intro s tok msg h
    rw [(errorAt_parser_tokens tok msg s).2.2.1]
    exact h
  advance := by
    intro s h
    unfold advance
    rw [advanceLoop_eofLine]
    exact h
  chunk := by
    intro s b l h
    exact h
  constant := by
    intro s v l h
    exact h

theorem compile_true_inner (g : State) (source : Scanner) (chunk : Chunk) (s : State)
    (h : compile g source chunk = .ok (true, s)) :
    ∃ a2, parsePrecedence (source.tokens.length + 1) PREC_ASSIGNMENT
          (advance (start g source chunk)) = .ok a2
      ∧ a2.parser.hadError = false ∧ a2.parser.current.type = .TOKEN_EOF
      ∧ s.compilingChunk.aryB = a2.compilingChunk.aryB ++ [OpCode.OP_RETURN.toByte]
      ∧ s.compilingChunk.aryValConstants = a2.compilingChunk.aryValConstants := by
  have hflag := compile_flag g source chunk true s h
  have herr : s.parser.hadError = false := by
    cases hh : s.parser.hadError with
    | false => rfl
    | true => rw [hh] at hflag; cases hflag
  rcases compile_ok_or_nullCall g source chunk with hn | ⟨a2, hpp, hc⟩
  · rw [hn] at h; cases h
  · rw [hc] at h
    simp only [Except.ok.injEq, Prod.mk.injEq] at h
    obtain ⟨-, rfl⟩ := h
    have hcons : (consume .TOKEN_EOF msgExpectEnd a2).parser.hadError = false := herr
    have h2 : a2.parser.hadError = false := by
      by_contra hcon
      have := stable_consume hadError_stable .TOKEN_EOF msgExpectEnd a2 (by simpa using hcon)
      rw [hcons] at this
      cases this
    have hfl : a2.parser.panicMode = a2.parser.hadError := by
      have hk := stable_parsePrecedence flags_stable (source.tokens.length + 1) PREC_ASSIGNMENT _
        (flags_stable.advance (start g source chunk) rfl)
      rw [hpp] at hk
      exact hk
    refine ⟨a2, hpp, h2, ?_, ?_, ?_⟩
    · by_contra hne
      unfold consume at hcons
      rw [if_neg hne, errorAtCurrent, (errorAt_flags _ _ _ hfl).2] at hcons
      cases hcons
    · show (consume .TOKEN_EOF msgExpectEnd a2).compilingChunk.aryB ++ [_] = _
      rw [consume_chunk]
    · show (consume .TOKEN_EOF msgExpectEnd a2).compilingChunk.aryValConstants = _
      rw [consume_chunk]

theorem grouped_inner (closing : Option Token)
    (hcl : ∀ rp, closing = some rp → rp.type = .TOKEN_RIGHT_PAREN)
    (g g2 : State) (e : List Token) (l l2 : Nat) (lp : Token) (chunk : Chunk) (a2 : State)
    (hlp : lp.type = .TOKEN_LEFT_PAREN) (he : ∀ t ∈ e, t.type ≠ .TOKEN_EOF)
    (hpp : parsePrecedence (e.length + 1) PREC_ASSIGNMENT (advance (start g ⟨e, l⟩ chunk))
      = .ok a2)
    (herr : a2.parser.hadError = false) (heof : a2.parser.current.type = .TOKEN_EOF) :
    ∃ b2, parsePrecedence (e.length + 1) PREC_ASSIGNMENT
          (advance (advance (start g2 ⟨lp :: (e ++ closing.toList), l2⟩ chunk))) = .ok b2
      ∧ (advance (advance (start g2 ⟨lp :: (e ++ closing.toList), l2⟩ chunk))).parser.previous
          = lp
      ∧ b2.compilingChunk = a2.compilingChunk
      ∧ b2.parser.hadError = false ∧ b2.parser.panicMode = false
      ∧ b2.scanner.tokens = [] ∧ b2.scanner.eofLine = l2
      ∧ b2.parser.current = closing.getD (eofToken l2)
      ∧ b2.stderr = g2.stderr := by
  have hlpe : lp.type ≠ .TOKEN_ERROR := by rw [hlp]; decide
  have hc0 : advance (start g2 ⟨lp :: (e ++ closing.toList), l2⟩ chunk)
      = { start g2 ⟨lp :: (e ++ closing.toList), l2⟩ chunk with
          parser := { zeroParser with previous := zeroParser.current, current := lp }
          scanner := ⟨e ++ closing.toList, l2⟩ } :=
    advance_of_cons _ lp _ rfl hlpe
  have hpre : Pre closing (start g ⟨e, l⟩ chunk)
      (advance (start g2 ⟨lp :: (e ++ closing.toList), l2⟩ chunk)) := by
    rw [hc0]
    exact ⟨⟨rfl, rfl, rfl, rfl, rfl⟩, he, rfl⟩
  have ha0 : (advance (start g ⟨e, l⟩ chunk)).parser.hadError = false := by
    by_contra hcon
    have hk := stable_parsePrecedence hadError_stable (e.length + 1) PREC_ASSIGNMENT _
      (by simpa using hcon)
    rw [hadError_of_keeps hk hpp] at herr
    cases herr
  have hstep := advance_pre closing hcl _ _ hpre ha0
  have hsim : Sim closing (advance (start g ⟨e, l⟩ chunk))
      { advance (advance (start g2 ⟨lp :: (e ++ closing.toList), l2⟩ chunk)) with
        parser := { (advance (advance
            (start g2 ⟨lp :: (e ++ closing.toList), l2⟩ chunk))).parser with
          previous := (advance (start g ⟨e, l⟩ chunk)).parser.previous } } :=
    ⟨hstep, rfl⟩
  obtain ⟨b2, hb, ⟨⟨hcom, hm⟩, _⟩⟩ := sim_parsePrecedence closing hcl (e.length + 1)
    PREC_ASSIGNMENT _ _ a2 (by decide) hsim hpp herr
  rw [parsePrecedence_previous_irrelevant] at hb
  have hl2 : b2.scanner.eofLine = l2 := by
    have hk := stable_parsePrecedence (eofLine_stable l2) (e.length + 1) PREC_ASSIGNMENT _
      ((eofLine_stable l2).advance _ ((eofLine_stable l2).advance
        (start g2 ⟨lp :: (e ++ closing.toList), l2⟩ chunk) rfl))
    rw [hb] at hk
    exact hk
  have hinv : ErrInv g2 b2 := by
    have hk := stable_parsePrecedence (errInv_stable g2) (e.length + 1) PREC_ASSIGNMENT _
      ((errInv_stable g2).advance _ ((errInv_stable g2).advance
        (start g2 ⟨lp :: (e ++ closing.toList), l2⟩ chunk)
        (errInv_start g2 ⟨lp :: (e ++ closing.toList), l2⟩ chunk)))
    rw [hb] at hk
    exact hk
  obtain ⟨hch, _, _, hb1, hb2⟩ := hcom
  refine ⟨b2, hb, ?_, hch.symm, hb1, hb2, ?_, hl2, ?_, (hinv.2.1 hb1).2⟩
  · rw [advance_previous, hc0]
  · rcases hm with ⟨_, _, hty⟩ | ⟨_, htb, _, _⟩
    · exact absurd heof hty
    · exact htb
  · rcases hm with ⟨_, _, hty⟩ | ⟨_, _, _, hcb⟩
    · exact absurd heof hty
    · rw [hcb, hl2]

theorem parsePrecedence_grouping (k prec : Nat) (s b2 : State) (hprec : 0 < prec)
    (hprev : (getRule (advance s).parser.previous.type).prefixFn = some .grouping)
    (hin : parsePrecedence (k + 1) PREC_ASSIGNMENT (advance s) = .ok b2)
    (hstop : (consume .TOKEN_RIGHT_PAREN msgExpectParen b2).parser.current.type = .TOKEN_EOF) :
    parsePrecedence (k + 1 + 1) prec s
      = .ok (consume .TOKEN_RIGHT_PAREN msgExpectParen b2) := by
  rw [parsePrecedence, hprev]
  simp only [callParseFn, grouping, expression, bind, Except.bind, hin, pure, Except.pure]
  apply infixLoop_stop
  rw [hstop]
  exact hprec

theorem advance_nil_facts (s : State) (h : s.scanner.tokens = []) :
    (advance s).parser.hadError = s.parser.hadError
      ∧ (advance s).parser.panicMode = s.parser.panicMode
      ∧ (advance s).parser.current = eofToken s.scanner.eofLine
      ∧ (advance s).scanner.tokens = []
      ∧ (advance s).stderr = s.stderr := by
  rw [advance_of_nil s h]
  exact ⟨rfl, rfl, rfl, rfl, rfl⟩

/-! ## The reads of the disassembler -/

theorem readU24_inside (chunk : Chunk) (o : Nat) (h : o + 3 ≤ chunk.aryB.length) :
    ∃ v, readU24 chunk o = some v := by
  have h0 : chunk.aryB[o]? = some chunk.aryB[o] := List.getElem?_eq_getElem (by omega)
  have h1 : chunk.aryB[o + 1]? = some chunk.aryB[o + 1] := List.getElem?_eq_getElem (by omega)
  have h2 : chunk.aryB[o + 2]? = some chunk.aryB[o + 2] := List.getElem?_eq_getElem (by omega)
  simp only [readU24, h0, h1, h2, Option.bind_eq_bind, Option.some_bind, Option.pure_def]
  exact ⟨_, rfl⟩

theorem readU24_outside (chunk : Chunk) (o : Nat) (h : chunk.aryB.length < o + 3) :
    readU24 chunk o = none := by
  have h2 : chunk.aryB[o + 2]? = none := List.getElem?_eq_none_iff.mpr (by omega)
  unfold readU24
  cases h0 : chunk.aryB[o]? with
  | none => rfl
  | some b0 =>
    cases h1 : chunk.aryB[o + 1]? with
    | none => rfl
    | some b1 => simp [h2]

theorem getConstant_inside (chunk : Chunk) (isLong : Bool) (o : Nat)
    (h : o + indexWidth isLong ≤ chunk.aryB.length) :
    ∃ c, getConstant chunk isLong o = some (c, o + indexWidth isLong) := by
  cases isLong with
  | true =>
    obtain ⟨v, hv⟩ := readU24_inside chunk o h
    exact ⟨v, by simp [getConstant, hv, indexWidth]⟩
  | false =>
    have h0 : chunk.aryB[o]? = some chunk.aryB[o] :=
      List.getElem?_eq_getElem (by simp [indexWidth] at h; omega)
    exact ⟨(chunk.aryB[o]).val, by simp [getConstant, h0, indexWidth]⟩

theorem getConstant_outside (chunk : Chunk) (isLong : Bool) (o : Nat)
    (h : chunk.aryB.length < o + indexWidth isLong) :
    getConstant chunk isLong o = none := by
  cases isLong with
  | true => simp [getConstant, readU24_outside chunk o h]
  | false =>
    have h0 : chunk.aryB[o]? = none :=
      List.getElem?_eq_none_iff.mpr (by simp [indexWidth] at h; omega)
    simp [getConstant, h0]

theorem closureLoop_inside (chunk : Chunk) (count : Nat) :
    ∀ o, o + 2 * count ≤ chunk.aryB.length →
      ∃ out, closureLoop chunk count o = some (o + 2 * count, out)
        ∧ ∀ p ∈ out, printedConstant p = none := by
  induction count with
  | zero => intro o _; exact ⟨[], rfl, by simp⟩
  | succ count ih =>
    intro o h
    have h0 : chunk.aryB[o]? = some chunk.aryB[o] := List.getElem?_eq_getElem (by omega)
    have h1 : chunk.aryB[o + 1]? = some chunk.aryB[o + 1] := List.getElem?_eq_getElem (by omega)
    obtain ⟨out, e, hp⟩ := ih (o + 1 + 1) (by omega)
    refine ⟨.upvalue (o + 1 + 1 - 2) (decide ((chunk.aryB[o]).val ≠ 0)) (chunk.aryB[o + 1]).val
      :: out, ?_, ?_⟩
    · simp only [closureLoop, h0, h1, e, Option.bind_eq_bind, Option.some_bind, Option.pure_def]
      congr 2
      omega
    · intro p hmem
      rcases List.mem_cons.mp hmem with rfl | hmem
      · rfl
      · exact hp p hmem

theorem closureLoop_outside (chunk : Chunk) (count : Nat) :
    ∀ o, o ≤ chunk.aryB.length → chunk.aryB.length < o + 2 * count →
      closureLoop chunk count o = none := by
  induction count with
  | zero => intro o ho h; omega
  | succ count ih =>
    intro o ho h
    unfold closureLoop
    cases h0 : chunk.aryB[o]? with
    | none => rfl
    | some b0 =>
      cases h1 : chunk.aryB[o + 1]? with
      | none => simp [h1]
      | some b1 =>
        have hlt : o + 1 < chunk.aryB.length := (List.getElem?_eq_some_iff.mp h1).1
        simp [h1, ih (o + 1 + 1) (by omega) (by omega)]

theorem getConstant_constantAt (chunk : Chunk) (isLong : Bool) (offset : Nat)
    (h : offset + 1 + indexWidth isLong ≤ chunk.aryB.length) :
    getConstant chunk isLong (offset + 1)
      = some (constantAt chunk offset isLong, offset + 1 + indexWidth isLong) := by
  obtain ⟨c, hc⟩ := getConstant_inside chunk isLong (offset + 1) h
  simp only [constantAt, hc]

theorem constantInstruction_reads (name : String) (chunk : Chunk) (offset : Nat)
    (isLong : Bool) :
    ReadsInside chunk offset
      (decide (offset + 1 + indexWidth isLong ≤ chunk.aryB.length)
        && decide (constantAt chunk offset isLong < chunk.aryValConstants.length))
      (constantInstruction name chunk offset isLong) := by
  constructor
  · intro h
    simp only [Bool.and_eq_true, decide_eq_true_eq] at h
    obtain ⟨hb, hc⟩ := h
    have hv := List.getElem?_eq_getElem hc
    refine ⟨offset + 1 + indexWidth isLong, [.constant name (constantAt chunk offset isLong)
      chunk.aryValConstants[constantAt chunk offset isLong]], ?_, by omega, hb, ?_⟩
    · simp only [constantInstruction, getConstant_constantAt chunk isLong offset hb, hv,
        Option.bind_eq_bind, Option.some_bind, Option.pure_def]
    · intro p hp c v hpc
      rw [List.mem_singleton] at hp
      subst hp
      simp only [printedConstant, Option.some.injEq, Prod.mk.injEq] at hpc
      obtain ⟨rfl, rfl⟩ := hpc
      exact hv
  · intro h
    simp only [Bool.and_eq_false_iff, decide_eq_false_iff_not] at h
    by_cases hb : offset + 1 + indexWidth isLong ≤ chunk.aryB.length
    · rcases h with h | h
      · exact absurd hb h
      · have hv : chunk.aryValConstants[constantAt chunk offset isLong]? = none :=
          List.getElem?_eq_none_iff.mpr (by omega)
        simp only [constantInstruction, getConstant_constantAt chunk isLong offset hb, hv,
          Option.bind_eq_bind, Option.some_bind, Option.none_bind]
    · simp only [constantInstruction, getConstant_outside chunk isLong (offset + 1) (by omega),
        Option.bind_eq_bind, Option.none_bind]

theorem invokeInstruction_reads (name : String) (chunk : Chunk) (offset : Nat)
    (isLong : Bool) :
    ReadsInside chunk offset
      (decide (offset + 1 + indexWidth isLong + 1 ≤ chunk.aryB.length)
        && decide (constantAt chunk offset isLong < chunk.aryValConstants.length))
      (invokeInstruction name chunk offset isLong) := by
  constructor
  · intro h
    simp only [Bool.and_eq_true, decide_eq_true_eq] at h
    obtain ⟨hb, hc⟩ := h
    have hv := List.getElem?_eq_getElem hc
    have ha : chunk.aryB[offset + 1 + indexWidth isLong]?
        = some chunk.aryB[offset + 1 + indexWidth isLong] := List.getElem?_eq_getElem (by omega)
    refine ⟨offset + 1 + indexWidth isLong + 1, [.invoke name (constantAt chunk offset isLong)
      chunk.aryValConstants[constantAt chunk offset isLong]
      (chunk.aryB[offset + 1 + indexWidth isLong]).val], ?_, by omega, hb, ?_⟩
    · simp only [invokeInstruction, getConstant_constantAt chunk isLong offset (by omega), hv, ha,
        Option.bind_eq_bind, Option.some_bind, Option.pure_def]
    · intro p hp c v hpc
      rw [List.mem_singleton] at hp
      subst hp
      simp only [printedConstant, Option.some.injEq, Prod.mk.injEq] at hpc
      obtain ⟨rfl, rfl⟩ := hpc
      exact hv
  · intro h
    simp only [Bool.and_eq_false_iff, decide_eq_false_iff_not] at h
    by_cases hw : offset + 1 + indexWidth isLong ≤ chunk.aryB.length
    · by_cases hb : offset + 1 + indexWidth isLong + 1 ≤ chunk.aryB.length
      · rcases h with h | h
        · exact absurd hb h
        · have hv : chunk.aryValConstants[constantAt chunk offset isLong]? = none :=
            List.getElem?_eq_none_iff.mpr (by omega)
          have ha : chunk.aryB[offset + 1 + indexWidth isLong]?
              = some chunk.aryB[offset + 1 + indexWidth isLong] :=
            List.getElem?_eq_getElem (by omega)
          simp only [invokeInstruction, getConstant_constantAt chunk isLong offset hw, hv, ha,
            Option.bind_eq_bind, Option.some_bind, Option.none_bind]
      · have ha : chunk.aryB[offset + 1 + indexWidth isLong]? = none :=
          List.getElem?_eq_none_iff.mpr (by omega)
        simp only [invokeInstruction, getConstant_constantAt chunk isLong offset hw, ha,
          Option.bind_eq_bind, Option.some_bind, Option.none_bind]
    · simp only [invokeInstruction, getConstant_outside chunk isLong (offset + 1) (by omega),
        Option.bind_eq_bind, Option.none_bind]

theorem immediateInstruction_reads (name : String) (chunk : Chunk) (offset : Nat)
    (isLong : Bool) :
    ReadsInside chunk offset (decide (offset + 1 + indexWidth isLong ≤ chunk.aryB.length))
      (immediateInstruction name chunk offset isLong) := by
  constructor
  · intro h
    simp only [decide_eq_true_eq] at h
    cases isLong with
    | true =>
      obtain ⟨v, hv⟩ := readU24_inside chunk (offset + 1) h
      refine ⟨offset + 1 + 3, [.immediate name v], ?_, by omega, h, ?_⟩
      · simp [immediateInstruction, hv]
      · intro p hp c v hpc
        rw [List.mem_singleton] at hp
        subst hp
        cases hpc
    | false =>
      have h0 : chunk.aryB[offset + 1]? = some chunk.aryB[offset + 1] :=
        List.getElem?_eq_getElem (by simp [indexWidth] at h; omega)
      refine ⟨offset + 1 + 1, [.immediate name (chunk.aryB[offset + 1]).val], ?_, by omega, h,
        ?_⟩
      · simp [immediateInstruction, h0]
      · intro p hp c v hpc
        rw [List.mem_singleton] at hp
        subst hp
        cases hpc
  · intro h
    simp only [decide_eq_false_iff_not, Nat.not_le] at h
    cases isLong with
    | true => simp [immediateInstruction, readU24_outside chunk (offset + 1) h]
    | false =>
      have h0 : chunk.aryB[offset + 1]? = none :=
        List.getElem?_eq_none_iff.mpr (by simp [indexWidth] at h; omega)
      simp [immediateInstruction, h0]

theorem jumpInstruction_reads (name : String) (sign : Int) (chunk : Chunk) (offset : Nat) :
    ReadsInside chunk offset (decide (offset + 3 ≤ chunk.aryB.length))
      (jumpInstruction name sign chunk offset) := by
  constructor
  · intro h
    simp only [decide_eq_true_eq] at h
    have h1 : chunk.aryB[offset + 1]? = some chunk.aryB[offset + 1] :=
      List.getElem?_eq_getElem (by omega)
    have h2 : chunk.aryB[offset + 2]? = some chunk.aryB[offset + 2] :=
      List.getElem?_eq_getElem (by omega)
    refine ⟨offset + 3, _, jumpInstruction_eq name sign chunk offset _ _ h1 h2, by omega, h, ?_⟩
    intro p hp c v hpc
    rw [List.mem_singleton] at hp
    subst hp
    cases hpc
  · intro h
    simp only [decide_eq_false_iff_not, Nat.not_le] at h
    have h2 : chunk.aryB[offset + 2]? = none := List.getElem?_eq_none_iff.mpr (by omega)
    unfold jumpInstruction
    cases h1 : chunk.aryB[offset + 1]? with
    | none => rfl
    | some b1 => simp [h2]

theorem closureInstruction_reads (name : String) (chunk : Chunk) (offset : Nat)
    (isLong : Bool) :
    ReadsInside chunk offset
      (decide (offset + 1 + indexWidth isLong + 2 * upvalueCountAt chunk offset isLong
          ≤ chunk.aryB.length)
        && namesFunction chunk offset isLong)
      (closureInstruction name chunk offset isLong) := by
  by_cases hw : offset + 1 + indexWidth isLong ≤ chunk.aryB.length
  · have hg := getConstant_constantAt chunk isLong offset hw
    cases hv : chunk.aryValConstants[constantAt chunk offset isLong]? with
    | none =>
      have hn : namesFunction chunk offset isLong = false := by simp [namesFunction, hv]
      constructor
      · intro h; simp [hn] at h
      · intro _
        simp only [closureInstruction, hg, hv, Option.bind_eq_bind, Option.some_bind,
          Option.none_bind]
    | some v =>
      cases v with
      | OBJ_FUNCTION_VAL f =>
        have hn : namesFunction chunk offset isLong = true := by simp [namesFunction, hv]
        have hu : upvalueCountAt chunk offset isLong = f.upvalueCount := by
          simp only [upvalueCountAt, hg, hv]
        rw [hn, hu, Bool.and_true]
        constructor
        · intro h
          simp only [decide_eq_true_eq] at h
          obtain ⟨out, e, hp⟩ := closureLoop_inside chunk f.upvalueCount _ h
          refine ⟨offset + 1 + indexWidth isLong + 2 * f.upvalueCount,
            .constant name (constantAt chunk offset isLong) (.OBJ_FUNCTION_VAL f) :: out, ?_,
            by omega, h, ?_⟩
          · simp only [closureInstruction, hg, hv, AS_FUNCTION, e, Option.bind_eq_bind,
              Option.some_bind, Option.pure_def]
          · intro p hmem c v hpc
            rcases List.mem_cons.mp hmem with rfl | hmem
            · simp only [printedConstant, Option.some.injEq, Prod.mk.injEq] at hpc
              obtain ⟨rfl, rfl⟩ := hpc
              exact hv
            · rw [hp p hmem] at hpc
              cases hpc
        · intro h
          simp only [decide_eq_false_iff_not, Nat.not_le] at h
          simp only [closureInstruction, hg, hv, AS_FUNCTION,
            closureLoop_outside chunk f.upvalueCount _ hw h, Option.bind_eq_bind,
            Option.some_bind, Option.none_bind]
      | NIL_VAL =>
        have hn : namesFunction chunk offset isLong = false := by simp [namesFunction, hv]
        constructor
        · intro h; simp [hn] at h
        · intro _
          simp only [closureInstruction, hg, hv, AS_FUNCTION, Option.bind_eq_bind,
            Option.some_bind, Option.none_bind]
      | BOOL_VAL b =>
        have hn : namesFunction chunk offset isLong = false := by simp [namesFunction, hv]
        constructor
        · intro h; simp [hn] at h
        · intro _
          simp only [closureInstruction, hg, hv, AS_FUNCTION, Option.bind_eq_bind,
            Option.some_bind, Option.none_bind]
      | NUMBER_VAL d =>
        have hn : namesFunction chunk offset isLong = false := by simp [namesFunction, hv]
        constructor
        · intro h; simp [hn] at h
        · intro _
          simp only [closureInstruction, hg, hv, AS_FUNCTION, Option.bind_eq_bind,
            Option.some_bind, Option.none_bind]
      | OBJ_VAL o =>
        have hn : namesFunction chunk offset isLong = false := by simp [namesFunction, hv]
        constructor
        · intro h; simp [hn] at h
        · intro _
          simp only [closureInstruction, hg, hv, AS_FUNCTION, Option.bind_eq_bind,
            Option.some_bind, Option.none_bind]
  · constructor
    · intro h
      simp only [Bool.and_eq_true, decide_eq_true_eq] at h
      omega
    · intro _
      simp only [closureInstruction, getConstant_outside chunk isLong (offset + 1) (by omega),
        Option.bind_eq_bind, Option.none_bind]

theorem readsInside_lead (chunk : Chunk) (offset : Nat) (cond : Bool)
    (r : Option (Nat × List Printed)) (lead : Printed) (hl : printedConstant lead = none)
    (h : ReadsInside chunk offset cond r) :
    ReadsInside chunk offset cond (r.map (fun x => (x.1, lead :: x.2))) := by
  obtain ⟨h1, h2⟩ := h
  constructor
  · intro hc
    obtain ⟨next, out, e, a, b, hp⟩ := h1 hc
    refine ⟨next, lead :: out, by rw [e]; rfl, a, b, ?_⟩
    intro p hmem c v hpc
    rcases List.mem_cons.mp hmem with rfl | hmem
    · rw [hl] at hpc; cases hpc
    · exact hp p hmem c v hpc
  · intro hc
    rw [h2 hc]
    rfl

theorem leadOf_prints_no_constant (chunk : Chunk) (offset : Nat) :
    printedConstant (leadOf chunk offset) = none := by
  unfold leadOf
  dsimp only
  split_ifs <;> rfl

theorem disassembleInstruction_reads (chunk : Chunk) (offset : Nat) :
    ReadsInside chunk offset (wellFormedAt chunk offset)
      (disassembleInstruction chunk offset) := by
  cases hb : chunk.aryB[offset]? with
  | none =>
    have hw : wellFormedAt chunk offset = false := by simp only [wellFormedAt, hb]
    have hd : disassembleInstruction chunk offset = none := by
      simp only [disassembleInstruction, hb, Option.bind_eq_bind, Option.none_bind]
    rw [hw, hd]
    constructor
    · intro h
      cases h
    · intro _
      rfl
  | some b =>
    have hlt : offset < chunk.aryB.length := (List.getElem?_eq_some_iff.mp hb).1
    rw [disassembleInstruction_eq chunk offset b hb]
    apply readsInside_lead _ _ _ _ _ (leadOf_prints_no_constant chunk offset)
    simp only [wellFormedAt, hb, disassembleSwitch]
    cases OpCode.ofByte b with
    | none =>
      constructor
      · intro _
        refine ⟨offset + 1, _, rfl, by omega, hlt, ?_⟩
        intro p hp c v hpc
        rw [List.mem_singleton] at hp
        subst hp
        cases hpc
      · intro h
        cases h
    | some op =>
      dsimp only
      cases op.form with
      | simpleInstruction =>
        constructor
        · intro _
          refine ⟨offset + 1, _, rfl, by omega, hlt, ?_⟩
          intro p hp c v hpc
          simp only [simpleInstruction, List.mem_singleton] at hp
          subst hp
          cases hpc
        · intro h
          cases h
      | constantInstruction isLong => exact constantInstruction_reads _ _ _ _
      | immediateInstruction isLong => exact immediateInstruction_reads _ _ _ _
      | jumpInstruction sign => exact jumpInstruction_reads _ _ _ _
      | invokeInstruction isLong => exact invokeInstruction_reads _ _ _ _
      | closureInstruction isLong => exact closureInstruction_reads _ _ _ _

/-! ## C1 and C2: precedence -/

/-- C1: for literal operands `a`, `b`, `c` and binary operators `op1`, `op2`
of `== != < > <= >= + - * /`, `compile` on `a op1 b op2 c` succeeds (returns
`true`, prints nothing) and writes `load(a) load(b) load(c) code(op2)
code(op1) OP_RETURN` when `op2` is strictly higher than `op1` on the ladder
EQUALITY < COMPARISON < TERM < FACTOR, and `load(a) load(b) code(op1) load(c)
code(op2) OP_RETURN` otherwise (left associativity at equal level), for every
chunk with room for three more constants. -/
theorem binary_precedence_ladder (g : State) (ch : Chunk) (eofLine : Nat) (a op1 b op2 c : Token)
    (ha : isLiteral a.type = true) (hb : isLiteral b.type = true) (hc : isLiteral c.type = true)
    (h1 : isBinaryOp op1.type = true) (h2 : isBinaryOp op2.type = true)
    (hroom : ch.aryValConstants.length + 3 ≤ UINT24_COUNT) :
    compile g ⟨[a, op1, b, op2, c], eofLine⟩ ch =
      finished g eofLine
        (if ladder op1.type < ladder op2.type then
          writeOps (writeOps (load c (load b (load a ch)))
            (binaryCode op2.type) c.line) (binaryCode op1.type) c.line
        else
          writeOps (load c (writeOps (load b (load a ch))
            (binaryCode op1.type) b.line)) (binaryCode op2.type) c.line) := by
  have hla := load_constants_length a ch
  have hlb := load_constants_length b (load a ch)
  have l1 := ladder_le_three op1.type
  have l2 := ladder_le_three op2.type
  have e1 : PREC_ASSIGNMENT ≤ PREC_EQUALITY + ladder op1.type := by
    simp only [PREC_ASSIGNMENT, PREC_EQUALITY]; omega
  have e2 : PREC_ASSIGNMENT ≤ PREC_EQUALITY + ladder op2.type := by
    simp only [PREC_ASSIGNMENT, PREC_EQUALITY]; omega
  have r1 : (load a ch).aryValConstants.length < UINT24_COUNT := by omega
  have r2 : (load b (load a ch)).aryValConstants.length < UINT24_COUNT := by omega
  have r3 : (writeOps (load b (load a ch)) (binaryCode op1.type) b.line).aryValConstants.length
      < UINT24_COUNT := by rw [writeOps_constants]; exact r2
  apply compile_finished g _ eofLine ch _ c
  simp only [List.length_cons, List.length_nil]
  rw [advance_st_cons _ _ _ _ _ _ (isLiteral_ne_error ha)]
  rw [parsePrecedence_literal (advance_st_cons _ _ _ _ _ _ (isBinaryOp_ne_error h1)) ha (by omega)]
  rw [infixLoop_binary _ _ _ _ (advance_st_cons _ _ _ _ _ _ (isLiteral_ne_error hb)) rfl h1 e1]
  rw [parsePrecedence_literal (advance_st_cons _ _ _ _ _ _ (isBinaryOp_ne_error h2)) hb r1]
  by_cases hlt : ladder op1.type < ladder op2.type
  · have e3 : PREC_EQUALITY + ladder op1.type + 1 ≤ PREC_EQUALITY + ladder op2.type := by omega
    rw [infixLoop_binary _ _ _ _ (advance_st_cons _ _ _ _ _ _ (isLiteral_ne_error hc)) rfl h2 e3]
    rw [parsePrecedence_literal (advance_st_nil _ _ _ _) hc r2]
    rw [infixLoop_eof _ _ _ _ _ _ _ (Nat.succ_pos _)]
    simp only [emitOps_st]
    rw [infixLoop_eof _ _ _ _ _ _ _ (Nat.succ_pos _)]
    simp only [emitOps_st]
    rw [infixLoop_eof _ _ _ _ _ _ _ (by decide), if_pos hlt]
    rfl
  · have e3 : (getRule (st (start g ⟨[], eofLine⟩ ch) b op2 [c]
        (load b (load a ch))).parser.current.type).precedence
        < PREC_EQUALITY + ladder op1.type + 1 := by
      show (getRule op2.type).precedence < _
      rw [(getRule_binaryOp h2).2]; omega
    rw [infixLoop_stop _ _ _ _ e3]
    simp only [emitOps_st]
    rw [infixLoop_binary _ _ _ _ (advance_st_cons _ _ _ _ _ _ (isLiteral_ne_error hc)) rfl h2 e2]
    rw [parsePrecedence_literal (advance_st_nil _ _ _ _) hc r3]
    rw [infixLoop_eof _ _ _ _ _ _ _ (Nat.succ_pos _)]
    simp only [emitOps_st]
    rw [infixLoop_eof _ _ _ _ _ _ _ (by decide), if_neg hlt]
    rfl

theorem binary_precedence_ladder_witness :
    ∃ s, compile idle srcOnePlusTwoTimesThree Chunk.empty = .ok (true, s)
      ∧ s.stderr = []
      ∧ s.compilingChunk.aryB =
        [OpCode.OP_CONSTANT.toByte, 0, OpCode.OP_CONSTANT.toByte, 1, OpCode.OP_CONSTANT.toByte, 2,
          OpCode.OP_MULTIPLY.toByte, OpCode.OP_ADD.toByte, OpCode.OP_RETURN.toByte] :=
  ⟨_, binary_precedence_ladder idle Chunk.empty 1 (tok .TOKEN_NUMBER "1") (tok .TOKEN_PLUS "+")
      (tok .TOKEN_NUMBER "2") (tok .TOKEN_STAR "*") (tok .TOKEN_NUMBER "3")
      rfl rfl rfl rfl rfl (by decide), rfl, rfl⟩

/-- C2: unary `-` and `!` bind tighter than every binary operator: `compile`
on `u a op b` writes `load(a) code(u) load(b) code(op) OP_RETURN`, and on the
nested unaries `u u2 a` it writes `load(a) code(u2) code(u) OP_RETURN`, with
`code(-) = OP_NEGATE` and `code(!) = OP_NOT`; both runs return `true`. -/
theorem unary_binds_tighter (g : State) (ch : Chunk) (eofLine : Nat) (u a op b u2 : Token)
    (ha : isLiteral a.type = true) (hb : isLiteral b.type = true)
    (hu : isUnaryOp u.type = true) (hu2 : isUnaryOp u2.type = true)
    (hop : isBinaryOp op.type = true)
    (hroom : ch.aryValConstants.length + 2 ≤ UINT24_COUNT) :
    compile g ⟨[u, a, op, b], eofLine⟩ ch =
        finished g eofLine
          (writeOps (load b (writeOps (load a ch) (unaryCode u.type) a.line))
            (binaryCode op.type) b.line)
      ∧ compile g ⟨[u, u2, a], eofLine⟩ ch =
        finished g eofLine
          (writeOps (writeOps (load a ch) (unaryCode u2.type) a.line) (unaryCode u.type) a.line) := by
  have hla := load_constants_length a ch
  have l1 := ladder_le_three op.type
  have e1 : PREC_ASSIGNMENT ≤ PREC_EQUALITY + ladder op.type := by
    simp only [PREC_ASSIGNMENT, PREC_EQUALITY]; omega
  have r0 : ch.aryValConstants.length < UINT24_COUNT := by omega
  have r1 : (writeOps (load a ch) (unaryCode u.type) a.line).aryValConstants.length
      < UINT24_COUNT := by rw [writeOps_constants]; omega
  constructor
  · apply compile_finished g _ eofLine ch _ b
    simp only [List.length_cons, List.length_nil]
    rw [advance_st_cons _ _ _ _ _ _ (isUnaryOp_ne_error hu)]
    rw [parsePrecedence_unary (advance_st_cons _ _ _ _ _ _ (isLiteral_ne_error ha)) hu]
    rw [parsePrecedence_literal (advance_st_cons _ _ _ _ _ _ (isBinaryOp_ne_error hop)) ha r0]
    have e3 : (getRule (st (start g ⟨[], eofLine⟩ ch) a op [b] (load a ch)).parser.current.type).precedence
        < PREC_UNARY := by
      show (getRule op.type).precedence < _
      rw [(getRule_binaryOp hop).2]; simp only [PREC_EQUALITY, PREC_UNARY]; omega
    rw [infixLoop_stop _ _ _ _ e3]
    simp only [emitOps_st]
    rw [infixLoop_binary _ _ _ _ (advance_st_cons _ _ _ _ _ _ (isLiteral_ne_error hb)) rfl hop e1]
    rw [parsePrecedence_literal (advance_st_nil _ _ _ _) hb r1]
    rw [infixLoop_eof _ _ _ _ _ _ _ (Nat.succ_pos _)]
    simp only [emitOps_st]
    rw [infixLoop_eof _ _ _ _ _ _ _ (by decide)]
    rfl
  · apply compile_finished g _ eofLine ch _ a
    simp only [List.length_cons, List.length_nil]
    rw [advance_st_cons _ _ _ _ _ _ (isUnaryOp_ne_error hu)]
    rw [parsePrecedence_unary (advance_st_cons _ _ _ _ _ _ (isUnaryOp_ne_error hu2)) hu]
    rw [parsePrecedence_unary (advance_st_cons _ _ _ _ _ _ (isLiteral_ne_error ha)) hu2]
    rw [parsePrecedence_literal (advance_st_nil _ _ _ _) ha r0]
    rw [infixLoop_eof _ _ _ _ _ _ _ (by decide)]
    simp only [emitOps_st]
    rw [infixLoop_eof _ _ _ _ _ _ _ (by decide)]
    simp only [emitOps_st]
    rw [infixLoop_eof _ _ _ _ _ _ _ (by decide)]
    rfl

theorem unary_binds_tighter_witness :
    (∃ s, compile idle srcMinusOneLessTwo Chunk.empty = .ok (true, s)
      ∧ s.compilingChunk.aryB =
        [OpCode.OP_CONSTANT.toByte, 0, OpCode.OP_NEGATE.toByte, OpCode.OP_CONSTANT.toByte, 1,
          OpCode.OP_LESS.toByte, OpCode.OP_RETURN.toByte])
    ∧ (∃ s, compile idle ⟨[tok .TOKEN_MINUS "-", tok .TOKEN_BANG "!", tok .TOKEN_NUMBER "1"], 1⟩
          Chunk.empty = .ok (true, s)
      ∧ s.compilingChunk.aryB =
        [OpCode.OP_CONSTANT.toByte, 0, OpCode.OP_NOT.toByte, OpCode.OP_NEGATE.toByte,
          OpCode.OP_RETURN.toByte]) :=
  ⟨⟨_, (unary_binds_tighter idle Chunk.empty 1 (tok .TOKEN_MINUS "-") (tok .TOKEN_NUMBER "1")
      (tok .TOKEN_LESS "<") (tok .TOKEN_NUMBER "2") (tok .TOKEN_BANG "!")
      rfl rfl rfl rfl rfl (by decide)).1, rfl⟩,
    ⟨_, (unary_binds_tighter idle Chunk.empty 1 (tok .TOKEN_MINUS "-") (tok .TOKEN_NUMBER "1")
      (tok .TOKEN_LESS "<") (tok .TOKEN_NUMBER "2") (tok .TOKEN_BANG "!")
      rfl rfl rfl rfl rfl (by decide)).2, rfl⟩⟩

/-! ## C3: the returned flag -/

/-- The flag of the runs that return: `compile` never stops for want of
fuel, and whenever it returns, it returns `false` if and only if at least one
error was raised during the run (through `errorAt`, which every scanner and
parser error goes through) and `true` if and only if none was; the first
error raised is the one that is printed. -/
theorem compile_false_iff_error_fired (g : State) (source : Scanner) (chunk : Chunk) :
    compile g source chunk ≠ .error .outOfFuel ∧
    ∀ b s, compile g source chunk = .ok (b, s) →
      (b = false ↔ s.raised ≠ g.raised) ∧ (b = true ↔ s.raised = g.raised) ∧
      (s.raised ≠ g.raised →
        ∃ r rest, s.raised = g.raised ++ r :: rest ∧ s.stderr = g.stderr ++ [r]) := by
  refine ⟨compile_ne_outOfFuel g source chunk, fun b s h => ?_⟩
  have hinv := errInv_compile g source chunk b s h
  have hb := compile_flag g source chunk b s h
  have hiff := errInv_raised_ne_iff hinv
  refine ⟨?_, ?_, fun hne => hinv.2.2 (hiff.mp hne)⟩
  · rw [hb, hiff]; simp
  · rw [hb]
    by_cases hr : s.raised = g.raised
    · have hh : s.parser.hadError = false := by
        by_contra hc
        exact (hiff.mpr (by simpa using hc)) hr
      simp [hh, hr]
    · simp [hiff.mp hr, hr]

theorem compile_false_iff_error_fired_witness :
    (∃ s, compile idle srcOneEqualTwo Chunk.empty = .ok (false, s) ∧ s.raised ≠ idle.raised) ∧
    (∃ s, compile idle srcOnePlusTwoTimesThree Chunk.empty = .ok (true, s)
      ∧ s.raised = idle.raised) :=
  ⟨⟨_, rfl, ((compile_false_iff_error_fired idle srcOneEqualTwo Chunk.empty).2 false _ rfl).1.mp
      rfl⟩,
    ⟨_, rfl, ((compile_false_iff_error_fired idle srcOnePlusTwoTimesThree Chunk.empty).2
      true _ rfl).2.1.mp rfl⟩⟩

/-- C3, the code breaks the claim: a run that reaches the call of a `NULL`
infix handler returns neither `true` nor `false`. On the source `@ 1 ( 2` the
scanner error is raised and printed and `hadError` is set, the loop of
`parsePrecedence` then advances over `(`, whose infix handler is `NULL`, and
`compile` stops at that call: an error fired and `compile` does not return
`false`. On `1 ( 2` no error is raised before the same call: none fired and
`compile` does not return `true`. -/
theorem error_flag_lost_at_null_call :
    (compile idle srcErrorOneParenTwo Chunk.empty = .error .nullCall
        ∧ parsePrecedence (srcErrorOneParenTwo.tokens.length + 1) PREC_ASSIGNMENT
            (advance (start idle srcErrorOneParenTwo Chunk.empty))
          = infixLoop (parsePrecedence srcErrorOneParenTwo.tokens.length)
              srcErrorOneParenTwo.tokens.length PREC_ASSIGNMENT
              (number (advance (advance (start idle srcErrorOneParenTwo Chunk.empty))))
        ∧ PREC_ASSIGNMENT ≤ (getRule (number (advance (advance
            (start idle srcErrorOneParenTwo Chunk.empty)))).parser.current.type).precedence
        ∧ (atFirstInfixCall srcErrorOneParenTwo).parser.previous = tok .TOKEN_LEFT_PAREN "("
        ∧ (getRule (atFirstInfixCall srcErrorOneParenTwo).parser.previous.type).infixFn = none
        ∧ (atFirstInfixCall srcErrorOneParenTwo).parser.hadError = true
        ∧ (atFirstInfixCall srcErrorOneParenTwo).raised
          = [⟨1, .nowhere, "Unexpected character.".toList⟩]
        ∧ (atFirstInfixCall srcErrorOneParenTwo).stderr
          = [⟨1, .nowhere, "Unexpected character.".toList⟩])
      ∧ (compile idle srcOneParenTwo Chunk.empty = .error .nullCall
        ∧ parsePrecedence (srcOneParenTwo.tokens.length + 1) PREC_ASSIGNMENT
            (advance (start idle srcOneParenTwo Chunk.empty))
          = infixLoop (parsePrecedence srcOneParenTwo.tokens.length)
              srcOneParenTwo.tokens.length PREC_ASSIGNMENT
              (number (advance (advance (start idle srcOneParenTwo Chunk.empty))))
        ∧ PREC_ASSIGNMENT ≤ (getRule (number (advance (advance
            (start idle srcOneParenTwo Chunk.empty)))).parser.current.type).precedence
        ∧ (atFirstInfixCall srcOneParenTwo).parser.previous = tok .TOKEN_LEFT_PAREN "("
        ∧ (getRule (atFirstInfixCall srcOneParenTwo).parser.previous.type).infixFn = none
        ∧ (atFirstInfixCall srcOneParenTwo).parser.hadError = false
        ∧ (atFirstInfixCall srcOneParenTwo).raised = []
        ∧ (atFirstInfixCall srcOneParenTwo).stderr = []) :=
  ⟨⟨rfl, rfl, by decide, rfl, rfl, rfl, rfl, rfl⟩,
    ⟨rfl, rfl, by decide, rfl, rfl, rfl, rfl, rfl⟩⟩

/-! ## C4: scanner errors -/

/-- C4, as the code has it: for every token stream that holds an error token
before its first end-of-file token, `compile`, whenever it returns, returns
`false`. `advance` skips every error token it reads and raises it through
`errorAtCurrent` with the token's message payload; the message is printed
only for the first of them and only if the parser is not yet in panic mode,
the others are suppressed. `advance` never leaves an error token in
`parser.current`, and when `compile` returns `true` the scanner has handed
out the stream up to an end-of-file token (or all of it), no error token
among what it handed out, and the last token consumed is the end of file. -/
theorem scanner_error_fails_compile (g : State) (pre post : List Token) (e : Token)
    (eofLine : Nat) (chunk : Chunk) (b : Bool) (s s0 : State) (errs : List Token) (t : Token)
    (rest : List Token)
    (he : e.type = .TOKEN_ERROR) (hpre : ∀ x ∈ pre, x.type ≠ .TOKEN_EOF)
    (h : compile g ⟨pre ++ e :: post, eofLine⟩ chunk = .ok (b, s))
    (herrs : ∀ x ∈ errs, x.type = .TOKEN_ERROR) (ht : t.type ≠ .TOKEN_ERROR)
    (hs0 : s0.scanner.tokens = errs ++ t :: rest) :
    b = false
      ∧ ((advance s0).parser.current = t ∧ (advance s0).scanner.tokens = rest
        ∧ (advance s0).raised = s0.raised ++ errs.map scannerReport
        ∧ (advance s0).stderr
          = s0.stderr ++ (if s0.parser.panicMode then [] else (errs.take 1).map scannerReport))
      ∧ (∀ s1 : State, (advance s1).parser.current.type ≠ .TOKEN_ERROR)
      ∧ (∀ toks l s2, compile g ⟨toks, l⟩ chunk = .ok (true, s2) →
          s2.parser.previous.type = .TOKEN_EOF ∧
          ∃ consumed, toks = consumed ++ s2.scanner.tokens
            ∧ (∀ x ∈ consumed, x.type ≠ .TOKEN_ERROR)
            ∧ (s2.scanner.tokens = [] ∨ ∃ x ∈ consumed, x.type = .TOKEN_EOF)) := by
  refine ⟨?_, ?_, fun s1 => advanceLoop_current_ne_error _ _,
    fun toks l s2 h2 => compile_true_reads g toks l chunk s2 h2⟩
  · cases b with
    | false => rfl
    | true =>
      exfalso
      obtain ⟨_, consumed, h1, h2, h3⟩ := compile_true_reads g _ eofLine chunk s h
      have hmem : e ∈ consumed → False := fun hm => h2 e hm he
      rcases List.append_eq_append_iff.mp h1 with ⟨a, ha, hb⟩ | ⟨c, hc, hd⟩
      · cases a with
        | nil =>
          simp only [List.append_nil] at ha
          rcases h3 with hnil | ⟨x, hx, hxe⟩
          · rw [hnil] at hb
            simp at hb
          · exact hpre x (by rw [← ha]; exact hx) hxe
        | cons a0 a =>
          have : e = a0 := (List.cons_eq_cons.mp hb).1
          exact hmem (by rw [ha, this]; simp)
      · rcases h3 with hnil | ⟨x, hx, hxe⟩
        · rw [hnil] at hd
          have := congrArg List.length hd
          simp at this
          omega
        · exact hpre x (by rw [hc]; exact List.mem_append_left _ hx) hxe
  · unfold advance
    have := advanceLoop_skips errs t rest herrs ht
      { s0 with parser := { s0.parser with previous := s0.parser.current } }
    rw [hs0]
    exact this

theorem scanner_error_fails_compile_witness :
    false = false
      ∧ ((advance (start idle srcTwoErrorTokens Chunk.empty)).parser.current = tok .TOKEN_NUMBER "2"
        ∧ (advance (start idle srcTwoErrorTokens Chunk.empty)).scanner.tokens = []
        ∧ (advance (start idle srcTwoErrorTokens Chunk.empty)).raised
          = [] ++ [tok .TOKEN_ERROR "Unexpected character.",
              tok .TOKEN_ERROR "Unexpected character."].map scannerReport
        ∧ (advance (start idle srcTwoErrorTokens Chunk.empty)).stderr
          = [] ++ (if false then [] else
              ([tok .TOKEN_ERROR "Unexpected character.",
                tok .TOKEN_ERROR "Unexpected character."].take 1).map scannerReport))
      ∧ (∀ s1 : State, (advance s1).parser.current.type ≠ .TOKEN_ERROR)
      ∧ (∀ toks l s2, compile idle ⟨toks, l⟩ Chunk.empty = .ok (true, s2) →
          s2.parser.previous.type = .TOKEN_EOF ∧
          ∃ consumed, toks = consumed ++ s2.scanner.tokens
            ∧ (∀ x ∈ consumed, x.type ≠ .TOKEN_ERROR)
            ∧ (s2.scanner.tokens = [] ∨ ∃ x ∈ consumed, x.type = .TOKEN_EOF)) :=
  scanner_error_fails_compile idle [] [tok .TOKEN_ERROR "Unexpected character.",
      tok .TOKEN_NUMBER "2"] (tok .TOKEN_ERROR "Unexpected character.") 1 Chunk.empty false _
    (start idle srcTwoErrorTokens Chunk.empty)
    [tok .TOKEN_ERROR "Unexpected character.", tok .TOKEN_ERROR "Unexpected character."]
    (tok .TOKEN_NUMBER "2") [] rfl (by simp) rfl (by simp [tok]) (by decide) rfl

/-- C4, the claim as stated fails: on the source `@#2` `advance` reads two
error tokens in a row and skips both, but only the first is reported: the
second is raised in panic mode and suppressed. -/
theorem second_scanner_error_suppressed :
    (advance (start idle srcTwoErrorTokens Chunk.empty)).raised
        = [⟨1, .nowhere, "Unexpected character.".toList⟩,
            ⟨1, .nowhere, "Unexpected character.".toList⟩]
      ∧ (advance (start idle srcTwoErrorTokens Chunk.empty)).stderr
        = [⟨1, .nowhere, "Unexpected character.".toList⟩]
      ∧ ∃ s, compile idle srcTwoErrorTokens Chunk.empty = .ok (false, s)
        ∧ s.stderr = [⟨1, .nowhere, "Unexpected character.".toList⟩] :=
  ⟨rfl, rfl, _, rfl, rfl⟩

/-! ## C5: a token without a prefix handler -/

/-- C5, as the code has it: `parsePrecedence` advances once and then, if the
token just consumed has no prefix handler in the rule table, it raises
"Expect expression." at that token through `error` and returns at once: no
byte is written and no infix handler runs. The error is printed unless the
parser is already in panic mode, in which case it is suppressed. `compile` on
a stream whose first token (after `advance` skipped the error tokens) has no
prefix handler returns `false` and writes only `OP_RETURN`. -/
theorem parsePrecedence_expect_expression (n prec : Nat) (s g : State) (source : Scanner)
    (chunk : Chunk)
    (h : (getRule (advance s).parser.previous.type).prefixFn = none)
    (hc : (getRule (advance (advance (start g source chunk))).parser.previous.type).prefixFn
      = none) :
    parsePrecedence (n + 1) prec s = .ok (error msgExpectExpression (advance s))
      ∧ (error msgExpectExpression (advance s)).compilingChunk = s.compilingChunk
      ∧ (error msgExpectExpression (advance s)).raised
        = (advance s).raised ++ [reportOf s.parser.current msgExpectExpression]
      ∧ ((advance s).parser.panicMode = false →
          (error msgExpectExpression (advance s)).stderr
            = (advance s).stderr ++ [reportOf s.parser.current msgExpectExpression])
      ∧ ((advance s).parser.panicMode = true →
          (error msgExpectExpression (advance s)).stderr = (advance s).stderr)
      ∧ ∃ s2, compile g source chunk = .ok (false, s2)
          ∧ s2.compilingChunk.aryB = chunk.aryB ++ [OpCode.OP_RETURN.toByte] := by
  refine ⟨?_, ?_, ?_, ?_, ?_, ?_⟩
  · simp only [parsePrecedence, h]
  · rw [error, (errorAt_parser_tokens _ _ _).2.2.2, advance_chunk]
  · rw [error, errorAt_raised, advance_previous]
  · intro hp
    simp only [error, errorAt, hp, advance_previous]
    simp
  · intro hp
    simp only [error, errorAt, hp]
    simp
  · have hpp : parsePrecedence (source.tokens.length + 1) PREC_ASSIGNMENT
        (advance (start g source chunk))
        = .ok (error msgExpectExpression (advance (advance (start g source chunk)))) := by
      simp only [parsePrecedence, hc]
    have hinv : ErrInv g (advance (advance (start g source chunk))) :=
      (errInv_stable g).advance _ ((errInv_stable g).advance _ (errInv_start g source chunk))
    have herr : (error msgExpectExpression
        (advance (advance (start g source chunk)))).parser.hadError = true :=
      errorAt_hadError_of_inv g _ hinv _ _
    have hfin : (endCompiler (consume .TOKEN_EOF msgExpectEnd (error msgExpectExpression
        (advance (advance (start g source chunk)))))).parser.hadError = true :=
      stable_emitByte hadError_stable _ _ (stable_consume hadError_stable _ _ _ herr)
    refine ⟨endCompiler (consume .TOKEN_EOF msgExpectEnd (error msgExpectExpression
        (advance (advance (start g source chunk))))), ?_, ?_⟩
    · rw [compile_eq, hpp]
      simp only [hfin]
      rfl
    · show (writeChunk _ _ _).aryB = _
      rw [consume_chunk, error, (errorAt_parser_tokens _ _ _).2.2.2, advance_chunk,
        advance_chunk]
      rfl

theorem parsePrecedence_expect_expression_witness :
    parsePrecedence 1 PREC_ASSIGNMENT (advance (start idle ⟨[], 1⟩ Chunk.empty))
        = .ok (error msgExpectExpression (advance (advance (start idle ⟨[], 1⟩ Chunk.empty))))
      ∧ (error msgExpectExpression
          (advance (advance (start idle ⟨[], 1⟩ Chunk.empty)))).stderr
        = [⟨1, .atEnd, msgExpectExpression⟩]
      ∧ ∃ s2, compile idle ⟨[], 1⟩ Chunk.empty = .ok (false, s2)
          ∧ s2.compilingChunk.aryB = Chunk.empty.aryB ++ [OpCode.OP_RETURN.toByte] :=
  ⟨(parsePrecedence_expect_expression 0 PREC_ASSIGNMENT (advance (start idle ⟨[], 1⟩ Chunk.empty))
      idle ⟨[], 1⟩ Chunk.empty rfl rfl).1,
    rfl,
    (parsePrecedence_expect_expression 0 PREC_ASSIGNMENT (advance (start idle ⟨[], 1⟩ Chunk.empty))
      idle ⟨[], 1⟩ Chunk.empty rfl rfl).2.2.2.2.2⟩

/-- C5, the claim as stated fails: on the source `)@` the token `)` has no
prefix handler, but the scanner error for `@` is read first and puts the
parser in panic mode, so "Expect expression." is raised and not printed: the
only line on standard error is the scanner's message. -/
theorem expect_expression_suppressed :
    (getRule (advance (advance (start idle srcParenThenError Chunk.empty))).parser.previous.type).prefixFn
        = none
      ∧ ∃ s, compile idle srcParenThenError Chunk.empty = .ok (false, s)
        ∧ s.stderr = [⟨1, .nowhere, "Unexpected character.".toList⟩]
        ∧ s.raised = [⟨1, .nowhere, "Unexpected character.".toList⟩,
            ⟨1, .atLexeme [')'], msgExpectExpression⟩] :=
  ⟨rfl, _, rfl, rfl, rfl⟩

/-! ## C6: the infix handler -/

/-- C6, the code breaks the claim: `(` has the table precedence `PREC_CALL`
and no infix handler (so have `.`, `and`, `or`), the loop condition of
`parsePrecedence` holds for it at every precedence up to `PREC_CALL`, and on
the source `1 ( 2` the loop advances over `(` and calls the `NULL` handler. -/
theorem infix_call_through_null :
    compile idle srcOneParenTwo Chunk.empty = .error .nullCall
      ∧ (PREC_NONE < (getRule .TOKEN_LEFT_PAREN).precedence
        ∧ (getRule .TOKEN_LEFT_PAREN).infixFn = none)
      ∧ (PREC_NONE < (getRule .TOKEN_DOT).precedence ∧ (getRule .TOKEN_DOT).infixFn = none)
      ∧ (PREC_NONE < (getRule .TOKEN_AND).precedence ∧ (getRule .TOKEN_AND).infixFn = none)
      ∧ (PREC_NONE < (getRule .TOKEN_OR).precedence ∧ (getRule .TOKEN_OR).infixFn = none) :=
  ⟨rfl, ⟨by decide, rfl⟩, ⟨by decide, rfl⟩, ⟨by decide, rfl⟩, ⟨by decide, rfl⟩⟩

/-! ## C7: `=` after an expression -/

/-- C7, as the code has it: when the top-level expression is followed by an
unconsumed `=` token, `compile` raises "Expect end of expression." at the `=`
(printed unless the parser is already in panic mode) and returns `false`;
inside parentheses the error raised at the `=` is "Expect ')' after
expression.". There is no "Invalid assignment target" error. -/
theorem equal_after_expression (g : State) (source : Scanner) (chunk : Chunk) (s2 : State)
    (pp : Nat → State → Except Fault State) (s s1 : State)
    (h : parsePrecedence (source.tokens.length + 1) PREC_ASSIGNMENT
      (advance (start g source chunk)) = .ok s2)
    (heq : s2.parser.current.type = .TOKEN_EQUAL)
    (hg : pp PREC_ASSIGNMENT s = .ok s1) (hgeq : s1.parser.current.type = .TOKEN_EQUAL) :
    (∃ s3, compile g source chunk = .ok (false, s3)
        ∧ s3.raised
          = s2.raised ++ [⟨s2.parser.current.line, .atLexeme s2.parser.current.lexeme, msgExpectEnd⟩]
        ∧ (s2.parser.panicMode = false →
          s3.stderr = s2.stderr
            ++ [⟨s2.parser.current.line, .atLexeme s2.parser.current.lexeme, msgExpectEnd⟩]))
      ∧ grouping pp s = .ok (errorAtCurrent msgExpectParen s1)
      ∧ (errorAtCurrent msgExpectParen s1).raised
        = s1.raised ++ [⟨s1.parser.current.line, .atLexeme s1.parser.current.lexeme, msgExpectParen⟩] := by
  have hrep : ∀ (t : Token) (msg : List Char), t.type = .TOKEN_EQUAL →
      reportOf t msg = ⟨t.line, .atLexeme t.lexeme, msg⟩ := by
    intro t msg ht
    simp [reportOf, ht]
  have hinv : ErrInv g s2 := by
    have hk := stable_parsePrecedence (errInv_stable g) (source.tokens.length + 1)
      PREC_ASSIGNMENT _ ((errInv_stable g).advance _ (errInv_start g source chunk))
    rw [h] at hk
    exact hk
  have hcons : consume .TOKEN_EOF msgExpectEnd s2 = errorAtCurrent msgExpectEnd s2 := by
    simp [consume, heq]
  refine ⟨⟨endCompiler (errorAtCurrent msgExpectEnd s2), ?_, ?_, ?_⟩, ?_, ?_⟩
  · have hfin : (endCompiler (errorAtCurrent msgExpectEnd s2)).parser.hadError = true :=
      stable_emitByte hadError_stable _ _ (errorAt_hadError_of_inv g _ hinv _ _)
    rw [compile_eq, h]
    simp only [hcons, hfin]
    rfl
  · show (errorAtCurrent msgExpectEnd s2).raised = _
    rw [errorAtCurrent, errorAt_raised, hrep _ _ heq]
  · intro hp
    show (errorAtCurrent msgExpectEnd s2).stderr = _
    simp only [errorAtCurrent, errorAt, hp, hrep _ _ heq]
    simp
  · simp [grouping, expression, hg, bind, Except.bind, consume, hgeq, pure, Except.pure]
  · rw [errorAtCurrent, errorAt_raised, hrep _ _ hgeq]

theorem equal_after_expression_witness :
    (∃ s3, compile idle srcOneEqualTwo Chunk.empty = .ok (false, s3)
      ∧ s3.raised = [⟨1, .atLexeme ['='], msgExpectEnd⟩]
      ∧ (false = false → s3.stderr = [⟨1, .atLexeme ['='], msgExpectEnd⟩]))
    ∧ grouping (parsePrecedence 3) (advance (advance (start idle srcParenOneEqualTwo Chunk.empty)))
      = .ok (errorAtCurrent msgExpectParen
          (number (advance (advance (advance (start idle srcParenOneEqualTwo Chunk.empty))))))
    ∧ (errorAtCurrent msgExpectParen
          (number (advance (advance (advance (start idle srcParenOneEqualTwo Chunk.empty)))))).raised
      = [⟨1, .atLexeme ['='], msgExpectParen⟩] :=
  equal_after_expression idle srcOneEqualTwo Chunk.empty
    (number (advance (advance (start idle srcOneEqualTwo Chunk.empty)))) (parsePrecedence 3)
    (advance (advance (start idle srcParenOneEqualTwo Chunk.empty)))
    (number (advance (advance (advance (start idle srcParenOneEqualTwo Chunk.empty)))))
    rfl rfl rfl rfl

/-- C7, the claim as stated fails: on `1 = 2` the one error raised and
printed is "Expect end of expression." at `=`, not "Invalid assignment
target". -/
theorem no_invalid_assignment_target :
    ∃ s, compile idle srcOneEqualTwo Chunk.empty = .ok (false, s)
      ∧ s.raised = [⟨1, .atLexeme ['='], msgExpectEnd⟩]
      ∧ s.stderr = [⟨1, .atLexeme ['='], msgExpectEnd⟩]
      ∧ msgExpectEnd ≠ "Invalid assignment target".toList :=
  ⟨_, rfl, rfl, rfl, by decide⟩

/-! ## C8: panic mode -/

/-- C8, as the code has it: once an error has put the parser in panic mode,
panic mode is never left for the rest of the run, whatever tokens follow (a
`;` and the statement keywords included): a parse started in panic mode ends
in panic mode and prints nothing. So a `compile` call prints at most one
error, the first one raised. -/
theorem panic_mode_is_never_left (g : State) (source : Scanner) (chunk : Chunk) (b : Bool)
    (s : State) (n prec : Nat) (s0 s1 : State)
    (h : compile g source chunk = .ok (b, s))
    (hp : s0.parser.panicMode = true) (hpp : parsePrecedence n prec s0 = .ok s1) :
    (s1.parser.panicMode = true ∧ s1.stderr = s0.stderr)
      ∧ ((advance s0).parser.panicMode = true ∧ (advance s0).stderr = s0.stderr)
      ∧ (s.stderr = g.stderr ∨ ∃ r, s.stderr = g.stderr ++ [r]) := by
  refine ⟨?_, (panicMode_stable s0.stderr).advance s0 ⟨hp, rfl⟩,
    compile_stderr_cases g source chunk b s h⟩
  have hk := stable_parsePrecedence (panicMode_stable s0.stderr) n prec s0 ⟨hp, rfl⟩
  rw [hpp] at hk
  exact hk

theorem panic_mode_is_never_left_witness :
    panicked.parser.panicMode = true
      ∧ parsePrecedence 1 PREC_ASSIGNMENT panicked
        = .ok (error msgExpectExpression (advance panicked))
      ∧ ((error msgExpectExpression (advance panicked)).parser.panicMode = true
        ∧ (error msgExpectExpression (advance panicked)).stderr = panicked.stderr)
      ∧ ((advance panicked).parser.panicMode = true ∧ (advance panicked).stderr = panicked.stderr)
      ∧ ((endCompiler (errorAtCurrent msgExpectEnd (error msgExpectExpression
            (advance (advance (start idle srcTwoErrors Chunk.empty)))))).stderr = idle.stderr
          ∨ ∃ r, (endCompiler (errorAtCurrent msgExpectEnd (error msgExpectExpression
            (advance (advance (start idle srcTwoErrors Chunk.empty)))))).stderr
              = idle.stderr ++ [r]) :=
  ⟨rfl, rfl, panic_mode_is_never_left idle srcTwoErrors Chunk.empty false _ 1 PREC_ASSIGNMENT
    panicked _ rfl rfl rfl⟩

/-- C8, the claim as stated fails: on `) ; )` the second `)` comes after the
`;`, yet the parser is still in panic mode there and one error is printed of
the two raised; and no source at all makes one `compile` call print two. -/
theorem no_recovery_at_semicolon :
    (∃ s, compile idle srcTwoErrors Chunk.empty = .ok (false, s)
        ∧ s.parser.panicMode = true
        ∧ s.raised.length = 2
        ∧ s.stderr = [⟨1, .atLexeme [')'], msgExpectExpression⟩])
      ∧ ¬ ∃ g source chunk b s, compile g source chunk = .ok (b, s)
        ∧ g.stderr.length + 2 ≤ s.stderr.length := by
  refine ⟨⟨_, rfl, rfl, rfl, rfl⟩, ?_⟩
  rintro ⟨g, source, chunk, b, s, h, hlen⟩
  rcases compile_stderr_cases g source chunk b s h with e | ⟨r, e⟩ <;>
    · rw [e] at hlen
      simp at hlen

/-! ## C9: determinism -/

/-- C9: `compile` is a function of the token stream and the initial chunk
alone: whatever state `g1` or `g2` an earlier call left in the globals
(`hadError`, `panicMode`, the previous and current token, the old chunk
pointer, the old scanner), the two runs end the same way, return the same
flag, leave the same chunk and the same parser, and add the same lines to
standard error; so whatever is computed from the chunk, the disassembly
included, is the same. -/
theorem compile_deterministic (g1 g2 : State) (source : Scanner) (chunk : Chunk) :
    (compile g1 source chunk).map outcome = (compile g2 source chunk).map outcome
      ∧ (∀ (α : Type) (disassemble : Chunk → α),
          (compile g1 source chunk).map (fun x => disassemble x.2.compilingChunk)
            = (compile g2 source chunk).map (fun x => disassemble x.2.compilingChunk))
      ∧ ∃ run : Except Fault (Bool × State),
          compile g1 source chunk = run.map (fun x => (x.1, relog g1.stderr g1.raised x.2))
          ∧ compile g2 source chunk = run.map (fun x => (x.1, relog g2.stderr g2.raised x.2)) := by
  have h1 := compile_relog g1 source chunk
  have h2 := compile_relog g2 source chunk
  refine ⟨?_, fun α d => ?_, compile idle source chunk, h1, h2⟩
  · rw [h1, h2]
    cases compile idle source chunk <;> rfl
  · rw [h1, h2]
    cases compile idle source chunk <;> rfl

/-! ## C10: long operands -/

/-- C10: long operands are decoded big-endian: when the code array holds the
bytes `b0`, `b1`, `b2` at `offset`, `offset + 1`, `offset + 2`, `readU24`
returns `b0 * 65536 + b1 * 256 + b2`, a value below `2 ^ 24`; `getConstant`
in long mode returns that value and moves the offset on by 3, and in short
mode returns `b0` and moves the offset on by 1. -/
theorem readU24_big_endian (chunk : Chunk) (offset : Nat) (b0 b1 b2 : Byte)
    (h0 : chunk.aryB[offset]? = some b0) (h1 : chunk.aryB[offset + 1]? = some b1)
    (h2 : chunk.aryB[offset + 2]? = some b2) :
    readU24 chunk offset = some (b0.val * 65536 + b1.val * 256 + b2.val)
      ∧ b0.val * 65536 + b1.val * 256 + b2.val < 2 ^ 24
      ∧ getConstant chunk true offset
        = some (b0.val * 65536 + b1.val * 256 + b2.val, offset + 3)
      ∧ getConstant chunk false offset = some (b0.val, offset + 1) := by
  have l0 := b0.isLt
  have l1 := b1.isLt
  have l2 := b2.isLt
  have e1 : (b0.val <<< 8) % 2 ^ 32 = b0.val * 256 := by
    rw [Nat.shiftLeft_eq]
    exact Nat.mod_eq_of_lt (by omega)
  have e2 : ((b0.val * 256 ||| b1.val) <<< 8) % 2 ^ 32 = (b0.val * 256 + b1.val) * 256 := by
    have : b0.val * 256 ||| b1.val = b0.val * 256 + b1.val := by
      have := shift_or_byte b0.val b1.val l1
      rwa [Nat.shiftLeft_eq] at this
    rw [this, Nat.shiftLeft_eq]
    exact Nat.mod_eq_of_lt (by omega)
  have e3 : (b0.val * 256 + b1.val) * 256 ||| b2.val
      = b0.val * 65536 + b1.val * 256 + b2.val := by
    have := shift_or_byte (b0.val * 256 + b1.val) b2.val l2
    rw [Nat.shiftLeft_eq] at this
    rw [show (2 : Nat) ^ 8 = 256 from rfl] at this
    rw [this]
    ring
  have hr : readU24 chunk offset = some (b0.val * 65536 + b1.val * 256 + b2.val) := by
    simp only [readU24, h0, h1, h2, Option.bind_eq_bind, Option.some_bind, e1, e2, e3,
      Option.pure_def]
  refine ⟨hr, by omega, ?_, ?_⟩
  · simp [getConstant, hr]
  · simp [getConstant, h0]

theorem readU24_big_endian_witness :
    readU24 ⟨[1, 2, 3, 4], [], []⟩ 1 = some (2 * 65536 + 3 * 256 + 4)
      ∧ 2 * 65536 + 3 * 256 + 4 < 2 ^ 24
      ∧ getConstant ⟨[1, 2, 3, 4], [], []⟩ true 1 = some (2 * 65536 + 3 * 256 + 4, 1 + 3)
      ∧ getConstant ⟨[1, 2, 3, 4], [], []⟩ false 1 = some (2, 1 + 1) :=
  readU24_big_endian ⟨[1, 2, 3, 4], [], []⟩ 1 2 3 4 rfl rfl rfl

/-! ## C11: jump operands -/

/-- C11: for a jump instruction at offset `o` whose operand bytes `b1`, `b2`
lie in the code array, the disassembler decodes `jump = b1 * 256 + b2`
(at most 65535), prints the target `o + 3 + jump` for `OP_JUMP` and
`OP_JUMP_IF_FALSE` and `o + 3 - jump` for `OP_LOOP`, and returns `o + 3`. -/
theorem jump_operand_big_endian (chunk : Chunk) (o : Nat) (op : OpCode) (b1 b2 : Byte)
    (hop : op = .OP_JUMP ∨ op = .OP_JUMP_IF_FALSE ∨ op = .OP_LOOP)
    (h0 : chunk.aryB[o]? = some op.toByte)
    (h1 : chunk.aryB[o + 1]? = some b1) (h2 : chunk.aryB[o + 2]? = some b2) :
    b1.val * 256 + b2.val ≤ 65535
      ∧ ∃ lead, disassembleInstruction chunk o
        = some (o + 3, [lead, .jump op.name o
            (if op = .OP_LOOP then (o : Int) + 3 - ((b1.val * 256 + b2.val : Nat) : Int)
              else (o : Int) + 3 + ((b1.val * 256 + b2.val : Nat) : Int))]) := by
  have l1 := b1.isLt
  have l2 := b2.isLt
  refine ⟨by omega, ?_⟩
  refine ⟨leadOf chunk o, ?_⟩
  rw [disassembleInstruction_eq chunk o _ h0, disassembleSwitch, ofByte_toByte]
  rcases hop with rfl | rfl | rfl <;>
    · simp only [OpCode.form, jumpInstruction_eq _ _ chunk o b1 b2 h1 h2, Option.map_some']
      simp
      try ring

theorem jump_operand_big_endian_witness :
    1 * 256 + 2 ≤ 65535
      ∧ ∃ lead, disassembleInstruction ⟨[OpCode.OP_LOOP.toByte, 1, 2], [], []⟩ 0
        = some (0 + 3, [lead, .jump "OP_LOOP" 0 (if OpCode.OP_LOOP = .OP_LOOP
            then ((0 : Nat) : Int) + 3 - ((1 * 256 + 2 : Nat) : Int)
            else ((0 : Nat) : Int) + 3 + ((1 * 256 + 2 : Nat) : Int))]) :=
  jump_operand_big_endian ⟨[OpCode.OP_LOOP.toByte, 1, 2], [], []⟩ 0 .OP_LOOP 1 2
    (Or.inr (Or.inr rfl)) rfl rfl rfl

/-! ## C12: instruction lengths -/

theorem long_counterpart (op : OpCode) (h : carriesShortIndex op = true) :
    ∃ l : OpCode, l.name = op.name ++ "_LONG" ∧ l.form = op.form.long ∧ l.form ≠ op.form := by
  cases op <;> simp [carriesShortIndex] at h
  · exact ⟨.OP_CONSTANT_LONG, by decide, rfl, by decide⟩
  · exact ⟨.OP_GET_LOCAL_LONG, by decide, rfl, by decide⟩
  · exact ⟨.OP_SET_LOCAL_LONG, by decide, rfl, by decide⟩
  · exact ⟨.OP_GET_GLOBAL_LONG, by decide, rfl, by decide⟩
  · exact ⟨.OP_DEFINE_GLOBAL_LONG, by decide, rfl, by decide⟩
  · exact ⟨.OP_SET_GLOBAL_LONG, by decide, rfl, by decide⟩
  · exact ⟨.OP_GET_UPVALUE_LONG, by decide, rfl, by decide⟩
  · exact ⟨.OP_SET_UPVALUE_LONG, by decide, rfl, by decide⟩
  · exact ⟨.OP_GET_PROPERTY_LONG, by decide, rfl, by decide⟩
  · exact ⟨.OP_SET_PROPERTY_LONG, by decide, rfl, by decide⟩
  · exact ⟨.OP_GET_SUPER_LONG, by decide, rfl, by decide⟩
  · exact ⟨.OP_INVOKE_LONG, by decide, rfl, by decide⟩
  · exact ⟨.OP_SUPER_INVOKE_LONG, by decide, rfl, by decide⟩
  · exact ⟨.OP_CLOSURE_LONG, by decide, rfl, by decide⟩
  · exact ⟨.OP_CLASS_LONG, by decide, rfl, by decide⟩
  · exact ⟨.OP_METHOD_LONG, by decide, rfl, by decide⟩

theorem disassembleSwitch_next (chunk : Chunk) (offset : Nat) (op : OpCode) (next : Nat)
    (out : List Printed)
    (h : disassembleSwitch chunk offset op.toByte = some (next, out)) :
    next = offset
      + tabulatedLength op (upvalueCountAt chunk offset (decide (op = .OP_CLOSURE_LONG))) := by
  rw [disassembleSwitch, ofByte_toByte] at h
  cases op <;> simp only [OpCode.form] at h <;>
    first
    | simpa [tabulatedLength, Nat.add_assoc] using constantInstruction_next _ _ _ _ _ _ h
    | simpa [tabulatedLength, Nat.add_assoc] using immediateInstruction_next _ _ _ _ _ _ h
    | simpa [tabulatedLength, Nat.add_assoc] using invokeInstruction_next _ _ _ _ _ _ h
    | (rw [(closureInstruction_next _ _ _ _ _ _ h).1]
       simp [tabulatedLength]
       omega)
    | (cases b1 : chunk.aryB[offset + 1]? with
       | none => simp [jumpInstruction, b1] at h
       | some v1 =>
         cases b2 : chunk.aryB[offset + 2]? with
         | none => simp [jumpInstruction, b1, b2] at h
         | some v2 =>
           rw [jumpInstruction_eq _ _ _ _ _ _ b1 b2] at h
           simp at h
           simp [tabulatedLength, ← h.1])
    | (simp [simpleInstruction] at h
       simp [tabulatedLength, ← h.1])

theorem ofByte_some {b : Byte} {op : OpCode} (h : OpCode.ofByte b = some op) : b = op.toByte := by
  obtain ⟨n, hn⟩ := b
  unfold OpCode.ofByte at h
  dsimp only at h
  split_ifs at h with hlt
  injection h with h
  subst h
  interval_cases n <;> rfl

/-- C12: when `disassembleInstruction` returns, it returns the offset plus
the encoded length of the instruction, as tabulated by opcode: 1 for the
opcodes without operand and for an unknown opcode; 2 for the short
constant, local and upvalue forms, `OP_POPN` and `OP_CALL`; 4 for every
`_LONG` constant, local and upvalue form; 3 for `OP_INVOKE` and
`OP_SUPER_INVOKE` and 5 for their `_LONG` forms; 3 for the three jumps; and
`1 + (1 or 3) + 2 * upvalueCount` for `OP_CLOSURE` and `OP_CLOSURE_LONG`. The
returned offset is strictly greater than the offset given, and every short
opcode that carries an index has a `_LONG` counterpart, handled by the same
function with `isLong` set. -/
theorem disassembleInstruction_length (chunk : Chunk) (offset next : Nat) (out : List Printed)
    (b : Byte) (hb : chunk.aryB[offset]? = some b)
    (h : disassembleInstruction chunk offset = some (next, out)) :
    offset < next
      ∧ (match OpCode.ofByte b with
          | none => next = offset + 1
          | some op => next = offset
              + tabulatedLength op (upvalueCountAt chunk offset (decide (op = .OP_CLOSURE_LONG))))
      ∧ (∀ op, carriesShortIndex op = true →
          ∃ l : OpCode, l.name = op.name ++ "_LONG" ∧ l.form = op.form.long ∧ l.form ≠ op.form)
      ∧ ((OpCode.ofByte b = none ∨ ∃ op, OpCode.ofByte b = some op ∧ op.form = .simpleInstruction) →
          next = offset + 1) := by
  rw [disassembleInstruction_eq chunk offset b hb] at h
  have key : match OpCode.ofByte b with
      | none => next = offset + 1
      | some op => next = offset
          + tabulatedLength op (upvalueCountAt chunk offset (decide (op = .OP_CLOSURE_LONG))) := by
    cases hs : disassembleSwitch chunk offset b with
    | none => rw [hs] at h; cases h
    | some r =>
      obtain ⟨n, o⟩ := r
      rw [hs] at h
      simp at h
      cases ho : OpCode.ofByte b with
      | none =>
        simp [disassembleSwitch, ho] at hs
        dsimp only
        omega
      | some op =>
        dsimp only
        rw [ofByte_some ho] at hs
        rw [← h.1]
        exact disassembleSwitch_next chunk offset op n o hs
  refine ⟨?_, key, long_counterpart, ?_⟩
  · cases ho : OpCode.ofByte b with
    | none => rw [ho] at key; dsimp only at key; omega
    | some op =>
      rw [ho] at key
      dsimp only at key
      have : 0 < tabulatedLength op (upvalueCountAt chunk offset (decide (op = .OP_CLOSURE_LONG))) := by
        cases op <;> simp [tabulatedLength]
      omega
  · rintro (ho | ⟨op, ho, hf⟩)
    · rw [ho] at key; exact key
    · rw [ho] at key
      dsimp only at key
      rw [key]
      cases op <;> simp [OpCode.form] at hf <;> rfl

theorem disassembleInstruction_length_witness :
    0 < 4
      ∧ (match OpCode.ofByte OpCode.OP_CLOSURE.toByte with
          | none => 4 = 0 + 1
          | some op => 4 = 0 + tabulatedLength op
              (upvalueCountAt ⟨[OpCode.OP_CLOSURE.toByte, 0, 1, 7], [.OBJ_FUNCTION_VAL ⟨0, 1, []⟩], []⟩
                0 (decide (op = .OP_CLOSURE_LONG))))
      ∧ (∀ op, carriesShortIndex op = true →
          ∃ l : OpCode, l.name = op.name ++ "_LONG" ∧ l.form = op.form.long ∧ l.form ≠ op.form)
      ∧ ((OpCode.ofByte OpCode.OP_CLOSURE.toByte = none
          ∨ ∃ op, OpCode.ofByte OpCode.OP_CLOSURE.toByte = some op ∧ op.form = .simpleInstruction) →
          4 = 0 + 1) :=
  disassembleInstruction_length
    ⟨[OpCode.OP_CLOSURE.toByte, 0, 1, 7], [.OBJ_FUNCTION_VAL ⟨0, 1, []⟩], []⟩ 0 4
    [.offsetAndLine 0 (some 0), .constant "OP_CLOSURE" 0 (.OBJ_FUNCTION_VAL ⟨0, 1, []⟩),
      .upvalue 2 true 7]
    OpCode.OP_CLOSURE.toByte rfl rfl

/-! ## C13: the upvalue pairs of a closure instruction -/

theorem closureLoop_pairs (chunk : Chunk) (count : Nat) :
    ∀ (offset next : Nat) (out : List Printed),
      closureLoop chunk count offset = some (next, out) →
      ∀ j, j < count → ∃ l i : Byte,
        chunk.aryB[offset + 2 * j]? = some l ∧ chunk.aryB[offset + 2 * j + 1]? = some i
          ∧ out[j]? = some (.upvalue (offset + 2 * j) (decide (l.val ≠ 0)) i.val) := by
  induction count with
  | zero => intro offset next out _ j hj; omega
  | succ count ih =>
    intro offset next out h j hj
    simp only [closureLoop, Option.bind_eq_bind, Option.pure_def] at h
    cases h0 : chunk.aryB[offset]? with
    | none => rw [h0] at h; cases h
    | some b0 =>
      rw [h0] at h
      simp only [Option.some_bind] at h
      cases h1 : chunk.aryB[offset + 1]? with
      | none => rw [h1] at h; cases h
      | some b1 =>
        rw [h1] at h
        simp only [Option.some_bind] at h
        cases hr : closureLoop chunk count (offset + 1 + 1) with
        | none => rw [hr] at h; cases h
        | some r =>
          obtain ⟨n, o⟩ := r
          rw [hr] at h
          simp only [Option.some_bind, Option.some.injEq, Prod.mk.injEq] at h
          obtain ⟨-, rfl⟩ := h
          cases j with
          | zero => exact ⟨b0, b1, by simpa using h0, by simpa using h1, by simp⟩
          | succ j =>
            obtain ⟨l, i, e1, e2, e3⟩ := ih _ _ _ hr j (by omega)
            have a1 : offset + 2 * (j + 1) = offset + 1 + 1 + 2 * j := by omega
            refine ⟨l, i, ?_, ?_, ?_⟩
            · rw [a1]; exact e1
            · rw [a1]; exact e2
            · rw [a1]; simpa using e3

/-- C13, as the code has it: for `OP_CLOSURE` and for `OP_CLOSURE_LONG`
alike, whenever the disassembler returns, it has decoded each of the
`upvalueCount` pairs as a 1-byte `is_local` followed by a 1-byte index: pair
`j` is read at `base + 2 * j` and `base + 2 * j + 1`, where `base` is the
offset after the function constant (1 byte in the short form, 3 bytes in the
long one), it is printed with that offset, and the offset returned is
`base + 2 * upvalueCount`. The long form widens the constant index only. -/
theorem closure_pairs_are_two_bytes (chunk : Chunk) (offset next : Nat) (out : List Printed)
    (op : OpCode) (hop : op = .OP_CLOSURE ∨ op = .OP_CLOSURE_LONG)
    (h0 : chunk.aryB[offset]? = some op.toByte)
    (h : disassembleInstruction chunk offset = some (next, out)) :
    next = offset + 1 + (if op = .OP_CLOSURE_LONG then 3 else 1)
        + 2 * upvalueCountAt chunk offset (decide (op = .OP_CLOSURE_LONG))
      ∧ out.length = 2 + upvalueCountAt chunk offset (decide (op = .OP_CLOSURE_LONG))
      ∧ ∀ j, j < upvalueCountAt chunk offset (decide (op = .OP_CLOSURE_LONG)) →
          ∃ l i : Byte,
            chunk.aryB[offset + 1 + (if op = .OP_CLOSURE_LONG then 3 else 1) + 2 * j]? = some l
            ∧ chunk.aryB[offset + 1 + (if op = .OP_CLOSURE_LONG then 3 else 1) + 2 * j + 1]?
                = some i
            ∧ out[j + 2]? = some (.upvalue
                (offset + 1 + (if op = .OP_CLOSURE_LONG then 3 else 1) + 2 * j)
                (decide (l.val ≠ 0)) i.val) := by
  rw [disassembleInstruction_eq chunk offset _ h0, disassembleSwitch, ofByte_toByte] at h
  have key : ∀ isLong : Bool,
      (closureInstruction op.name chunk offset isLong).map
          (fun r => (r.1, leadOf chunk offset :: r.2)) = some (next, out) →
      next = offset + 1 + (if isLong then 3 else 1) + 2 * upvalueCountAt chunk offset isLong
        ∧ out.length = 2 + upvalueCountAt chunk offset isLong
        ∧ ∀ j, j < upvalueCountAt chunk offset isLong →
          ∃ l i : Byte,
            chunk.aryB[offset + 1 + (if isLong then 3 else 1) + 2 * j]? = some l
            ∧ chunk.aryB[offset + 1 + (if isLong then 3 else 1) + 2 * j + 1]? = some i
            ∧ out[j + 2]? = some (.upvalue (offset + 1 + (if isLong then 3 else 1) + 2 * j)
                (decide (l.val ≠ 0)) i.val) := by
    intro isLong h
    cases hc : closureInstruction op.name chunk offset isLong with
    | none => rw [hc] at h; cases h
    | some r =>
      obtain ⟨n, o⟩ := r
      rw [hc] at h
      simp only [Option.map_some', Option.some.injEq, Prod.mk.injEq] at h
      obtain ⟨rfl, rfl⟩ := h
      obtain ⟨e1, e2⟩ := closureInstruction_next _ _ _ _ _ _ hc
      refine ⟨e1, by simp [e2]; omega, ?_⟩
      intro j hj
      unfold closureInstruction at hc
      unfold upvalueCountAt at hj
      simp only [Option.bind_eq_bind, Option.pure_def] at hc
      cases hg : getConstant chunk isLong (offset + 1) with
      | none => rw [hg] at hc; cases hc
      | some r =>
        obtain ⟨c, o1⟩ := r
        have ho1 := getConstant_next _ _ _ _ _ hg
        rw [hg] at hc hj
        dsimp only at hj
        simp only [Option.some_bind] at hc
        cases hv : chunk.aryValConstants[c]? with
        | none => rw [hv] at hc; cases hc
        | some v =>
          rw [hv] at hc hj
          simp only [Option.some_bind] at hc
          cases v with
          | OBJ_FUNCTION_VAL f =>
            simp only [AS_FUNCTION, Option.some_bind] at hc
            dsimp only at hj
            cases hl : closureLoop chunk f.upvalueCount o1 with
            | none => rw [hl] at hc; cases hc
            | some r =>
              obtain ⟨n2, o2⟩ := r
              rw [hl] at hc
              simp only [Option.some_bind, Option.some.injEq, Prod.mk.injEq] at hc
              obtain ⟨-, rfl⟩ := hc
              obtain ⟨l, i, a1, a2, a3⟩ := closureLoop_pairs chunk _ _ _ _ hl j hj
              rw [ho1] at a1 a2 a3
              exact ⟨l, i, a1, a2, by simpa using a3⟩
          | NIL_VAL => simp [AS_FUNCTION] at hc
          | BOOL_VAL _ => simp [AS_FUNCTION] at hc
          | NUMBER_VAL _ => simp [AS_FUNCTION] at hc
          | OBJ_VAL _ => simp [AS_FUNCTION] at hc
  rcases hop with rfl | rfl
  · exact key false h
  · exact key true h

theorem closure_pairs_are_two_bytes_witness :
    6 = 0 + 1 + (if OpCode.OP_CLOSURE_LONG = .OP_CLOSURE_LONG then 3 else 1)
        + 2 * upvalueCountAt chunkClosureLong 0 (decide (OpCode.OP_CLOSURE_LONG = .OP_CLOSURE_LONG))
      ∧ [Printed.offsetAndLine 0 (some 1),
          .constant "OP_CLOSURE_LONG" 0 (.OBJ_FUNCTION_VAL ⟨0, 1, []⟩),
          .upvalue 4 true 0].length
        = 2 + upvalueCountAt chunkClosureLong 0 (decide (OpCode.OP_CLOSURE_LONG = .OP_CLOSURE_LONG))
      ∧ ∀ j, j < upvalueCountAt chunkClosureLong 0
            (decide (OpCode.OP_CLOSURE_LONG = .OP_CLOSURE_LONG)) →
          ∃ l i : Byte,
            chunkClosureLong.aryB[0 + 1
              + (if OpCode.OP_CLOSURE_LONG = .OP_CLOSURE_LONG then 3 else 1) + 2 * j]? = some l
            ∧ chunkClosureLong.aryB[0 + 1
              + (if OpCode.OP_CLOSURE_LONG = .OP_CLOSURE_LONG then 3 else 1) + 2 * j + 1]?
                = some i
            ∧ [Printed.offsetAndLine 0 (some 1),
                .constant "OP_CLOSURE_LONG" 0 (.OBJ_FUNCTION_VAL ⟨0, 1, []⟩),
                .upvalue 4 true 0][j + 2]? = some (.upvalue
                (0 + 1 + (if OpCode.OP_CLOSURE_LONG = .OP_CLOSURE_LONG then 3 else 1) + 2 * j)
                (decide (l.val ≠ 0)) i.val) :=
  closure_pairs_are_two_bytes chunkClosureLong 0 6
    [.offsetAndLine 0 (some 1), .constant "OP_CLOSURE_LONG" 0 (.OBJ_FUNCTION_VAL ⟨0, 1, []⟩),
      .upvalue 4 true 0]
    .OP_CLOSURE_LONG (Or.inr rfl) rfl rfl

/-- C13, the long form: on a chunk whose `OP_CLOSURE_LONG` pair is written
with a 3-byte index (`is_local` 1, index 5 as bytes 0, 0, 5),
`disassembleInstruction` decodes the pair as two bytes: it prints index 0 and
returns offset 6, in the middle of the pair, where the decoding the claim
describes gives index 5 and offset 8. -/
theorem closure_long_index_read_as_one_byte :
    disassembleInstruction chunkClosureLong 0
        = some (6, [.offsetAndLine 0 (some 1),
            .constant "OP_CLOSURE_LONG" 0 (.OBJ_FUNCTION_VAL ⟨0, 1, []⟩),
            .upvalue 4 true 0])
      ∧ closurePairsAsSpecified chunkClosureLong true 1 4 = some (8, [.upvalue 4 true 5]) := by
  constructor <;> rfl

/-! ## C14: scenario 1, `print 1 + 2 * 3;` -/

/-- C15: for a string token of length `n ≥ 2` (the previous token when
`string` runs), `string` emits through `emitConstant` the string object that
`copyString` builds from the `n - 2` characters after the first one: its
length is `n - 2` and its characters are the lexeme without its first and
its last character, so for a lexeme `q :: body ++ [q2]` exactly `body`, and
the empty string for the literal of two quotes. When the constant pool has
room the object is appended to the pool and nothing is raised. -/
theorem string_constant_between_quotes (s : State)
    (h : 2 ≤ s.parser.previous.lexeme.length) :
    string s
        = emitConstant (.OBJ_VAL (copyString (s.parser.previous.lexeme.drop 1)
            (s.parser.previous.lexeme.length - 2))) s
      ∧ copyString (s.parser.previous.lexeme.drop 1) (s.parser.previous.lexeme.length - 2)
        = ⟨s.parser.previous.lexeme.length - 2, s.parser.previous.lexeme.tail.dropLast⟩
      ∧ s.parser.previous.lexeme.tail.dropLast.length = s.parser.previous.lexeme.length - 2
      ∧ (∀ q q2 body, s.parser.previous.lexeme = q :: (body ++ [q2]) →
          copyString (s.parser.previous.lexeme.drop 1) (s.parser.previous.lexeme.length - 2)
            = ⟨body.length, body⟩)
      ∧ (s.parser.previous.lexeme.length = 2 →
          copyString (s.parser.previous.lexeme.drop 1) (s.parser.previous.lexeme.length - 2)
            = ⟨0, []⟩)
      ∧ (s.compilingChunk.aryValConstants.length < UINT24_COUNT →
          (string s).compilingChunk.aryValConstants
              = s.compilingChunk.aryValConstants
                ++ [.OBJ_VAL ⟨s.parser.previous.lexeme.length - 2,
                      s.parser.previous.lexeme.tail.dropLast⟩]
            ∧ (string s).raised = s.raised ∧ (string s).stderr = s.stderr) := by
  have hcopy : copyString (s.parser.previous.lexeme.drop 1) (s.parser.previous.lexeme.length - 2)
      = ⟨s.parser.previous.lexeme.length - 2, s.parser.previous.lexeme.tail.dropLast⟩ := by
    unfold copyString
    congr 1
    rw [List.dropLast_eq_take, List.drop_one, List.length_tail]
    rfl
  refine ⟨rfl, hcopy, by simp; omega, ?_, ?_, ?_⟩
  · intro q q2 body hl
    rw [hcopy, hl]
    simp
  · intro h2
    rw [hcopy, h2]
    congr 1
    apply List.eq_nil_of_length_eq_zero
    simp [h2]
  · intro hroom
    have e : string s = emitConstant (.OBJ_VAL (copyString (s.parser.previous.lexeme.drop 1)
            (s.parser.previous.lexeme.length - 2))) s := rfl
    rw [e, emitConstant_room _ _ hroom, hcopy]
    exact ⟨(writeConstant_room _ _ _ hroom).2, rfl, rfl⟩

theorem string_constant_between_quotes_witness :
    string (afterToken (stringToken "hi"))
        = emitConstant (.OBJ_VAL (copyString ((afterToken (stringToken "hi")).parser.previous.lexeme.drop 1)
            ((afterToken (stringToken "hi")).parser.previous.lexeme.length - 2)))
            (afterToken (stringToken "hi"))
      ∧ copyString ((afterToken (stringToken "hi")).parser.previous.lexeme.drop 1)
          ((afterToken (stringToken "hi")).parser.previous.lexeme.length - 2) = ⟨2, ['h', 'i']⟩
      ∧ (string (afterToken (stringToken "hi"))).compilingChunk.aryValConstants
          = [.OBJ_VAL ⟨2, ['h', 'i']⟩] :=
  ⟨(string_constant_between_quotes (afterToken (stringToken "hi")) (by decide)).1,
    (string_constant_between_quotes (afterToken (stringToken "hi")) (by decide)).2.2.2.1
      '"' '"' ['h', 'i'] rfl,
    ((string_constant_between_quotes (afterToken (stringToken "hi")) (by decide)).2.2.2.2.2
      (by decide)).1⟩

/-! ## C16: the stack discipline of the emitted code -/

/-- C16: for every token stream and every initial chunk on which `compile`
returns `true`, the code emitted between the initial code and the final
`OP_RETURN` is a well-formed postfix sequence under the stack accounting of
`stackStep`: run from an empty stack it never needs more operands than are on
the stack, at any of its prefixes, and it ends at an instruction boundary with
exactly one value more on the stack (and so from every starting depth). -/
theorem emitted_code_is_postfix (g : State) (source : Scanner) (chunk : Chunk) (s : State)
    (h : compile g source chunk = .ok (true, s)) :
    ∃ code, s.compilingChunk.aryB = chunk.aryB ++ code ++ [OpCode.OP_RETURN.toByte]
      ∧ stackRun (0, 0) code = some (0, 1)
      ∧ (∀ p, p <+: code → (stackRun (0, 0) p).isSome)
      ∧ (∀ d, stackRun (0, d) code = some (0, d + 1)) := by
  have hflag := compile_flag g source chunk true s h
  have herr : s.parser.hadError = false := by
    cases hh : s.parser.hadError with
    | false => rfl
    | true => rw [hh] at hflag; cases hflag
  rcases compile_ok_or_nullCall g source chunk with hn | ⟨s2, hpp, hc⟩
  · rw [hn] at h; cases h
  · rw [hc] at h
    simp only [Except.ok.injEq, Prod.mk.injEq] at h
    obtain ⟨-, rfl⟩ := h
    have h2 : s2.parser.hadError = false := by
      by_contra hcon
      have := stable_emitByte hadError_stable OpCode.OP_RETURN.toByte _
        (stable_consume hadError_stable .TOKEN_EOF msgExpectEnd s2 (by simpa using hcon))
      have e : (endCompiler (consume .TOKEN_EOF msgExpectEnd s2)).parser.hadError = true := this
      rw [e] at herr
      cases herr
    have hf0 : (advance (start g source chunk)).parser.panicMode
        = (advance (start g source chunk)).parser.hadError :=
      flags_stable.advance (start g source chunk) rfl
    obtain ⟨code, e, hcode⟩ := parsePrecedence_pushes _ _ _ _ hf0 hpp h2
    refine ⟨code, ?_, hcode 0, ?_, hcode⟩
    · show (consume .TOKEN_EOF msgExpectEnd s2).compilingChunk.aryB ++ [_] = _
      rw [consume_chunk, e, advance_chunk]
      rfl
    · intro p hp
      apply stackRun_prefix (0, 0) p code hp
      rw [hcode 0]
      rfl

theorem emitted_code_is_postfix_witness :
    ∃ code, [OpCode.OP_CONSTANT.toByte, 0, OpCode.OP_CONSTANT.toByte, 1,
          OpCode.OP_CONSTANT.toByte, 2, OpCode.OP_MULTIPLY.toByte, OpCode.OP_ADD.toByte,
          OpCode.OP_RETURN.toByte]
        = Chunk.empty.aryB ++ code ++ [OpCode.OP_RETURN.toByte]
      ∧ stackRun (0, 0) code = some (0, 1)
      ∧ (∀ p, p <+: code → (stackRun (0, 0) p).isSome)
      ∧ (∀ d, stackRun (0, d) code = some (0, d + 1)) :=
  emitted_code_is_postfix idle srcOnePlusTwoTimesThree Chunk.empty
    { idle with
      parser := ⟨eofToken 1, eofToken 1, false, false⟩
      scanner := ⟨[], 1⟩
      compilingChunk :=
        ⟨[OpCode.OP_CONSTANT.toByte, 0, OpCode.OP_CONSTANT.toByte, 1,
            OpCode.OP_CONSTANT.toByte, 2, OpCode.OP_MULTIPLY.toByte, OpCode.OP_ADD.toByte,
            OpCode.OP_RETURN.toByte],
          [.NUMBER_VAL ⟨['1']⟩, .NUMBER_VAL ⟨['2']⟩, .NUMBER_VAL ⟨['3']⟩], [(1, 9)]⟩ }
    rfl

/-! ## C17: `compile` appends to the chunk and closes it -/

/-- The chunk of the runs that return: for every token stream and every
initial chunk, a run of `compile` that returns, with `true` or with `false`,
leaves a chunk whose code is the initial code, followed by the code emitted
before and after any error, followed by the single byte `OP_RETURN`, and whose
constant pool has the initial pool as a prefix. The only runs that do not
return are those that stop at the call of a `NULL` infix handler. -/
theorem compile_appends_and_closes (g : State) (source : Scanner) (chunk : Chunk) :
    compile g source chunk = .error .nullCall
      ∨ ∃ b s code, compile g source chunk = .ok (b, s)
          ∧ s.compilingChunk.aryB = chunk.aryB ++ code ++ [OpCode.OP_RETURN.toByte]
          ∧ s.compilingChunk.aryB.getLast? = some OpCode.OP_RETURN.toByte
          ∧ chunk.aryValConstants <+: s.compilingChunk.aryValConstants := by
  rcases compile_ok_or_nullCall g source chunk with h | ⟨s2, hpp, h⟩
  · exact Or.inl h
  · right
    have hk := stable_parsePrecedence (aryB_prefix_stable chunk.aryB) (source.tokens.length + 1)
      PREC_ASSIGNMENT _ ((aryB_prefix_stable chunk.aryB).advance (start g source chunk)
        (List.prefix_refl _))
    have hc := stable_parsePrecedence (constants_prefix_stable chunk.aryValConstants)
      (source.tokens.length + 1) PREC_ASSIGNMENT _
      ((constants_prefix_stable chunk.aryValConstants).advance (start g source chunk)
        (List.prefix_refl _))
    rw [hpp] at hk hc
    obtain ⟨code, e⟩ := stable_consume (aryB_prefix_stable chunk.aryB) .TOKEN_EOF msgExpectEnd s2 hk
    have hc2 := stable_consume (constants_prefix_stable chunk.aryValConstants) .TOKEN_EOF
      msgExpectEnd s2 hc
    have hb : (endCompiler (consume .TOKEN_EOF msgExpectEnd s2)).compilingChunk.aryB
        = chunk.aryB ++ code ++ [OpCode.OP_RETURN.toByte] := by
      show (consume .TOKEN_EOF msgExpectEnd s2).compilingChunk.aryB ++ [_] = _
      rw [← e]
    refine ⟨_, _, code, h, hb, ?_, hc2⟩
    rw [hb]
    simp

/-- C17, the code breaks the claim: on the source `1 ( 2` and the empty chunk
`compile` emits the load of `1`, the loop of `parsePrecedence` advances over
`(` and calls its `NULL` infix handler, and the run stops there, before
`endCompiler`: the chunk is left as `OP_CONSTANT 0`, whose last byte is not
`OP_RETURN`, and `compile` returns neither `true` nor `false`. -/
theorem chunk_left_open_at_null_call :
    compile idle srcOneParenTwo Chunk.empty = .error .nullCall
      ∧ parsePrecedence (srcOneParenTwo.tokens.length + 1) PREC_ASSIGNMENT
          (advance (start idle srcOneParenTwo Chunk.empty))
        = infixLoop (parsePrecedence srcOneParenTwo.tokens.length)
            srcOneParenTwo.tokens.length PREC_ASSIGNMENT
            (number (advance (advance (start idle srcOneParenTwo Chunk.empty))))
      ∧ PREC_ASSIGNMENT ≤ (getRule (number (advance (advance
          (start idle srcOneParenTwo Chunk.empty)))).parser.current.type).precedence
      ∧ (getRule (atFirstInfixCall srcOneParenTwo).parser.previous.type).infixFn = none
      ∧ (atFirstInfixCall srcOneParenTwo).compilingChunk.aryB
        = [OpCode.OP_CONSTANT.toByte, 0]
      ∧ (atFirstInfixCall srcOneParenTwo).compilingChunk.aryB.getLast?
        ≠ some OpCode.OP_RETURN.toByte
      ∧ OpCode.OP_RETURN.toByte
        ∉ (atFirstInfixCall srcOneParenTwo).compilingChunk.aryB :=
  ⟨rfl, rfl, by decide, rfl, rfl, by decide, by decide⟩

/-! ## C18: the opcodes of a binary operator -/

/-- C18: when `binary` runs for a binary operator (the previous token) and
its call of `parsePrecedence` for the right operand returns, the right
operand's code `right` has been appended to the chunk and `binary` appends
the operator's opcodes after it: one opcode for `==`, `>`, `<`, `+`, `-`,
`*`, `/` (`OP_EQUAL`, `OP_GREATER`, `OP_LESS`, `OP_ADD`, `OP_SUBTRACT`,
`OP_MULTIPLY`, `OP_DIVIDE`) and two for the others: the opcodes of `!=` are
those of `==` followed by `OP_NOT`, those of `>=` are those of `<` followed
by `OP_NOT`, and those of `<=` are those of `>` followed by `OP_NOT`. The
right operand's code does not depend on the operator token. -/
theorem binary_desugars_comparisons (n : Nat) (s s1 : State)
    (hop : isBinaryOp s.parser.previous.type = true)
    (hr : parsePrecedence n ((getRule s.parser.previous.type).precedence + 1) s = .ok s1) :
    (∃ right, s1.compilingChunk.aryB = s.compilingChunk.aryB ++ right
        ∧ ∃ s2, binary (parsePrecedence n) s = .ok s2
          ∧ s2.compilingChunk.aryB
            = s.compilingChunk.aryB ++ right
              ++ (binaryCode s.parser.previous.type).map OpCode.toByte
          ∧ s2.compilingChunk.aryValConstants = s1.compilingChunk.aryValConstants)
      ∧ (∀ t : Token,
          parsePrecedence n ((getRule s.parser.previous.type).precedence + 1)
            { s with parser := { s.parser with previous := t } } = .ok s1)
      ∧ (binaryCode .TOKEN_EQUAL_EQUAL = [.OP_EQUAL] ∧ binaryCode .TOKEN_GREATER = [.OP_GREATER]
        ∧ binaryCode .TOKEN_LESS = [.OP_LESS] ∧ binaryCode .TOKEN_PLUS = [.OP_ADD]
        ∧ binaryCode .TOKEN_MINUS = [.OP_SUBTRACT] ∧ binaryCode .TOKEN_STAR = [.OP_MULTIPLY]
        ∧ binaryCode .TOKEN_SLASH = [.OP_DIVIDE])
      ∧ (binaryCode .TOKEN_BANG_EQUAL = binaryCode .TOKEN_EQUAL_EQUAL ++ [.OP_NOT]
        ∧ binaryCode .TOKEN_GREATER_EQUAL = binaryCode .TOKEN_LESS ++ [.OP_NOT]
        ∧ binaryCode .TOKEN_LESS_EQUAL = binaryCode .TOKEN_GREATER ++ [.OP_NOT]) := by
  have hk := stable_parsePrecedence (aryB_prefix_stable s.compilingChunk.aryB) n
    ((getRule s.parser.previous.type).precedence + 1) s (List.prefix_refl _)
  rw [hr] at hk
  obtain ⟨right, e⟩ := hk
  have hprec := (getRule_binaryOp hop).2
  refine ⟨⟨right, e.symm, emitOps (binaryCode s.parser.previous.type) s1, ?_, ?_, ?_⟩, ?_,
    ⟨rfl, rfl, rfl, rfl, rfl, rfl, rfl⟩, ⟨rfl, rfl, rfl⟩⟩
  · rw [binary_eq _ _ hop, ← hprec, hr]
  · rw [emitOps_aryB, ← e]
  · rw [emitOps_constants]
  · intro t
    rw [parsePrecedence_previous_irrelevant, hr]

theorem binary_desugars_comparisons_witness :
    (∃ right, (st idle (tok .TOKEN_NUMBER "2") (eofToken 0) []
          (load (tok .TOKEN_NUMBER "2") Chunk.empty)).compilingChunk.aryB
          = (st idle (tok .TOKEN_BANG_EQUAL "!=") (tok .TOKEN_NUMBER "2") []
              Chunk.empty).compilingChunk.aryB ++ right
        ∧ ∃ s2, binary (parsePrecedence 2)
            (st idle (tok .TOKEN_BANG_EQUAL "!=") (tok .TOKEN_NUMBER "2") [] Chunk.empty) = .ok s2
          ∧ s2.compilingChunk.aryB
            = (st idle (tok .TOKEN_BANG_EQUAL "!=") (tok .TOKEN_NUMBER "2") []
                Chunk.empty).compilingChunk.aryB ++ right
              ++ (binaryCode (st idle (tok .TOKEN_BANG_EQUAL "!=") (tok .TOKEN_NUMBER "2") []
                Chunk.empty).parser.previous.type).map OpCode.toByte
          ∧ s2.compilingChunk.aryValConstants
            = (st idle (tok .TOKEN_NUMBER "2") (eofToken 0) []
                (load (tok .TOKEN_NUMBER "2") Chunk.empty)).compilingChunk.aryValConstants)
      ∧ binaryCode .TOKEN_BANG_EQUAL = [.OP_EQUAL, .OP_NOT] :=
  ⟨(binary_desugars_comparisons 2
      (st idle (tok .TOKEN_BANG_EQUAL "!=") (tok .TOKEN_NUMBER "2") [] Chunk.empty)
      (st idle (tok .TOKEN_NUMBER "2") (eofToken 0) [] (load (tok .TOKEN_NUMBER "2") Chunk.empty))
      rfl rfl).1, rfl⟩

/-! ## C19: parentheses -/

/-- C19: let `e` be the tokens of a source before its end of file, on which
`compile` returns `true`. Then `compile` on `( e )` returns `true` too and
leaves the same code bytes and the same constants in the chunk as `compile`
on `e` (`grouping` emits no code of its own); and `compile` on `( e`, where the
`)` is missing, prints "Expect ')' after expression." at the end and returns
`false`. -/
theorem parentheses_are_transparent (g g2 : State) (e : List Token) (l l2 : Nat)
    (lp rp : Token) (chunk : Chunk) (s : State)
    (hlp : lp.type = .TOKEN_LEFT_PAREN) (hrp : rp.type = .TOKEN_RIGHT_PAREN)
    (he : ∀ t ∈ e, t.type ≠ .TOKEN_EOF)
    (h : compile g ⟨e, l⟩ chunk = .ok (true, s)) :
    (∃ s2, compile g2 ⟨lp :: (e ++ [rp]), l2⟩ chunk = .ok (true, s2)
        ∧ s2.compilingChunk.aryB = s.compilingChunk.aryB
        ∧ s2.compilingChunk.aryValConstants = s.compilingChunk.aryValConstants)
      ∧ (∃ s3, compile g2 ⟨lp :: e, l2⟩ chunk = .ok (false, s3)
        ∧ s3.stderr = g2.stderr ++ [⟨l2, .atEnd, msgExpectParen⟩]) := by
  obtain ⟨a2, hpp, herr, heof, hsB, hsC⟩ := compile_true_inner g ⟨e, l⟩ chunk s h
  have hgr : (getRule lp.type).prefixFn = some .grouping := by rw [hlp]; rfl
  constructor
  · obtain ⟨b2, hb, hprev, hch, hb1, hb2, htb, hl2, hcur, _⟩ :=
      grouped_inner (some rp) (fun x hx => by cases hx; exact hrp) g g2 e l l2 lp chunk a2
        hlp he hpp herr heof
    have hcur2 : b2.parser.current = rp := hcur
    replace hb : parsePrecedence (e.length + 1) PREC_ASSIGNMENT
        (advance (advance (start g2 ⟨lp :: (e ++ [rp]), l2⟩ chunk))) = .ok b2 := hb
    replace hprev : (advance (advance
        (start g2 ⟨lp :: (e ++ [rp]), l2⟩ chunk))).parser.previous = lp := hprev
    have hq : consume .TOKEN_RIGHT_PAREN msgExpectParen b2 = advance b2 := by
      unfold consume
      rw [if_pos (by rw [hcur2]; exact hrp)]
    obtain ⟨f1, f2, f3, f4, _⟩ := advance_nil_facts b2 htb
    have hb3 : parsePrecedence (e.length + 1 + 1) PREC_ASSIGNMENT
        (advance (advance (start g2 ⟨lp :: (e ++ [rp]), l2⟩ chunk))) = .ok b2 := by
      rw [parsePrecedence_more_fuel (e.length + 1) (e.length + 1 + 1) (by omega) _ _
        (by rw [hb]; simp)]
      exact hb
    have hP : parsePrecedence ((⟨lp :: (e ++ [rp]), l2⟩ : Scanner).tokens.length + 1)
        PREC_ASSIGNMENT (advance (start g2 ⟨lp :: (e ++ [rp]), l2⟩ chunk))
        = .ok (advance b2) := by
      have hlen : (⟨lp :: (e ++ [rp]), l2⟩ : Scanner).tokens.length + 1
          = e.length + 1 + 1 + 1 := by simp
      rw [hlen, ← hq]
      apply parsePrecedence_grouping (e.length + 1) PREC_ASSIGNMENT _ b2 (by decide)
      · rw [hprev]
        exact hgr
      · exact hb3
      · rw [hq, f3]; rfl
    have hq2 : consume .TOKEN_EOF msgExpectEnd (advance b2) = advance (advance b2) := by
      unfold consume
      rw [if_pos (by rw [f3]; rfl)]
    obtain ⟨k1, _, _, _, _⟩ := advance_nil_facts (advance b2) f4
    refine ⟨endCompiler (advance (advance b2)), ?_, ?_, ?_⟩
    · rw [compile_eq, hP]
      simp only [hq2]
      have hfin : (endCompiler (advance (advance b2))).parser.hadError = false := by
        show (advance (advance b2)).parser.hadError = false
        rw [k1, f1, hb1]
      rw [hfin]
      rfl
    · show (advance (advance b2)).compilingChunk.aryB ++ [_] = _
      rw [advance_chunk, advance_chunk, hch, hsB]
    · show (advance (advance b2)).compilingChunk.aryValConstants = _
      rw [advance_chunk, advance_chunk, hch, hsC]
  · obtain ⟨b2, hb, hprev, hch, hb1, hb2, htb, hl2, hcur, hserr⟩ :=
      grouped_inner none (fun x hx => by cases hx) g g2 e l l2 lp chunk a2
        hlp he hpp herr heof
    have hcur2 : b2.parser.current = eofToken l2 := hcur
    have hq : consume .TOKEN_RIGHT_PAREN msgExpectParen b2
        = errorAtCurrent msgExpectParen b2 := by
      unfold consume
      rw [if_neg (by rw [hcur2]; simp [eofToken])]
    have hb3 : parsePrecedence (e.length + 1) PREC_ASSIGNMENT
        (advance (advance (start g2 ⟨lp :: e, l2⟩ chunk))) = .ok b2 := by
      have e0 : e ++ (none : Option Token).toList = e := by simp
      rw [e0] at hb
      exact hb
    have hprev2 : (advance (advance (start g2 ⟨lp :: e, l2⟩ chunk))).parser.previous = lp := by
      have e0 : e ++ (none : Option Token).toList = e := by simp
      rw [e0] at hprev
      exact hprev
    have hP : parsePrecedence ((⟨lp :: e, l2⟩ : Scanner).tokens.length + 1)
        PREC_ASSIGNMENT (advance (start g2 ⟨lp :: e, l2⟩ chunk))
        = .ok (errorAtCurrent msgExpectParen b2) := by
      have hlen : (⟨lp :: e, l2⟩ : Scanner).tokens.length + 1 = e.length + 1 + 1 := by simp
      rw [hlen, ← hq]
      apply parsePrecedence_grouping e.length PREC_ASSIGNMENT _ b2 (by decide)
      · rw [hprev2]
        exact hgr
      · exact hb3
      · rw [hq, errorAtCurrent, (errorAt_parser_tokens _ _ _).1, hcur2]; rfl
    have hkey : (errorAtCurrent msgExpectParen b2).parser.panicMode = true
        ∧ (errorAtCurrent msgExpectParen b2).stderr
          = g2.stderr ++ [⟨l2, .atEnd, msgExpectParen⟩] := by
      simp [errorAtCurrent, errorAt, hb2, hcur2, hserr, reportOf, eofToken]
    have hhad : (errorAtCurrent msgExpectParen b2).parser.hadError = true :=
      (errorAt_flags _ _ _ (by rw [hb1, hb2])).2
    have hfin : (endCompiler (consume .TOKEN_EOF msgExpectEnd
        (errorAtCurrent msgExpectParen b2))).parser.hadError = true :=
      stable_emitByte hadError_stable _ _ (stable_consume hadError_stable _ _ _ hhad)
    refine ⟨endCompiler (consume .TOKEN_EOF msgExpectEnd (errorAtCurrent msgExpectParen b2)),
      ?_, ?_⟩
    · rw [compile_eq, hP]
      simp only [hfin]
      rfl
    · exact (stable_emitByte (panicMode_stable _) _ _
        (stable_consume (panicMode_stable _) _ _ _ hkey)).2

theorem parentheses_are_transparent_witness :
    (∃ s2, compile idle ⟨tok .TOKEN_LEFT_PAREN "(" :: (onePlusTwoTimesThree
          ++ [tok .TOKEN_RIGHT_PAREN ")"]), 1⟩ Chunk.empty = .ok (true, s2)
        ∧ s2.compilingChunk.aryB
          = [OpCode.OP_CONSTANT.toByte, 0, OpCode.OP_CONSTANT.toByte, 1,
              OpCode.OP_CONSTANT.toByte, 2, OpCode.OP_MULTIPLY.toByte, OpCode.OP_ADD.toByte,
              OpCode.OP_RETURN.toByte]
        ∧ s2.compilingChunk.aryValConstants
          = [.NUMBER_VAL ⟨['1']⟩, .NUMBER_VAL ⟨['2']⟩, .NUMBER_VAL ⟨['3']⟩])
      ∧ (∃ s3, compile idle ⟨tok .TOKEN_LEFT_PAREN "(" :: onePlusTwoTimesThree, 1⟩ Chunk.empty
            = .ok (false, s3)
        ∧ s3.stderr = idle.stderr ++ [⟨1, .atEnd, msgExpectParen⟩]) :=
  parentheses_are_transparent idle idle onePlusTwoTimesThree 1 1 (tok .TOKEN_LEFT_PAREN "(")
    (tok .TOKEN_RIGHT_PAREN ")") Chunk.empty
    { idle with
      parser := ⟨eofToken 1, eofToken 1, false, false⟩
      scanner := ⟨[], 1⟩
      compilingChunk :=
        ⟨[OpCode.OP_CONSTANT.toByte, 0, OpCode.OP_CONSTANT.toByte, 1,
            OpCode.OP_CONSTANT.toByte, 2, OpCode.OP_MULTIPLY.toByte, OpCode.OP_ADD.toByte,
            OpCode.OP_RETURN.toByte],
          [.NUMBER_VAL ⟨['1']⟩, .NUMBER_VAL ⟨['2']⟩, .NUMBER_VAL ⟨['3']⟩], [(1, 9)]⟩ }
    rfl rfl (by decide) rfl

/-! ## C20: termination -/

/-- C20: `compile` terminates on every finite token stream (after which the
scanner returns the end-of-file token forever): its run never uses up the
recursion budget of one more than the number of tokens, so it returns or
stops at the call of a `NULL` infix handler, and a larger budget gives the
same result. The measure is what is left to read: `advance` never increases
it and decreases it unless the current token is the end of file; a call of
`parsePrecedence` returns with no more left to read than it started with; the
end-of-file token has no prefix handler, no infix handler and the precedence
`PREC_NONE`, so the recursion and the infix loop stop at it; and the loop of
`advance` skips the error tokens and stops at the first other token, or at the
end of the stream, never leaving an error token current. -/
theorem compile_terminates (g : State) (source : Scanner) (chunk : Chunk) :
    compile g source chunk ≠ .error .outOfFuel
      ∧ (∀ m, source.tokens.length + 1 ≤ m →
          parsePrecedence m PREC_ASSIGNMENT (advance (start g source chunk))
            = parsePrecedence (source.tokens.length + 1) PREC_ASSIGNMENT
                (advance (start g source chunk)))
      ∧ (∀ n m prec s, remaining s < n → n ≤ m →
          parsePrecedence n prec s ≠ .error .outOfFuel
            ∧ parsePrecedence m prec s = parsePrecedence n prec s)
      ∧ (∀ s, remaining (advance s) ≤ remaining s)
      ∧ (∀ s, s.parser.current.type ≠ .TOKEN_EOF → remaining (advance s) < remaining s)
      ∧ (∀ n prec s s2, parsePrecedence n prec s = .ok s2 → remaining s2 ≤ remaining s)
      ∧ ((getRule .TOKEN_EOF).prefixFn = none ∧ (getRule .TOKEN_EOF).infixFn = none
          ∧ (getRule .TOKEN_EOF).precedence = PREC_NONE)
      ∧ (∀ n prec s, (advance s).parser.previous.type = .TOKEN_EOF →
          parsePrecedence (n + 1) prec s = .ok (error msgExpectExpression (advance s)))
      ∧ (∀ pp n prec s, 0 < prec → s.parser.current.type = .TOKEN_EOF →
          infixLoop pp (n + 1) prec s = .ok s)
      ∧ (∀ errs t rest s, (∀ e ∈ errs, e.type = .TOKEN_ERROR) → t.type ≠ .TOKEN_ERROR →
          (advanceLoop s (errs ++ t :: rest)).parser.current = t
            ∧ (advanceLoop s (errs ++ t :: rest)).scanner.tokens = rest)
      ∧ (∀ errs s, (∀ e ∈ errs, e.type = .TOKEN_ERROR) →
          (advanceLoop s errs).parser.current = eofToken s.scanner.eofLine
            ∧ (advanceLoop s errs).scanner.tokens = [])
      ∧ (∀ s, (advance s).parser.current.type ≠ .TOKEN_ERROR) := by
  have hrem : remaining (advance (start g source chunk)) < source.tokens.length + 1 :=
    Nat.lt_succ_of_le (remaining_advance (start g source chunk))
  refine ⟨compile_ne_outOfFuel g source chunk, ?_, ?_, ?_, remaining_advance_lt,
    parsePrecedence_remaining, ⟨rfl, rfl, rfl⟩, ?_, ?_, ?_, ?_, ?_⟩
  · intro m hm
    exact parsePrecedence_more_fuel _ m hm _ _ (parsePrecedence_ne_outOfFuel _ _ _ hrem)
  · intro n m prec s hs hnm
    exact ⟨parsePrecedence_ne_outOfFuel n prec s hs,
      parsePrecedence_more_fuel n m hnm prec s (parsePrecedence_ne_outOfFuel n prec s hs)⟩
  · intro s
    exact le_trans (remaining_advance s) (tokens_le_remaining s)
  · intro n prec s h
    have hr : (getRule (advance s).parser.previous.type).prefixFn = none := by rw [h]; rfl
    simp only [parsePrecedence, hr]
  · intro pp n prec s hprec h
    apply infixLoop_stop
    rw [h]
    exact hprec
  · intro errs t rest s herrs ht
    have h := advanceLoop_skips errs t rest herrs ht s
    exact ⟨h.1, h.2.1⟩
  · intro errs s herrs
    exact advanceLoop_only_errors errs herrs s
  · intro s
    exact advanceLoop_current_ne_error _ _

/-! ## C21: the reads of the disassembler -/

/-- C21, as the code has it: `disassembleInstruction` checks no bound itself
(its `ASSERT`s expand to nothing, and the operands of the jump, immediate,
invoke and closure handlers are read without one), so the precondition
`offset < length` keeps the opcode byte in the code array and nothing more.
All its reads are inside the arrays exactly when the chunk is well formed at
`offset` (`wellFormedAt`): then it returns, the instruction it has read ends
inside the code array (`next ≤ length`), and every constant it prints is the
constant of the pool at the index shown, below the pool length; otherwise a
read falls outside an array, or a constant that is no function is read as
one. For an opcode without operand and for an unknown opcode the precondition
is enough. -/
theorem disassembler_reads_inside_iff_well_formed (chunk : Chunk) (offset : Nat) :
    (wellFormedAt chunk offset = true →
        ∃ next out, disassembleInstruction chunk offset = some (next, out)
          ∧ offset < next ∧ next ≤ chunk.aryB.length
          ∧ ∀ p ∈ out, ∀ c v, printedConstant p = some (c, v) →
              c < chunk.aryValConstants.length ∧ chunk.aryValConstants[c]? = some v)
      ∧ (wellFormedAt chunk offset = false → disassembleInstruction chunk offset = none)
      ∧ (offset < chunk.aryB.length → ∃ b, chunk.aryB[offset]? = some b)
      ∧ (∀ b, chunk.aryB[offset]? = some b →
          (OpCode.ofByte b = none
            ∨ ∃ op, OpCode.ofByte b = some op ∧ op.form = .simpleInstruction) →
          wellFormedAt chunk offset = true) := by
  obtain ⟨h1, h2⟩ := disassembleInstruction_reads chunk offset
  refine ⟨?_, h2, ?_, ?_⟩
  · intro hw
    obtain ⟨next, out, e, a, b, hp⟩ := h1 hw
    refine ⟨next, out, e, a, b, ?_⟩
    intro p hmem c v hpc
    have hv := hp p hmem c v hpc
    exact ⟨(List.getElem?_eq_some_iff.mp hv).1, hv⟩
  · intro hlt
    exact ⟨_, List.getElem?_eq_getElem hlt⟩
  · intro b hb hop
    rcases hop with ho | ⟨op, ho, hf⟩
    · simp only [wellFormedAt, hb, ho]
    · simp only [wellFormedAt, hb, ho, hf]

theorem disassembler_reads_inside_iff_well_formed_witness :
    ∃ next out, disassembleInstruction chunkClosureLong 0 = some (next, out)
      ∧ 0 < next ∧ next ≤ chunkClosureLong.aryB.length
      ∧ ∀ p ∈ out, ∀ c v, printedConstant p = some (c, v) →
          c < chunkClosureLong.aryValConstants.length
            ∧ chunkClosureLong.aryValConstants[c]? = some v :=
  (disassembler_reads_inside_iff_well_formed chunkClosureLong 0).1 rfl

/-- C21, the claim as stated fails: each of these chunks has an opcode at
offset 0, so the precondition `offset < length` holds, and
`disassembleInstruction` reads outside an array: the operand byte of
`OP_CONSTANT` at index 1 of a code array of length 1; the constant 5 of a pool
of one constant; the second operand byte of `OP_JUMP` at index 2 of a code
array of length 2; and the second upvalue pair of an `OP_CLOSURE` at index 4
of a code array of length 4. -/
theorem disassembler_reads_outside :
    (0 < chunkOperandMissing.aryB.length
        ∧ chunkOperandMissing.aryB[0]? = some OpCode.OP_CONSTANT.toByte
        ∧ chunkOperandMissing.aryB[0 + 1]? = none
        ∧ getConstant chunkOperandMissing false (0 + 1) = none
        ∧ disassembleInstruction chunkOperandMissing 0 = none)
      ∧ (0 < chunkConstantMissing.aryB.length
        ∧ chunkConstantMissing.aryB[0]? = some OpCode.OP_CONSTANT.toByte
        ∧ getConstant chunkConstantMissing false (0 + 1) = some (5, 2)
        ∧ chunkConstantMissing.aryValConstants.length = 1
        ∧ chunkConstantMissing.aryValConstants[5]? = none
        ∧ disassembleInstruction chunkConstantMissing 0 = none)
      ∧ (0 < chunkJumpCut.aryB.length
        ∧ chunkJumpCut.aryB[0]? = some OpCode.OP_JUMP.toByte
        ∧ chunkJumpCut.aryB[0 + 2]? = none
        ∧ disassembleInstruction chunkJumpCut 0 = none)
      ∧ (0 < chunkClosureCut.aryB.length
        ∧ chunkClosureCut.aryB[0]? = some OpCode.OP_CLOSURE.toByte
        ∧ closureLoop chunkClosureCut 1 2 = some (4, [.upvalue 2 true 0])
        ∧ chunkClosureCut.aryB[4]? = none
        ∧ closureLoop chunkClosureCut 2 2 = none
        ∧ disassembleInstruction chunkClosureCut 0 = none) :=
  ⟨⟨by decide, rfl, rfl, rfl, rfl⟩, ⟨by decide, rfl, rfl, rfl, rfl, rfl⟩,
    ⟨by decide, rfl, rfl, rfl⟩, ⟨by decide, rfl, rfl, rfl, rfl, rfl⟩⟩

end Clox
